import Mathlib

/-!
# BigInteger: a shallow embedding of `Integer` (integer.hpp / integer.cpp)

An `Integer` is modelled by its word vector `_words`, least significant word
first.  Every word is an `int32_t`, modelled as an `Int` in
`[-2^31, 2^31)`; conversions to `int32_t` are written `toInt32`, the mask
`& 0x7fffffff` is `low31`, `| 0x80000000` is `setSignBit` and the arithmetic
shift `>> 31` of a 64-bit accumulator is `sar31`.  The 64-bit accumulators
(`carry`, `aux`, `result`) never leave the `int64_t` range when the words are
`int32_t` values (sum of two words, product of two words, a word shifted by at
most 30 bits), so they are plain `Int`s.  Container sizes and loop indices
(`size_t`, `int`) are modelled as unbounded naturals.
-/

namespace BigInteger

/-- The word vector `_words` of an `Integer`, least significant word first. -/
abbrev Words := List Int

def INT32_MAX : Int := 2147483647

def INT32_MIN : Int := -2147483648

/-- Conversion of a wider integer to `int32_t` (two's-complement truncation). -/
def toInt32 (x : Int) : Int := (x + 2147483648) % 4294967296 - 2147483648

/-- The mask `x & 0x7fffffff`: the low 31 bits of a two's-complement value. -/
def low31 (x : Int) : Int := x % 2147483648

/-- The update `x |= 0x80000000` on an `int32_t`. -/
def setSignBit (x : Int) : Int := if x < 0 then x else x - 2147483648

/-- The arithmetic shift `x >> 31` of a 64-bit accumulator. -/
def sar31 (x : Int) : Int := x / 2147483648

/-- The word `_words.back()`. -/
def back (ws : Words) : Int := ws.getLastD 0

/-- The assignment `_words.back() = v`. -/
def setBack (ws : Words) (v : Int) : Words := ws.set (ws.length - 1) v

/-- The call `_words.resize(n, fill)` of `std::vector`. -/
def vecResize (ws : Words) (n : Nat) (fill : Int) : Words :=
  ws.take n ++ List.replicate (n - ws.length) fill

/-- Observer `is_negative`: `_words.back() < 0`. -/
def is_negative (ws : Words) : Bool := decide (back ws < 0)

/-- Observer `is_zero`: `_words.back() == 0`. -/
def is_zero (ws : Words) : Bool := decide (back ws = 0)

/-- Observer `is_even`: `(_words[0] & 1) == 0`. -/
def is_even (ws : Words) : Bool := decide (ws.getD 0 0 % 2 = 0)

/-- Method `reset`: `_words.resize(1); _words.back() = 0`. -/
def reset (ws : Words) : Words := setBack (vecResize ws 1 0) 0

/-- Method `resize(n)`: grows or shrinks the vector to `n` words, extending a
negative value with `0x7fffffff` words and moving the sign bit to the new top
word; when shrinking, the sign is kept only if every discarded word, the old
top word without its sign bit included, is `0x7fffffff`. -/
def resize (ws : Words) (n : Nat) : Words :=
  if ws ≠ [] ∧ back ws < 0 then
    let ws1 := setBack ws (low31 (back ws))
    let sign : Bool := (ws1.drop n).all (fun w => decide (w = INT32_MAX))
    let ws2 := vecResize ws1 n (if sign then INT32_MAX else 0)
    if sign then setBack ws2 (setSignBit (back ws2)) else ws2
  else
    vecResize ws n 0

/-- The `while` loop of `fix`: starting at index `i`, step down while `i > 0`
and word `i` is redundant (0 for a non-negative value, -1 or `INT32_MAX` for a
negative one); returns the final `i`. -/
def fixIndex (ws : Words) (neg : Bool) : Nat → Nat
  | 0 => 0
  | i + 1 =>
    if (ws.getD (i + 1) 0 = 0 ∧ neg = false) ∨
        ((ws.getD (i + 1) 0 = -1 ∨ ws.getD (i + 1) 0 = INT32_MAX) ∧ neg = true)
    then fixIndex ws neg i else i + 1

/-- Method `fix`: removes the redundant most significant words. -/
def fix (ws : Words) : Words :=
  if ws.length > 1 then
    resize ws (fixIndex ws (is_negative ws) (ws.length - 1) + 1)
  else if ws = [] then
    setBack (resize ws 1) 0
  else ws

/-- Method `split(n1, n2, part_size)`: returns `(n1, n2)`, the `part_size`
least significant words and the remaining words, both passed through `fix`. -/
def split (ws : Words) (part_size : Nat) : Words × Words :=
  let n1 := fix (if part_size < ws.length then ws.take part_size else ws)
  let n2 := fix (if n1.length = ws.length then [0] else ws.drop part_size)
  (n1, n2)

/-- The `for` loop of `add(n1, n2, index)`: `k` remaining iterations starting
at word `i` with accumulator `carry`; returns the words and the final carry.
When `n1` is the current object its words at positions `i` and above are read
before they are written, so `n1` is passed as the value it had on entry. -/
def addWordLoop (n1 : Words) : Nat → Nat → Int → Words → Words × Int
  | 0, _, carry, this => (this, carry)
  | k + 1, i, carry, this =>
    let carry := carry + n1.getD i 0
    let this := if i ≥ this.length then resize this (i + 1) else this
    let this := this.set i (low31 (toInt32 carry))
    addWordLoop n1 k (i + 1) (sar31 carry) this

/-- Method `add(n1, n2, index)` with a 32-bit `n2`: adds `n2` to `n1` starting
at word `index` and stores the result in the current object `this`. -/
def addWord (this n1 : Words) (n2 : Int) (index : Nat) : Words :=
  let (this, carry) := addWordLoop n1 (n1.length - index) index n2 this
  let i := max index n1.length
  let this := if i < this.length then resize this i else this
  let this := if carry ≠ 0 ∧ carry ≠ -1 then (resize this (i + 1)).set i (toInt32 carry) else this
  if carry < 0 then setBack this (setSignBit (back this)) else this

/-- Method `bitwise_not`. -/
def bitwise_not (ws : Words) : Words :=
  let low := (ws.take (ws.length - 1)).map (fun w => low31 (-w - 1))
  fix (low ++ [-(back ws) - 1])

/-- Method `negative`: `bitwise_not(); add(*this, 1, 0); fix()`. -/
def negative (ws : Words) : Words :=
  let t := bitwise_not ws
  fix (addWord t t 1 0)

/-- The loop of `add(n1, n2, negative)` folding the words `1 .. size-1` of
`smaller` into `result`. -/
def addFold (smaller : Words) : Nat → Nat → Words → Words
  | 0, _, result => result
  | k + 1, i, result => addFold smaller k (i + 1) (addWord result result (smaller.getD i 0) i)

/-- Method `add(n1, n2, negative)`: `n1 + n2`, or `n1 - n2` when `negative`. -/
def add (n1 n2 : Words) (neg : Bool) : Words :=
  let n2_aux := if neg then negative n2 else n2
  let bigger := if n1.length ≥ n2.length then n1 else n2_aux
  let smaller := if n1.length < n2.length then n1 else n2_aux
  let size := smaller.length
  let result := addWord [0] bigger (smaller.getD 0 0) 0
  fix (addFold smaller (size - 1) 1 result)

/-- The word-by-word loop of `compare`, from word `i - 1` down to word 0. -/
def compareWords (a b : Words) : Nat → Int
  | 0 => 0
  | i + 1 =>
    if a.getD i 0 > b.getD i 0 then 1
    else if a.getD i 0 < b.getD i 0 then -1
    else compareWords a b i

/-- Method `compare`: -1, 0 or 1. -/
def compare (a b : Words) : Int :=
  if a.length > b.length then (if is_negative a then -1 else 1)
  else if a.length < b.length then (if is_negative b then 1 else -1)
  else if is_negative a ∧ ¬ is_negative b then -1
  else if ¬ is_negative a ∧ is_negative b then 1
  else compareWords a b a.length

/-- The loop of `bitwise_shift_left` over the words `i - 1` down to 0: each
word is shifted by `p` bits and its overflow is added to the next word. -/
def shiftLeftLoop (p : Nat) : Nat → Words → Words
  | 0, ws => ws
  | i + 1, ws =>
    let aux := ws.getD i 0 * 2 ^ p
    let ws := ws.set i (low31 aux)
    let aux := sar31 aux
    let ws := ws.set (i + 1) (toInt32 (ws.getD (i + 1) 0 + low31 aux))
    shiftLeftLoop p i ws

/-- The partial shift of `bitwise_shift_left`, by `p_shift > 0` bits: the most
significant word first, with one more word when its overflow is not redundant,
then the other words. -/
def shiftLeftBits (ws : Words) (p_shift : Nat) : Words :=
  let i := ws.length - 1
  let aux := back ws * 2 ^ p_shift
  let ws1 := ws.set i (low31 aux)
  let aux := sar31 aux
  let ws2 :=
    if aux ≠ 0 ∧ aux ≠ -1 then setBack (resize ws1 (ws1.length + 1)) (low31 aux) else ws1
  let ws3 := if aux < 0 then setBack ws2 (setSignBit (back ws2)) else ws2
  shiftLeftLoop p_shift i ws3

/-- Method `bitwise_shift_left(d)`. -/
def bitwise_shift_left (ws : Words) (d : Nat) : Words :=
  let f_shift := d / 31
  let p_shift := d % 31
  let ws := if p_shift > 0 then shiftLeftBits ws p_shift else ws
  let ws := if f_shift > 0 ∧ back ws ≠ 0 then List.replicate f_shift 0 ++ ws else ws
  fix ws

/-- The loop of `bitwise_shift_right` over the words `i .. size-1`; returns
the words and the last value of `aux`. -/
def shiftRightLoop (p : Nat) : Nat → Nat → Int → Words → Words × Int
  | 0, _, aux, ws => (ws, aux)
  | k + 1, i, _, ws =>
    let aux := ws.getD i 0 * 2 ^ (31 - p)
    let ws := ws.set (i - 1) (toInt32 (ws.getD (i - 1) 0 + low31 aux))
    let aux := sar31 aux
    let ws := ws.set i (low31 aux)
    shiftRightLoop p k (i + 1) aux ws

/-- The partial shift of `bitwise_shift_right`, by `p_shift > 0` bits, on a
non-empty vector. -/
def shiftRightBits (ws : Words) (p_shift : Nat) : Words :=
  let aux := ws.getD 0 0 / 2 ^ p_shift
  let ws1 := if ws.length = 1 then ws.set 0 (toInt32 aux) else ws.set 0 (low31 aux)
  let r := shiftRightLoop p_shift (ws1.length - 1) 1 aux ws1
  if r.2 < 0 then setBack r.1 (setSignBit (back r.1)) else r.1

/-- Method `bitwise_shift_right(d)`. -/
def bitwise_shift_right (ws : Words) (d : Nat) : Words :=
  let f_shift := d / 31
  let p_shift := d % 31
  let ws := if f_shift > 0 then ws.drop f_shift else ws
  let ws := if p_shift > 0 ∧ ws ≠ [] then shiftRightBits ws p_shift else ws
  fix ws

/-- The loop of the integral constructor: `n` is the native value still to be
stored, `fuel` bounds the number of iterations (3 suffice for 64 bits). -/
def ofNativeLoop : Nat → Int → Words → Words
  | 0, _, ws => ws
  | fuel + 1, n, ws =>
    if n ≠ 0 ∧ n ≠ -1 then
      let aux := if INT32_MIN ≤ n ∧ n ≤ INT32_MAX then toInt32 n else low31 n
      ofNativeLoop fuel (sar31 n) (setBack (resize ws (ws.length + 1)) aux)
    else ws

/-- The integral constructor `Integer(INT_T n)` for a signed native type of at
most 64 bits. -/
def ofNative (n : Int) : Words :=
  let ws := ofNativeLoop 3 n []
  if ws = [] then setBack (resize ws 1) (toInt32 n) else ws

/-- The loop of the integral constructor for an unsigned native type: the test
`n != -1` is skipped and, whichever branch the range test takes after the
integer conversions, the word stored is the low 31 bits of `n`. -/
def ofUnsignedLoop : Nat → Int → Words → Words
  | 0, _, ws => ws
  | fuel + 1, n, ws =>
    if n ≠ 0 then
      ofUnsignedLoop fuel (sar31 n) (setBack (resize ws (ws.length + 1)) (low31 n))
    else ws

/-- The integral constructor `Integer(INT_T n)` for an unsigned native type of
at most 64 bits. -/
def ofUnsigned (n : Int) : Words :=
  let ws := ofUnsignedLoop 3 n []
  if ws = [] then setBack (resize ws 1) (toInt32 n) else ws

/-- The loop `while (aux != 0) { aux >>= 1; index_aux++; }` of `findFirstOne`
on a non-negative 32-bit word; `fuel` bounds the iterations. -/
def bitLength : Nat → Int → Nat
  | 0, _ => 0
  | fuel + 1, aux => if aux ≠ 0 then bitLength fuel (aux / 2) + 1 else 0

/-- Method `findFirstOne`: index of the most significant 1 bit.  The C++
result is a `size_t`; for the zero value the source computes `0 - 1`, which
wraps, and the caller converts the difference of two results to `int`, so the
value is modelled as the integer `-1`. -/
def findFirstOne (ws : Words) : Int :=
  if is_negative ws then (ws.length : Int) * 31
  else (bitLength 32 (back ws) : Int) + ((ws.length : Int) - 1) * 31 - 1

/-- The `while (index >= 0)` loop of `divide`, `k = index + 1` iterations. -/
def divideLoop : Nat → Words → Words → Words → Words × Words
  | 0, quotient, remainder, _ => (quotient, remainder)
  | k + 1, quotient, remainder, aux =>
    let quotient := bitwise_shift_left quotient 1
    let comp := compare aux remainder
    let remainder := if comp < 1 then add remainder aux true else remainder
    let quotient := if comp < 1 then add quotient (ofNative 1) false else quotient
    divideLoop k quotient remainder (bitwise_shift_right aux 1)

/-- Method `divide(d, quotient, remainder)`: `none` stands for the exception
`zero_division_error`, otherwise the pair `(quotient, remainder)`. -/
def divide (this d : Words) : Option (Words × Words) :=
  if is_zero d then none
  else
    let org_sign := is_negative this
    let sign := xor (is_negative this) (is_negative d)
    let remainder := if is_negative this then negative this else this
    let aux := if is_negative d then negative d else d
    let index : Int := findFirstOne remainder - findFirstOne aux
    let aux := if index > 0 then bitwise_shift_left aux index.toNat else aux
    let (quotient, remainder) := divideLoop (index + 1).toNat (reset []) remainder aux
    let quotient := if sign then negative quotient else quotient
    let remainder := if org_sign then negative remainder else remainder
    some (quotient, remainder)

/-- Method `multiply(n1, n2)`, with `fuel` bounding the recursion depth;
`none` when the fuel runs out. -/
def multiplyFuel : Nat → Words → Words → Option Words
  | 0, _, _ => none
  | fuel + 1, n1, n2 =>
    if is_zero n1 ∨ is_zero n2 then some (reset [])
    else if compare n1 (ofNative (-1)) = 0 then some (negative n2)
    else if compare n2 (ofNative (-1)) = 0 then some (negative n1)
    else if n1.length = 1 ∧ n2.length = 1 then
      let result := back n1 * back n2
      let w0 := low31 result
      let w1 := low31 (sar31 result)
      let result := sar31 (sar31 result)
      some (fix (if result < 0 then [w0, setSignBit w1] else [w0, w1]))
    else
      let size := max n1.length n2.length
      let size := size / 2 + size % 2
      let (x, w) := split n1 size
      let (z, y) := split n2 size
      match multiplyFuel fuel (add w x false) (add y z false),
            multiplyFuel fuel w y, multiplyFuel fuel x z with
      | some r, some p, some q =>
        let t := add (bitwise_shift_left p (2 * size * 31))
                  (bitwise_shift_left (add (add r p true) q true) (31 * size)) false
        some (add t q false)
      | _, _, _ => none

/-- The value denoted by a word vector: `sum w[i] * 2^(31 i)`; the most
significant word is read as the signed 32-bit integer it is, the other words
are 31-bit magnitudes. -/
def val : Words → Int
  | [] => 0
  | w :: ws => w + 2147483648 * val ws

/-- A fuel that suffices for `multiplyFuel` on normalized operands: every
recursive call is made on operands whose absolute values add up to less. -/
def mulFuel (n1 n2 : Words) : Nat := (val n1).natAbs + (val n2).natAbs + 1

/-- Method `multiply(n1, n2)` run with the fuel `mulFuel`; the empty vector
stands for a run that exhausts it. -/
def multiply (n1 n2 : Words) : Words := (multiplyFuel (mulFuel n1 n2) n1 n2).getD []

/-- The loop `while (!exp_aux.is_zero())` of `power`; each iteration halves
`exp_aux`, `k` bounds the number of iterations. -/
def powerLoop : Nat → Words → Words → Words → Words
  | 0, result, _, _ => result
  | k + 1, result, aux, exp_aux =>
    if is_zero exp_aux then result
    else
      powerLoop k (if is_even exp_aux then result else multiply result aux)
        (multiply aux aux) (bitwise_shift_right exp_aux 1)

/-- Method `power(exp)`: `none` stands for `std::invalid_argument`. -/
def power (this exp : Words) : Option Words :=
  if is_negative exp then none
  else some (powerLoop (31 * exp.length) (ofNative 1) this exp)

/-- Method `abs()`. -/
def abs (ws : Words) : Words := if is_negative ws then negative ws else ws

/-- Operator `++`: `add(*this, 1, 0); fix()`. -/
def increment (ws : Words) : Words := fix (addWord ws ws 1 0)

/-- Operator `--`: `add(*this, -1, 0); fix()`. -/
def decrement (ws : Words) : Words := fix (addWord ws ws (-1) 0)

/-- The loop `for (i = 0; i < size; i++) this[i] &= n[i]` of `bitwise_and`. -/
def andWords : Nat → Words → Words → Words
  | k + 1, t :: ts, w :: ws => Int.land t w :: andWords k ts ws
  | _, ts, _ => ts

/-- Method `bitwise_and(n)`. -/
def bitwise_and (this n : Words) : Words :=
  let size := min this.length n.length
  let this :=
    if n.length < this.length ∧ ¬ is_negative n then resize this n.length
    else if n.length > this.length ∧ is_negative this then
      (resize this n.length).take size ++ n.drop size
    else this
  fix (andWords size this n)

/-- The loop `for (i = 0; i < size; i++) this[i] |= (n[i] & 0x7fffffff)` of
`bitwise_or`. -/
def orWords : Nat → Words → Words → Words
  | k + 1, t :: ts, w :: ws => Int.lor t (low31 w) :: orWords k ts ws
  | _, ts, _ => ts

/-- Method `bitwise_or(n)`. -/
def bitwise_or (this n : Words) : Words :=
  let size := min this.length n.length
  let sign := is_negative this || is_negative n
  let this1 := orWords size this n
  let this2 :=
    if (this1.length < n.length ∧ ¬ is_negative this1) ∨
        (this1.length > n.length ∧ is_negative n) then
      (resize this1 n.length).take size ++ n.drop size
    else this1
  fix (if sign then setBack this2 (setSignBit (back this2)) else this2)

/-- The loop of `string_to_integer`; `cs` holds the characters still to be
read, the last character of the string first, so the character of index 0 is
the one read when nothing follows it in `cs`.  `none` stands for
`std::invalid_argument`. -/
def stringLoop : List Char → Words → Words → Option Words
  | [], this, _ => some this
  | c :: cs, this, pow_ten =>
    if '0' ≤ c ∧ c ≤ '9' then
      let aux := multiply pow_ten (ofNative ((c.toNat : Int) - 48))
      stringLoop cs (add this aux false) (multiply pow_ten (ofNative 10))
    else if cs = [] ∧ c = '-' then stringLoop cs (negative this) pow_ten
    else none

/-- Method `string_to_integer(n)`, the body of the string constructor. -/
def string_to_integer (n : String) : Option Words :=
  stringLoop n.data.reverse (reset []) (ofNative 1)

/-- Well-formed word vector: at least one word, bit 31 clear in every word
except the most significant, which is any `int32_t`. -/
def Proper (ws : Words) : Prop :=
  ws ≠ [] ∧ (∀ w ∈ ws.dropLast, 0 ≤ w ∧ w < 2147483648) ∧
    (-2147483648 ≤ back ws ∧ back ws < 2147483648)

/-- Normalized form: a well-formed vector whose most significant word, when
there is more than one word, is neither 0 nor -1. -/
def Normalized (ws : Words) : Prop :=
  Proper ws ∧ (1 < ws.length → back ws ≠ 0 ∧ back ws ≠ -1)

instance (ws : Words) : Decidable (Proper ws) := by
  unfold Proper; exact inferInstance

instance (ws : Words) : Decidable (Normalized ws) := by
  unfold Normalized; exact inferInstance

/-! ## Auxiliary definitions used by the proofs -/

/-- All words of the list are 31-bit magnitudes. -/
def Low (l : Words) : Prop := ∀ w ∈ l, 0 ≤ w ∧ w < 2147483648

/-- The redundancy test of the loop of `fix`. -/
def RedV (neg : Bool) (w : Int) : Prop :=
  (w = 0 ∧ neg = false) ∨ ((w = -1 ∨ w = INT32_MAX) ∧ neg = true)

/-- The digits and the final carry of the ripple-carry loop of `add` over the
words `l`, starting with the accumulator `c`. -/
def carryChain : Words → Int → Words × Int
  | [], c => ([], c)
  | w :: ws, c =>
    (low31 (toInt32 (c + w)) :: (carryChain ws (sar31 (c + w))).1,
      (carryChain ws (sar31 (c + w))).2)

/-- Operand values on which the recursion of `multiply` is exact: both
non-negative, or one of them 0 or 1. -/
def MulExact (A B : Int) : Prop :=
  (0 ≤ A ∧ 0 ≤ B) ∨ (B = 0 ∨ B = 1) ∨ (A = 0 ∨ A = 1)

/-- The three-way comparison of two integers. -/
def cmpInt (x y : Int) : Int := if x < y then -1 else if x = y then 0 else 1

/-! ## Comparison operators, calls that may throw, and conversions -/

/-- Operator `>`: `compare(n) > 0`. -/
def operator_gt (a b : Words) : Bool := decide (compare a b > 0)

/-- Operator `>=`: `compare(n) >= 0`. -/
def operator_ge (a b : Words) : Bool := decide (compare a b ≥ 0)

/-- Operator `<`: `compare(n) < 0`. -/
def operator_lt (a b : Words) : Bool := decide (compare a b < 0)

/-- Operator `<=`: `compare(n) <= 0`. -/
def operator_le (a b : Words) : Bool := decide (compare a b ≤ 0)

/-- Operator `==`: `compare(n) == 0`. -/
def operator_eq (a b : Words) : Bool := decide (compare a b = 0)

/-- Operator `!=`: `compare(n) != 0`. -/
def operator_ne (a b : Words) : Bool := decide (compare a b ≠ 0)

/-- A call `this->divide(d, quotient, remainder)` seen by its caller: whether
`zero_division_error` was thrown, and the objects `quotient` and `remainder`
after the call.  The test `d.is_zero()` is the first statement of the method,
so the exception leaves before `remainder` or `quotient` is assigned. -/
def divideCall (this d quotient remainder : Words) : Bool × Words × Words :=
  match divide this d with
  | none => (true, quotient, remainder)
  | some (q, r) => (false, q, r)

/-- Operator `/`: `Integer q, r; this->divide(d, q, r); return q;`, `none` when
the call throws. -/
def operator_div (this d : Words) : Option Words :=
  let (thrown, q, _) := divideCall this d [0] [0]
  if thrown then none else some q

/-- Operator `%`: `Integer q, r; this->divide(d, q, r); return r;`, `none` when
the call throws. -/
def operator_mod (this d : Words) : Option Words :=
  let (thrown, _, r) := divideCall this d [0] [0]
  if thrown then none else some r

/-- Operator `/=`: `Integer r; this->divide(d, *this, r);`.  Returns whether the
call threw and the words of `*this` afterwards. -/
def operator_div_assign (this d : Words) : Bool × Words :=
  let (thrown, q, _) := divideCall this d this [0]
  (thrown, q)

/-- Operator `%=`: `Integer q; this->divide(d, q, *this);`.  Returns whether the
call threw and the words of `*this` afterwards. -/
def operator_mod_assign (this d : Words) : Bool × Words :=
  let (thrown, _, r) := divideCall this d [0] this
  (thrown, r)

/-- The loop of `string_to_integer` as a state transformer on `*this`: whether
`std::invalid_argument` was thrown, and the words of `*this` when the loop is
left (by its end or by the exception).  `cs` holds the characters still to be
read, the last character of the string first. -/
def stringRun : List Char → Words → Words → Bool × Words
  | [], this, _ => (false, this)
  | c :: cs, this, pow_ten =>
    if '0' ≤ c ∧ c ≤ '9' then
      let aux := multiply pow_ten (ofNative ((c.toNat : Int) - 48))
      stringRun cs (add this aux false) (multiply pow_ten (ofNative 10))
    else if cs = [] ∧ c = '-' then stringRun cs (negative this) pow_ten
    else (true, this)

/-- Operator `=` from a string on an object holding `this`: it runs
`string_to_integer(n)` on `*this`, which starts with `this->reset()`. -/
def assignString (this : Words) (n : String) : Bool × Words :=
  stringRun n.data.reverse (reset this) (ofNative 1)

/-- The loop of the integral assignment operator `operator=(INT_T n)` for a
signed native type; `fuel` bounds the number of iterations. -/
def assignNativeLoop : Nat → Int → Words → Words
  | 0, _, ws => ws
  | fuel + 1, n, ws =>
    if n ≠ 0 ∧ n ≠ -1 then
      let aux := if (0 ≤ n ∧ n ≤ INT32_MAX) ∨ (n < 0 ∧ INT32_MIN ≤ n) then toInt32 n
        else low31 n
      assignNativeLoop fuel (sar31 n) (setBack (resize ws (ws.length + 1)) aux)
    else ws

/-- Operator `=` from a signed native integer of at most 64 bits on an object
holding `this`: `_words.clear()`, then the words of `n`. -/
def assignNative (this : Words) (n : Int) : Words :=
  let this : Words := this.take 0
  let ws := assignNativeLoop 3 n this
  if ws = [] then setBack (resize ws 1) (toInt32 n) else ws

/-- Conversion of a wider integer to `long long` (two's-complement
truncation to 64 bits). -/
def toInt64 (x : Int) : Int :=
  (x + 9223372036854775808) % 18446744073709551616 - 9223372036854775808

/-- The loop of `getInt`: `aux = _words[i]; aux <<= 31 * i; ret += aux`, for
the `k` words from index `i` on. -/
def getIntLoop (ws : Words) : Nat → Nat → Int → Int
  | 0, _, ret => ret
  | k + 1, i, ret =>
    getIntLoop ws k (i + 1) (toInt64 (ret + toInt64 (ws.getD i 0 * 2 ^ (31 * i))))

/-- Method `getInt()`: `none` stands for `integer_conversion_error`, thrown when
`_words.size() * sizeof(int32_t) >= sizeof(long long int)`, with 4 and 8 for
the two sizes. -/
def getInt (ws : Words) : Option Int :=
  if ws.length * 4 ≥ 8 then none
  else some (getIntLoop ws ws.length 0 0)

/-- The character appended by `string_aux += (int)r + '0'`: the conversion of
`r` to `long long` (which may throw), narrowed to `int`, plus the code of
`'0'`, narrowed to a character code. -/
def digitChar (r : Words) : Option Char :=
  match getInt r with
  | none => none
  | some v => some (Char.ofNat ((toInt32 (toInt32 v + 48)) % 256).toNat)

/-- The `while (aux.is_zero() == false)` loop of `integer_to_string`; `fuel`
bounds the number of tests of the loop condition, `none` when it runs out or
when a call throws. -/
def digitsLoop : Nat → Words → Words → List Char → Option (Words × List Char)
  | 0, _, _, _ => none
  | fuel + 1, aux, r, string_aux =>
    if is_zero aux = false then
      match digitChar r, divide aux (ofNative 10) with
      | some c, some (q, r') => digitsLoop fuel q r' (string_aux ++ [c])
      | _, _ => none
    else some (r, string_aux)

/-- Method `integer_to_string(s)`, the body of the const `getString()` and
of the conversion to `std::string`; `fuel` bounds the digit loop. -/
def integer_to_stringFuel (fuel : Nat) (this : Words) : Option String :=
  let aux := if is_negative this then negative this else this
  match divide aux (ofNative 10) with
  | none => none
  | some (aux, r) =>
    match digitsLoop fuel aux r [] with
    | none => none
    | some (r, string_aux) =>
      let last : Option (List Char) :=
        if string_aux = [] ∨ is_zero r = false then
          match digitChar r with
          | none => none
          | some c => some (string_aux ++ [c])
        else some string_aux
      match last with
      | none => none
      | some string_aux =>
        let string_aux := if is_negative this then string_aux ++ ['-'] else string_aux
        some (String.mk string_aux.reverse)

/-- Method `integer_to_string(s)` with enough fuel for the digit loop: one test
of the loop condition for each bit of the words, and one more. -/
def integer_to_string (this : Words) : Option String :=
  integer_to_stringFuel (31 * this.length + 1) this

/-- The const method `getString()`. -/
def getString (this : Words) : Option String := integer_to_string this

/-! ## Decimal notation, for the statements about strings -/

/-- The integer that a sequence of decimal digits denotes, most significant
digit first. -/
def decimalValue (ds : List Char) : Int :=
  ds.foldl (fun acc c => 10 * acc + ((c.toNat : Int) - 48)) 0

/-- The integer that a sequence of decimal digits denotes, least significant
digit first. -/
def decRev : List Char → Int
  | [] => 0
  | c :: cs => ((c.toNat : Int) - 48) + 10 * decRev cs

/-- Decimal digits. -/
def IsDigit (c : Char) : Prop := '0' ≤ c ∧ c ≤ '9'

instance (c : Char) : Decidable (IsDigit c) := by
  unfold IsDigit; exact inferInstance

/-- A string that the string constructor accepts: decimal digits, optionally
preceded by `-` at position 0. -/
def ValidDecimal (cs : List Char) : Prop :=
  (∀ c ∈ cs.tail, IsDigit c) ∧ (∀ c ∈ cs.head?, IsDigit c ∨ c = '-')

instance (cs : List Char) : Decidable (ValidDecimal cs) := by
  unfold ValidDecimal; exact inferInstance

/-- Canonical digit sequence: `0`, or digits whose first one is not `0`. -/
def CanonicalDigits (ds : List Char) : Prop :=
  (∀ c ∈ ds, IsDigit c) ∧ (ds = ['0'] ∨ (ds ≠ [] ∧ ds.head? ≠ some '0'))

instance (ds : List Char) : Decidable (CanonicalDigits ds) := by
  unfold CanonicalDigits; exact inferInstance

/-- Canonical decimal string: `0`, or an optional `-` followed by digits
whose first one is 1 to 9. -/
def CanonicalDecimal (cs : List Char) : Prop :=
  cs = ['0'] ∨
    (CanonicalDigits cs ∧ cs ≠ ['0']) ∨
    (cs.head? = some '-' ∧ CanonicalDigits cs.tail ∧ cs.tail ≠ ['0'])

instance (cs : List Char) : Decidable (CanonicalDecimal cs) := by
  unfold CanonicalDecimal; exact inferInstance

/-! ## Power as a call, and the object with its cached decimal string -/

/-- A call `this->pow(exp)` seen by its caller: whether `std::invalid_argument`
was thrown, and the words of `*this` afterwards.  The test
`exp.is_negative()` is the first statement of `power`, before `*this` is
touched. -/
def powCall (this exp : Words) : Bool × Words :=
  match power this exp with
  | none => (true, this)
  | some r => (false, r)

/-- An `Integer` object: the words, the flag `_modified` ("modified since the
last computation of the decimal string") and the cached decimal string. -/
structure Integer where
  _words : Words
  _modified : Bool
  _str_fmt_cache : String
deriving DecidableEq

/-- The integral constructor: the words of `n`, `_modified = true`, and the
default (empty) cache. -/
def Integer.ofNative (n : Int) : Integer :=
  ⟨BigInteger.ofNative n, true, ""⟩

/-- The string constructor: `string_to_integer(n); _modified = true;`, `none`
when `string_to_integer` throws. -/
def Integer.ofString (n : String) : Option Integer :=
  match string_to_integer n with
  | none => none
  | some ws => some ⟨ws, true, ""⟩

/-- The copy constructor copies the three fields. -/
def Integer.copy (n : Integer) : Integer :=
  ⟨n._words, n._modified, n._str_fmt_cache⟩

/-- The non-const `getString()`: recomputes the cache when `_modified` is set
and clears the flag, then returns the cache.  `none` when `integer_to_string`
does not return. -/
def Integer.getString (a : Integer) : Option (String × Integer) :=
  if a._modified then
    match integer_to_string a._words with
    | none => none
    | some s => some (s, ⟨a._words, false, s⟩)
  else some (a._str_fmt_cache, a)

/-- The member `abs()`: `if (this->is_negative()) this->negative();`, which
touches the words only. -/
def Integer.abs (a : Integer) : Integer :=
  ⟨if is_negative a._words then negative a._words else a._words, a._modified, a._str_fmt_cache⟩

/-- Unary minus: `Integer r(*this); r.negative(); return r;`. -/
def Integer.neg (a : Integer) : Integer :=
  let r := a.copy
  ⟨negative r._words, r._modified, r._str_fmt_cache⟩

/-- Conversion to `unsigned` (reduction modulo `2^32`). -/
def toUInt32 (x : Int) : Int := x % 4294967296

/-- The value `(unsigned) s[s.length() - i - 1] - '0'` returned by the access
operators, for `i < s.length()`. -/
def digitAt (s : String) (i : Nat) : Int :=
  toUInt32 (toUInt32 ((s.data.getD (s.length - i - 1) ' ').toNat) - 48)

/-- The const `operator[](i)`: `none` stands for `std::out_of_range` (and for
an `integer_to_string` that does not return). -/
def access (this : Words) (i : Nat) : Option Int :=
  match integer_to_string this with
  | none => none
  | some s => if i ≥ s.length then none else some (digitAt s i)

/-- The non-const `operator[](i)`: recomputes the cache when `_modified` is
set, then reads the cache; the object is returned with the result, also when
`std::out_of_range` is thrown (the result is then `none`). -/
def Integer.access (a : Integer) (i : Nat) : Option (Option Int × Integer) :=
  match a.getString with
  | none => none
  | some (s, a') => some (if i ≥ s.length then none else some (digitAt s i), a')

/-! ## Reading from a stream, and calls of `divide` on objects that alias -/

/-- The states of the reader `operator>>` (`enum Stream_read_state`). -/
inductive Stream_read_state where
  | SKIP
  | READ_MINUS
  | READ_DIGIT
deriving DecidableEq

/-- The loop `while ((c = stream.get()))` of `operator>>`, on the characters
still in the stream; the end of the list is the end of the stream, where
`get()` returns `EOF`.  The variable `c` is a `char`, taken to be signed: the
loop is left at the null character, at the end of line, and at the character
of code 255, which compares equal to `EOF`.  Returns the string `aux`. -/
def readLoop : List Char → Stream_read_state → List Char → List Char
  | [], _, aux => aux
  | c :: cs, state, aux =>
    if c.toNat = 0 then aux
    else if c = '\n' ∨ c.toNat = 255 then aux
    else
      let state :=
        if state = Stream_read_state.SKIP ∧ (c = '-' ∨ ('0' ≤ c ∧ c ≤ '9')) then
          Stream_read_state.READ_MINUS
        else state
      if state = Stream_read_state.READ_MINUS ∧ ¬ (c = '-' ∨ ('0' ≤ c ∧ c ≤ '9')) then aux
      else
        let state :=
          if state = Stream_read_state.READ_MINUS then Stream_read_state.READ_DIGIT else state
        if state = Stream_read_state.READ_DIGIT ∧ (c < '0' ∧ c > '9') then aux
        else readLoop cs state (aux ++ [c])

/-- The characters of a stream before its first null character, end of line
or character of code 255, or all of them when there is none. -/
def streamLine (cs : List Char) : List Char :=
  cs.takeWhile (fun c => decide (c.toNat ≠ 0 ∧ c ≠ '\n' ∧ c.toNat ≠ 255))

/-- Operator `>>` from a stream into the object `n`: the loop, then `n = aux`,
the assignment from a string.  Returns whether `std::invalid_argument` was
thrown and the words of `n` afterwards. -/
def operator_extract (stream : List Char) (n : Words) : Bool × Words :=
  assignString n (String.mk (readLoop stream Stream_read_state.SKIP []))

/-- A store of `Integer` objects: the word vector of the object at each
address.  Two references alias when they hold the same address. -/
abbrev Store := Nat → Words

/-- The store after the object at address `i` is given the words `ws`. -/
def Store.write (s : Store) (i : Nat) (ws : Words) : Store :=
  fun j => if j = i then ws else s j

/-- The `while (index >= 0)` loop of `divide` on the objects `quotient` and
`remainder` of a store, `k = index + 1` iterations; `aux` is a local. -/
def divideLoopRef : Nat → Store → Nat → Nat → Words → Store
  | 0, s, _, _, _ => s
  | k + 1, s, quotient, remainder, aux =>
    let s := s.write quotient (bitwise_shift_left (s quotient) 1)
    let comp := compare aux (s remainder)
    let s := if comp < 1 then s.write remainder (add (s remainder) aux true) else s
    let s := if comp < 1 then s.write quotient (add (s quotient) (ofNative 1) false) else s
    divideLoopRef k s quotient remainder (bitwise_shift_right aux 1)

/-- Method `divide(d, quotient, remainder)` called on the object `this`, the
four objects given by their addresses in the store, statement by statement:
every read of an object sees the writes made before it through any alias.
Returns whether `zero_division_error` was thrown and the store afterwards. -/
def divideRef (s : Store) (this d quotient remainder : Nat) : Bool × Store :=
  if is_zero (s d) then (true, s)
  else
    let org_sign := is_negative (s this)
    let sign := xor (is_negative (s this)) (is_negative (s d))
    let aux := s d
    let s := s.write remainder (s this)
    let s := s.write quotient (reset (s quotient))
    let s := if is_negative (s remainder) then s.write remainder (negative (s remainder)) else s
    let aux := if is_negative aux then negative aux else aux
    let index : Int := findFirstOne (s remainder) - findFirstOne aux
    let aux := if index > 0 then bitwise_shift_left aux index.toNat else aux
    let s := divideLoopRef (index + 1).toNat s quotient remainder aux
    let s := if sign then s.write quotient (negative (s quotient)) else s
    let s := if org_sign then s.write remainder (negative (s remainder)) else s
    (false, s)

/-- Operator `/=` on the objects `this` and `d` of a store, which may be the
same object: `Integer r; this->divide(d, *this, r);`.  The local `r` lives at
an address of its own and is gone when the operator returns. -/
def operator_div_assign_obj (s : Store) (this d : Nat) : Bool × Store :=
  let r := max this d + 1
  let res := divideRef (s.write r [0]) this d this r
  (res.1, res.2.write r (s r))

/-- Operator `%=` on the objects `this` and `d` of a store, which may be the
same object: `Integer q; this->divide(d, q, *this);`. -/
def operator_mod_assign_obj (s : Store) (this d : Nat) : Bool × Store :=
  let q := max this d + 1
  let res := divideRef (s.write q [0]) this d q this
  (res.1, res.2.write q (s q))

/-! ## Words -/

theorem low31_nonneg (x : Int) : 0 ≤ low31 x := by unfold low31; omega

theorem low31_lt (x : Int) : low31 x < 2147483648 := by unfold low31; omega

theorem low31_toInt32 (x : Int) : low31 (toInt32 x) = x % 2147483648 := by
  unfold low31 toInt32; omega

theorem toInt32_of_range {x : Int} (h1 : -2147483648 ≤ x) (h2 : x < 2147483648) :
    toInt32 x = x := by unfold toInt32; omega

theorem toInt32_range (x : Int) : -2147483648 ≤ toInt32 x ∧ toInt32 x < 2147483648 := by
  unfold toInt32; omega

/-! ## Lists of words -/

theorem back_append_singleton (l : Words) (t : Int) : back (l ++ [t]) = t := by
  simp [back]

theorem back_singleton (t : Int) : back [t] = t := rfl

theorem back_cons_cons (a b : Int) (l : Words) : back (a :: b :: l) = back (b :: l) := by
  simp [back]

theorem setBack_append_singleton (l : Words) (t v : Int) : setBack (l ++ [t]) v = l ++ [v] := by
  simp [setBack]

theorem val_nil : val [] = 0 := rfl

theorem val_cons (w : Int) (ws : Words) : val (w :: ws) = w + 2147483648 * val ws := rfl

theorem val_singleton (w : Int) : val [w] = w := by simp [val]

theorem val_append (a b : Words) :
    val (a ++ b) = val a + 2147483648 ^ a.length * val b := by
  induction a with
  | nil => simp [val]
  | cons w ws ih => simp only [List.cons_append, val_cons, ih, List.length_cons]; ring

theorem val_replicate_zero (n : Nat) : val (List.replicate n 0) = 0 := by
  induction n with
  | zero => rfl
  | succ n ih => simp [List.replicate_succ, val_cons, ih]

theorem val_replicate_max_append (n : Nat) :
    val (List.replicate n INT32_MAX ++ [-1]) = -1 := by
  induction n with
  | zero => simp [val]
  | succ n ih =>
    simp only [INT32_MAX] at ih
    simp only [List.replicate_succ, List.cons_append, val_cons, INT32_MAX, ih]; norm_num

theorem Low_nil : Low [] := by intro w hw; simp at hw

theorem Low_cons {w : Int} {l : Words} : Low (w :: l) ↔ (0 ≤ w ∧ w < 2147483648) ∧ Low l := by
  simp [Low]

theorem Low_append {a b : Words} : Low (a ++ b) ↔ Low a ∧ Low b := by
  simp only [Low, List.mem_append]
  constructor
  · intro h; exact ⟨fun w hw => h w (Or.inl hw), fun w hw => h w (Or.inr hw)⟩
  · rintro ⟨h1, h2⟩ w (hw | hw)
    · exact h1 w hw
    · exact h2 w hw

theorem Low_singleton {w : Int} : Low [w] ↔ (0 ≤ w ∧ w < 2147483648) := by
  simp [Low]

theorem Low_replicate {n : Nat} {c : Int} (hc : 0 ≤ c ∧ c < 2147483648) :
    Low (List.replicate n c) := by
  intro w hw
  rw [List.mem_replicate] at hw
  rw [hw.2]; exact hc

theorem Low_val_nonneg {l : Words} (h : Low l) : 0 ≤ val l := by
  induction l with
  | nil => simp [val]
  | cons w ws ih =>
    rw [Low_cons] at h
    have := ih h.2
    rw [val_cons]; omega

theorem Low_val_lt {l : Words} (h : Low l) : val l < 2147483648 ^ l.length := by
  induction l with
  | nil => simp [val]
  | cons w ws ih =>
    rw [Low_cons] at h
    have := ih h.2
    rw [val_cons, List.length_cons, pow_succ]; omega

/-- A well-formed vector is a list of 31-bit words followed by a top word. -/
theorem Proper_append_singleton {l : Words} {t : Int} :
    Proper (l ++ [t]) ↔ Low l ∧ (-2147483648 ≤ t ∧ t < 2147483648) := by
  unfold Proper Low
  simp [back]

theorem exists_append_of_ne_nil {ws : Words} (h : ws ≠ []) :
    ∃ l t, ws = l ++ [t] := by
  refine ⟨ws.dropLast, ws.getLast h, ?_⟩
  exact (List.dropLast_append_getLast h).symm

theorem Proper_iff {ws : Words} :
    Proper ws ↔ ∃ l t, ws = l ++ [t] ∧ Low l ∧ (-2147483648 ≤ t ∧ t < 2147483648) := by
  constructor
  · intro h
    obtain ⟨l, t, rfl⟩ := exists_append_of_ne_nil h.1
    exact ⟨l, t, rfl, Proper_append_singleton.1 h⟩
  · rintro ⟨l, t, rfl, h⟩
    exact Proper_append_singleton.2 h

theorem Proper_singleton {t : Int} : Proper [t] ↔ (-2147483648 ≤ t ∧ t < 2147483648) := by
  have := @Proper_append_singleton [] t
  simpa [Low_nil] using this

theorem Proper_cons_cons {a b : Int} {l : Words} :
    Proper (a :: b :: l) ↔ (0 ≤ a ∧ a < 2147483648) ∧ Proper (b :: l) := by
  obtain ⟨l', t, h⟩ := exists_append_of_ne_nil (List.cons_ne_nil b l)
  rw [h, ← List.cons_append, Proper_append_singleton, Proper_append_singleton, Low_cons]
  tauto

theorem Proper_ne_nil {ws : Words} (h : Proper ws) : ws ≠ [] := h.1

theorem Normalized_append_singleton {l : Words} {t : Int} :
    Normalized (l ++ [t]) ↔
      Low l ∧ (-2147483648 ≤ t ∧ t < 2147483648) ∧ (l ≠ [] → t ≠ 0 ∧ t ≠ -1) := by
  unfold Normalized
  rw [Proper_append_singleton, back_append_singleton]
  have : (1 < (l ++ [t]).length) ↔ l ≠ [] := by
    cases l <;> simp
  rw [this]; tauto

theorem Normalized_singleton {t : Int} :
    Normalized [t] ↔ (-2147483648 ≤ t ∧ t < 2147483648) := by
  have := @Normalized_append_singleton [] t
  simpa [Low_nil] using this

theorem Normalized.proper {ws : Words} (h : Normalized ws) : Proper ws := h.1

/-- Bounds on the value of a well-formed vector. -/
theorem Proper_val_bounds {ws : Words} (h : Proper ws) :
    -(2147483648 ^ ws.length) ≤ val ws ∧ val ws < 2147483648 ^ ws.length := by
  obtain ⟨l, t, rfl, hl, ht⟩ := Proper_iff.1 h
  have h1 := Low_val_nonneg hl
  have h2 := Low_val_lt hl
  rw [val_append, val_singleton, List.length_append, List.length_singleton, pow_succ]
  have hp : (0 : Int) < 2147483648 ^ l.length := by positivity
  constructor <;> nlinarith

/-- The sign of a well-formed vector is the sign of its top word. -/
theorem Proper_val_neg_iff {l : Words} {t : Int} (hl : Low l) :
    val (l ++ [t]) < 0 ↔ t < 0 := by
  have h1 := Low_val_nonneg hl
  have h2 := Low_val_lt hl
  rw [val_append, val_singleton]
  have hp : (0 : Int) < 2147483648 ^ l.length := by positivity
  constructor
  · intro h
    by_contra hc
    have : 0 ≤ 2147483648 ^ l.length * t := by
      apply mul_nonneg (le_of_lt hp); omega
    omega
  · intro h
    have : 2147483648 ^ l.length * t ≤ 2147483648 ^ l.length * (-1) := by
      apply mul_le_mul_of_nonneg_left _ (le_of_lt hp); omega
    omega

theorem is_negative_iff {ws : Words} (h : Proper ws) : is_negative ws = true ↔ val ws < 0 := by
  obtain ⟨l, t, rfl, hl, _⟩ := Proper_iff.1 h
  rw [Proper_val_neg_iff hl]
  simp [is_negative, back_append_singleton]

/-! ## Uniqueness of the normalized form -/

theorem val_ne_of_top {ws : Words} (h : Proper ws) (h0 : back ws ≠ 0) (h1 : back ws ≠ -1) :
    val ws ≠ 0 ∧ val ws ≠ -1 := by
  induction ws with
  | nil => exact absurd rfl h.1
  | cons w l ih =>
    cases l with
    | nil =>
      simp only [back_singleton] at h0 h1
      simp only [val_singleton]; exact ⟨h0, h1⟩
    | cons w' l' =>
      rw [Proper_cons_cons] at h
      rw [back_cons_cons] at h0 h1
      have := ih h.2 h0 h1
      rw [val_cons]
      constructor <;> omega

theorem Normalized_tail {w w' : Int} {l : Words} (h : Normalized (w :: w' :: l)) :
    (0 ≤ w ∧ w < 2147483648) ∧ Proper (w' :: l) ∧ back (w' :: l) ≠ 0 ∧ back (w' :: l) ≠ -1 := by
  obtain ⟨hp, ht⟩ := h
  rw [Proper_cons_cons] at hp
  rw [back_cons_cons] at ht
  have := ht (by simp)
  exact ⟨hp.1, hp.2, this.1, this.2⟩

theorem Normalized_of_tail {w' : Int} {l : Words} (hp : Proper (w' :: l))
    (h0 : back (w' :: l) ≠ 0) (h1 : back (w' :: l) ≠ -1) : Normalized (w' :: l) :=
  ⟨hp, fun _ => ⟨h0, h1⟩⟩

/-- Two normalized vectors denoting the same integer are the same vector. -/
theorem Normalized_unique : ∀ (a b : Words), Normalized a → Normalized b → val a = val b → a = b
  | [], _, ha, _, _ => absurd rfl ha.1.1
  | _ :: _, [], _, hb, _ => absurd rfl hb.1.1
  | [w], [v], _, _, h => by simpa [val] using h
  | [w], v :: v' :: l, ha, hb, h => by
    obtain ⟨hv, hp, h0, h1⟩ := Normalized_tail hb
    have := val_ne_of_top hp h0 h1
    have hw := Normalized_singleton.1 ha
    rw [val_singleton, val_cons] at h
    omega
  | w :: w' :: l, [v], ha, hb, h => by
    obtain ⟨hv, hp, h0, h1⟩ := Normalized_tail ha
    have := val_ne_of_top hp h0 h1
    have hw := Normalized_singleton.1 hb
    rw [val_singleton, val_cons] at h
    omega
  | w :: w' :: l, v :: v' :: l', ha, hb, h => by
    obtain ⟨hw, hpa, ha0, ha1⟩ := Normalized_tail ha
    obtain ⟨hv, hpb, hb0, hb1⟩ := Normalized_tail hb
    rw [val_cons w, val_cons v] at h
    have e1 : w = v := by omega
    have e2 : val (w' :: l) = val (v' :: l') := by omega
    have := Normalized_unique (w' :: l) (v' :: l') (Normalized_of_tail hpa ha0 ha1)
      (Normalized_of_tail hpb hb0 hb1) e2
    rw [e1, this]

/-! ## resize -/

theorem vecResize_length (ws : Words) (n : Nat) (c : Int) : (vecResize ws n c).length = n := by
  simp [vecResize]; omega

theorem resize_of_nonneg {ws : Words} (h : ws = [] ∨ 0 ≤ back ws) (n : Nat) :
    resize ws n = vecResize ws n 0 := by
  unfold resize
  rw [if_neg]
  rintro ⟨h1, h2⟩
  rcases h with h | h
  · exact h1 h
  · omega

theorem resize_succ_of_nonneg {ws : Words} (h : ws = [] ∨ 0 ≤ back ws) :
    resize ws (ws.length + 1) = ws ++ [0] := by
  rw [resize_of_nonneg h]
  simp [vecResize, List.take_of_length_le]

theorem resize_take_of_nonneg {ws : Words} (h : ws = [] ∨ 0 ≤ back ws) {n : Nat}
    (hn : n ≤ ws.length) : resize ws n = ws.take n := by
  rw [resize_of_nonneg h]
  simp [vecResize, Nat.sub_eq_zero_of_le hn]

/-- Shrinking a negative vector whose discarded words are all redundant keeps
the sign on the new top word. -/
theorem resize_strip_neg (pre : Words) (x : Int) (m : Nat) :
    resize (pre ++ x :: (List.replicate m INT32_MAX ++ [-1])) (pre.length + 1)
      = pre ++ [setSignBit x] := by
  have e : pre ++ x :: (List.replicate m INT32_MAX ++ [-1])
      = (pre ++ x :: List.replicate m INT32_MAX) ++ [-1] := by simp
  unfold resize
  rw [e, back_append_singleton, if_pos ⟨by simp, by decide⟩]
  simp only [setBack_append_singleton]
  have hl : low31 (-1) = INT32_MAX := by decide
  rw [hl]
  have e2 : (pre ++ x :: List.replicate m INT32_MAX) ++ [INT32_MAX]
      = (pre ++ [x]) ++ (List.replicate m INT32_MAX ++ [INT32_MAX]) := by simp
  rw [e2]
  have hlen : (pre ++ [x]).length = pre.length + 1 := by simp
  have hd : List.drop (pre.length + 1) ((pre ++ [x]) ++ (List.replicate m INT32_MAX ++ [INT32_MAX]))
      = List.replicate m INT32_MAX ++ [INT32_MAX] := by
    rw [← hlen]; exact List.drop_left _ _
  have ht : List.take (pre.length + 1) ((pre ++ [x]) ++ (List.replicate m INT32_MAX ++ [INT32_MAX]))
      = pre ++ [x] := by
    rw [← hlen]; exact List.take_left _ _
  have hall : (List.replicate m INT32_MAX ++ [INT32_MAX]).all (fun w => decide (w = INT32_MAX)) = true := by
    simp [List.all_eq_true]
  simp only [hd, hall, if_true, vecResize, ht]
  have : pre.length + 1 - (pre ++ [x] ++ (List.replicate m INT32_MAX ++ [INT32_MAX])).length = 0 := by
    simp
  rw [this]
  simp [setBack_append_singleton, back_append_singleton]

/-- Resizing a vector to its own length leaves it unchanged. -/
theorem resize_self {l : Words} {t : Int} (ht : -2147483648 ≤ t ∧ t < 2147483648) :
    resize (l ++ [t]) (l.length + 1) = l ++ [t] := by
  by_cases hneg : t < 0
  · unfold resize
    rw [back_append_singleton, if_pos ⟨by simp, hneg⟩]
    simp only [setBack_append_singleton]
    have hd : List.drop (l.length + 1) (l ++ [low31 t]) = [] := by
      apply List.drop_eq_nil_of_le; simp
    have ht' : List.take (l.length + 1) (l ++ [low31 t]) = l ++ [low31 t] := by
      apply List.take_of_length_le; simp
    simp only [hd, List.all_nil, if_true, vecResize, ht']
    simp only [List.length_append, List.length_singleton, Nat.sub_self, List.replicate_zero,
      List.append_nil, setBack_append_singleton, back_append_singleton]
    have : setSignBit (low31 t) = t := by unfold setSignBit low31; split_ifs <;> omega
    rw [this]
  · have := @resize_take_of_nonneg (l ++ [t]) (Or.inr (by rw [back_append_singleton]; omega))
      (l.length + 1) (by simp)
    rw [this]
    apply List.take_of_length_le; simp

/-! ## fix -/

/-- A non-empty list ends with a run of `c` preceded by a word that either
is the first one or differs from `c`. -/
theorem exists_strip (c : Int) (l : Words) (h : l ≠ []) :
    ∃ pre x m, l = pre ++ x :: List.replicate m c ∧ (pre = [] ∨ x ≠ c) := by
  induction l using List.reverseRecOn with
  | nil => exact absurd rfl h
  | append_singleton l a ih =>
    by_cases hl : l = []
    · subst hl
      exact ⟨[], a, 0, by simp, Or.inl rfl⟩
    · by_cases ha : a = c
      · obtain ⟨pre, x, m, e, hx⟩ := ih hl
        refine ⟨pre, x, m + 1, ?_, hx⟩
        rw [e, ha, List.replicate_succ']
        simp
      · exact ⟨l, a, 0, by simp, Or.inr ha⟩

theorem getD_append_cons (pre : Words) (x : Int) (suffix : Words) :
    (pre ++ x :: suffix).getD pre.length 0 = x := by
  induction pre with
  | nil => rfl
  | cons p pre ih => simpa using ih

theorem getD_append_cons_succ (pre : Words) (x : Int) (suffix : Words) (k : Nat) :
    (pre ++ x :: suffix).getD (pre.length + k + 1) 0 = suffix.getD k 0 := by
  induction pre with
  | nil => simp
  | cons p pre ih =>
    have : (p :: pre).length + k + 1 = (pre.length + k + 1) + 1 := by simp; omega
    rw [this, List.cons_append, List.getD_cons_succ, ih]

theorem fixIndex_strip (pre : Words) (x : Int) (suffix : Words) (neg : Bool)
    (hs : ∀ w ∈ suffix, RedV neg w) (hx : pre = [] ∨ ¬ RedV neg x) :
    ∀ k, k ≤ suffix.length → fixIndex (pre ++ x :: suffix) neg (pre.length + k) = pre.length := by
  intro k
  induction k with
  | zero =>
    intro _
    cases pre with
    | nil => simp [fixIndex]
    | cons p pre' =>
      have hx' : ¬ ((x = 0 ∧ neg = false) ∨ ((x = -1 ∨ x = INT32_MAX) ∧ neg = true)) := by
        rcases hx with h | h
        · exact absurd h (by simp)
        · exact h
      have := getD_append_cons (p :: pre') x suffix
      simp only [List.length_cons] at this
      simp only [List.length_cons, Nat.add_zero]
      unfold fixIndex
      rw [this, if_neg hx']
  | succ k ih =>
    intro hk
    have hk' : k < suffix.length := hk
    rw [← Nat.add_assoc]
    unfold fixIndex
    have hmem : suffix.getD k 0 ∈ suffix := by
      rw [List.getD_eq_getElem _ _ hk']; exact List.getElem_mem _
    have hr : (suffix.getD k 0 = 0 ∧ neg = false) ∨
        ((suffix.getD k 0 = -1 ∨ suffix.getD k 0 = INT32_MAX) ∧ neg = true) := hs _ hmem
    rw [getD_append_cons_succ, if_pos hr, ih (by omega)]

theorem fix_singleton (t : Int) : fix [t] = [t] := by
  simp [fix]

theorem fix_nil : fix [] = [0] := by
  decide

/-- On a well-formed vector `fix` returns the normalized vector of the same
value. -/
theorem fix_spec {ws : Words} (h : Proper ws) : Normalized (fix ws) ∧ val (fix ws) = val ws := by
  obtain ⟨l, t, rfl, hl, ht⟩ := Proper_iff.1 h
  by_cases hl0 : l = []
  · subst hl0
    rw [List.nil_append, fix_singleton]
    exact ⟨Normalized_singleton.2 ht, rfl⟩
  have hlen : (l ++ [t]).length > 1 := by
    cases l with
    | nil => exact absurd rfl hl0
    | cons a l' => simp
  have hlen1 : (l ++ [t]).length - 1 = l.length := by simp
  unfold fix
  rw [if_pos hlen, hlen1]
  by_cases hneg : t < 0
  · have hin : is_negative (l ++ [t]) = true := by
      simp [is_negative, back_append_singleton, hneg]
    rw [hin]
    by_cases ht1 : t = -1
    · subst ht1
      obtain ⟨pre, x, m, rfl, hx⟩ := exists_strip INT32_MAX l hl0
      have hlow : Low pre ∧ (0 ≤ x ∧ x < 2147483648) := by
        rw [Low_append, Low_cons] at hl
        exact ⟨hl.1, hl.2.1⟩
      have e' : (pre ++ x :: List.replicate m INT32_MAX) ++ [-1]
          = pre ++ x :: (List.replicate m INT32_MAX ++ [-1]) := by
        simp
      have hidx : fixIndex (pre ++ x :: (List.replicate m INT32_MAX ++ [-1])) true
          (pre.length + (m + 1)) = pre.length := by
        apply fixIndex_strip _ _ _ _ _ _ _ (by simp)
        · intro w hw
          simp only [List.mem_append, List.mem_replicate, List.mem_singleton] at hw
          right
          rcases hw with ⟨_, hw⟩ | hw
          · exact ⟨Or.inr hw, rfl⟩
          · exact ⟨Or.inl hw, rfl⟩
        · rcases hx with hx | hx
          · exact Or.inl hx
          · right
            unfold RedV
            have := hlow.2
            simp only [INT32_MAX] at hx ⊢
            intro hc
            rcases hc with ⟨_, hc⟩ | ⟨hc | hc, _⟩
            · exact absurd hc (by decide)
            · omega
            · exact hx hc
      have hll : (pre ++ x :: List.replicate m INT32_MAX).length = pre.length + (m + 1) := by
        simp
      rw [hll, e', hidx, resize_strip_neg]
      constructor
      · rw [Normalized_append_singleton]
        refine ⟨hlow.1, ?_, ?_⟩
        · unfold setSignBit; have := hlow.2; split_ifs <;> omega
        · intro hp
          have hx' : x ≠ INT32_MAX := by
            rcases hx with hx | hx
            · exact absurd hx hp
            · exact hx
          simp only [INT32_MAX] at hx'
          unfold setSignBit; have := hlow.2; split_ifs <;> omega
      · have e'' : pre ++ x :: (List.replicate m INT32_MAX ++ [-1])
            = (pre ++ [x]) ++ (List.replicate m INT32_MAX ++ [-1]) := by simp
        rw [e'', val_append (pre ++ [x]), val_replicate_max_append, val_append pre [x],
          val_append pre, val_singleton, val_singleton]
        have : setSignBit x = x - 2147483648 := by
          unfold setSignBit; have := hlow.2; split_ifs <;> omega
        rw [this]
        simp only [List.length_append, List.length_singleton, pow_succ]
        ring
    · have hidx : fixIndex (l ++ t :: []) true (l.length + 0) = l.length := by
        apply fixIndex_strip _ _ _ _ _ _ _ (by simp)
        · intro w hw; simp at hw
        · right
          unfold RedV
          simp only [INT32_MAX]
          intro hc
          rcases hc with ⟨_, hc⟩ | ⟨hc | hc, _⟩
          · exact absurd hc (by decide)
          · exact ht1 hc
          · omega
      rw [Nat.add_zero] at hidx
      rw [hidx, resize_self ht]
      refine ⟨?_, rfl⟩
      rw [Normalized_append_singleton]
      exact ⟨hl, ht, fun _ => ⟨by omega, ht1⟩⟩
  · have hin : is_negative (l ++ [t]) = false := by
      simp [is_negative, back_append_singleton]; omega
    rw [hin]
    obtain ⟨pre, x, m, e, hx⟩ := exists_strip 0 (l ++ [t]) (by simp)
    have hfacts : Low pre ∧ (0 ≤ x ∧ x < 2147483648) := by
      cases m with
      | zero =>
        simp only [List.replicate_zero] at e
        have := List.append_inj' e (by simp)
        rw [← this.1]
        have h2 : t = x := by simpa using this.2
        rw [← h2]
        exact ⟨hl, by omega, ht.2⟩
      | succ m =>
        rw [List.replicate_succ', ← List.cons_append, ← List.append_assoc] at e
        have := List.append_inj' e (by simp)
        rw [this.1, Low_append, Low_cons] at hl
        exact ⟨hl.1, hl.2.1⟩
    have hidx : fixIndex (pre ++ x :: List.replicate m 0) false (pre.length + m) = pre.length := by
      apply fixIndex_strip _ _ _ _ _ _ _ (by simp)
      · intro w hw
        rw [List.mem_replicate] at hw
        exact Or.inl ⟨hw.2, rfl⟩
      · rcases hx with hx | hx
        · exact Or.inl hx
        · right
          unfold RedV
          intro hc
          rcases hc with ⟨hc, _⟩ | ⟨_, hc⟩
          · exact hx hc
          · exact absurd hc (by decide)
    have hll : l.length = pre.length + m := by
      have := congrArg List.length e
      simp at this; omega
    rw [e, hll, hidx]
    have hb : (pre ++ x :: List.replicate m 0) = [] ∨ 0 ≤ back (pre ++ x :: List.replicate m 0) := by
      right; rw [← e, back_append_singleton]; omega
    rw [resize_take_of_nonneg hb (by simp)]
    have e2 : pre ++ x :: List.replicate m 0 = (pre ++ [x]) ++ List.replicate m 0 := by simp
    have htake : List.take (pre.length + 1) (pre ++ x :: List.replicate m 0) = pre ++ [x] := by
      rw [e2]
      have : (pre ++ [x]).length = pre.length + 1 := by simp
      rw [← this]; exact List.take_left _ _
    rw [htake]
    constructor
    · rw [Normalized_append_singleton]
      refine ⟨hfacts.1, ⟨by omega, hfacts.2.2⟩, ?_⟩
      intro hp
      rcases hx with hx | hx
      · exact absurd hx hp
      · exact ⟨hx, by omega⟩
    · rw [e2, val_append (pre ++ [x]), val_replicate_zero]; ring

theorem fix_normalized {ws : Words} (h : Proper ws) : Normalized (fix ws) := (fix_spec h).1

theorem val_fix {ws : Words} (h : Proper ws) : val (fix ws) = val ws := (fix_spec h).2

/-- The normalizer `fix` leaves a normalized vector unchanged. -/
theorem fix_of_normalized {ws : Words} (h : Normalized ws) : fix ws = ws :=
  Normalized_unique _ _ (fix_normalized h.1) h (val_fix h.1)

/-! ## add with a 32-bit operand -/

theorem carryChain_length (l : Words) (c : Int) : (carryChain l c).1.length = l.length := by
  induction l generalizing c with
  | nil => rfl
  | cons w ws ih => simp [carryChain, ih]

theorem carryChain_low (l : Words) (c : Int) : Low (carryChain l c).1 := by
  induction l generalizing c with
  | nil => exact Low_nil
  | cons w ws ih =>
    simp only [carryChain]
    rw [Low_cons]
    exact ⟨⟨low31_nonneg _, low31_lt _⟩, ih _⟩

theorem carryChain_val (l : Words) (c : Int) :
    val (carryChain l c).1 + 2147483648 ^ l.length * (carryChain l c).2 = c + val l := by
  induction l generalizing c with
  | nil => simp [carryChain, val]
  | cons w ws ih =>
    simp only [carryChain, val_cons, List.length_cons, pow_succ]
    have := ih (sar31 (c + w))
    have h2 : low31 (toInt32 (c + w)) + 2147483648 * sar31 (c + w) = c + w := by
      rw [low31_toInt32]; unfold sar31; omega
    linear_combination 2147483648 * this + h2

theorem carryChain_carry_low {l : Words} (hl : Low l) {c : Int}
    (hc : -2147483648 ≤ c ∧ c < 2147483648) (hne : l ≠ []) :
    -1 ≤ (carryChain l c).2 ∧ (carryChain l c).2 ≤ 1 := by
  induction l generalizing c with
  | nil => exact absurd rfl hne
  | cons w ws ih =>
    rw [Low_cons] at hl
    simp only [carryChain]
    have hs : -1 ≤ sar31 (c + w) ∧ sar31 (c + w) ≤ 1 := by unfold sar31; omega
    by_cases hws : ws = []
    · subst hws; simpa [carryChain] using hs
    · exact ih hl.2 ⟨by omega, by omega⟩ hws

theorem carryChain_carry {l : Words} (hl : Proper l) {c : Int}
    (hc : -2147483648 ≤ c ∧ c < 2147483648) :
    -2 ≤ (carryChain l c).2 ∧ (carryChain l c).2 ≤ 1 := by
  induction l generalizing c with
  | nil => exact absurd rfl hl.1
  | cons w ws ih =>
    cases ws with
    | nil =>
      rw [Proper_singleton] at hl
      simp only [carryChain]; unfold sar31; omega
    | cons w' ws' =>
      rw [Proper_cons_cons] at hl
      simp only [carryChain]
      have hs : -1 ≤ sar31 (c + w) ∧ sar31 (c + w) ≤ 1 := by unfold sar31; omega
      exact ih hl.2 ⟨by omega, by omega⟩

theorem set_append_cons (pre : Words) (r : Int) (rest : Words) (d : Int) :
    (pre ++ r :: rest).set pre.length d = pre ++ d :: rest := by
  induction pre with
  | nil => rfl
  | cons p pre ih => simp [ih]

theorem drop_eq_getD_cons {l : Words} {i : Nat} (h : i < l.length) :
    l.drop i = l.getD i 0 :: l.drop (i + 1) := by
  rw [List.getD_eq_getElem _ _ h]
  exact List.drop_eq_getElem_cons h

/-- The loop of `add(n1, n2, index)`: the words below the start index are
kept and the others are the digits of the carry chain. -/
theorem addWordLoop_eq (n1 : Words) :
    ∀ (k : Nat) (pre rest : Words) (c : Int), pre.length + k = n1.length → rest.length ≤ k →
      (rest = [] → pre = [] ∨ 0 ≤ back pre) →
      addWordLoop n1 k pre.length c (pre ++ rest)
        = (pre ++ (carryChain (n1.drop pre.length) c).1, (carryChain (n1.drop pre.length) c).2) := by
  intro k
  induction k with
  | zero =>
    intro pre rest c h1 h2 _
    have hr : rest = [] := List.eq_nil_of_length_eq_zero (by omega)
    have hd : n1.drop pre.length = [] := List.drop_eq_nil_of_le (by omega)
    subst hr
    simp [addWordLoop, hd, carryChain]
  | succ k ih =>
    intro pre rest c h1 h2 h3
    have hi : pre.length < n1.length := by omega
    rw [drop_eq_getD_cons hi]
    simp only [addWordLoop, carryChain]
    cases rest with
    | nil =>
      have hb := h3 rfl
      simp only [List.append_nil, ge_iff_le, le_refl, if_true]
      rw [resize_succ_of_nonneg hb, set_append_cons]
      have := ih (pre ++ [low31 (toInt32 (c + n1.getD pre.length 0))]) [] (sar31 (c + n1.getD pre.length 0))
        (by simp; omega) (by simp) (fun _ => Or.inr (by rw [back_append_singleton]; exact low31_nonneg _))
      simp only [List.append_nil, List.length_append, List.length_singleton] at this
      rw [this]
      simp
    | cons r rest' =>
      have hlt : ¬ (pre.length ≥ (pre ++ r :: rest').length) := by simp
      rw [if_neg hlt, set_append_cons]
      have := ih (pre ++ [low31 (toInt32 (c + n1.getD pre.length 0))]) rest' (sar31 (c + n1.getD pre.length 0))
        (by simp; omega) (by simp at h2; omega)
        (fun _ => Or.inr (by rw [back_append_singleton]; exact low31_nonneg _))
      simp only [List.length_append, List.length_singleton, List.append_assoc,
        List.singleton_append] at this
      rw [this]

theorem setBack_length (ws : Words) (v : Int) : (setBack ws v).length = ws.length := by
  simp [setBack]

/-- Specification of `add(n1, n2, index)` when the start index is a valid word
index of `n1`: the words below it are kept and `n2` is added to the rest. -/
theorem addWord_spec (pre rest n1 : Words) (w : Int) (hpre : Low pre)
    (hlt : pre.length < n1.length) (hrest : pre.length + rest.length ≤ n1.length)
    (h3 : rest = [] → pre = [] ∨ 0 ≤ back pre) (hn1 : Proper (n1.drop pre.length))
    (hw : -2147483648 ≤ w ∧ w < 2147483648) :
    Proper (addWord (pre ++ rest) n1 w pre.length) ∧
      val (addWord (pre ++ rest) n1 w pre.length)
        = val pre + 2147483648 ^ pre.length * (w + val (n1.drop pre.length)) ∧
      n1.length ≤ (addWord (pre ++ rest) n1 w pre.length).length := by
  have hloop := addWordLoop_eq n1 (n1.length - pre.length) pre rest w (by omega) (by omega) h3
  have hlen := carryChain_length (n1.drop pre.length) w
  have hlow := carryChain_low (n1.drop pre.length) w
  have hval := carryChain_val (n1.drop pre.length) w
  have hcar := carryChain_carry hn1 hw
  rw [List.length_drop] at hlen hval
  unfold addWord
  rw [hloop]
  generalize (carryChain (n1.drop pre.length) w).1 = ds at hlen hlow hval
  generalize (carryChain (n1.drop pre.length) w).2 = c at hval hcar
  have hds : ds ≠ [] := by
    intro h; rw [h] at hlen; simp at hlen; omega
  obtain ⟨ds', dl, rfl⟩ := exists_append_of_ne_nil hds
  rw [Low_append, Low_singleton] at hlow
  have hmax : max pre.length n1.length = n1.length := by omega
  have hlen' : (pre ++ (ds' ++ [dl])).length = n1.length := by
    rw [List.length_append, hlen]; omega
  simp only [hmax, hlen', lt_irrefl, if_false]
  have hassoc : pre ++ (ds' ++ [dl]) = (pre ++ ds') ++ [dl] := by simp
  have hvalthis : val (pre ++ (ds' ++ [dl])) + 2147483648 ^ n1.length * c
      = val pre + 2147483648 ^ pre.length * (w + val (n1.drop pre.length)) := by
    rw [val_append pre, ← hval]
    have : (2147483648 : Int) ^ n1.length = 2147483648 ^ pre.length * 2147483648 ^ (n1.length - pre.length) := by
      rw [← pow_add]; congr 1; omega
    rw [this]; ring
  have hlowall : Low (pre ++ ds') := Low_append.2 ⟨hpre, hlow.1⟩
  by_cases hc0 : c = 0
  · subst hc0
    simp only [ne_eq, not_true_eq_false, false_and, if_false, lt_irrefl]
    refine ⟨?_, ?_, ?_⟩
    · rw [hassoc, Proper_append_singleton]
      exact ⟨hlowall, by omega, hlow.2.2⟩
    · rw [← hvalthis]; ring
    · omega
  · by_cases hc1 : c = -1
    · subst hc1
      simp only [ne_eq, not_true_eq_false, and_false, if_false]
      rw [if_pos (by decide), hassoc, back_append_singleton, setBack_append_singleton]
      have hs : setSignBit dl = dl - 2147483648 := by
        unfold setSignBit; split_ifs <;> omega
      refine ⟨?_, ?_, ?_⟩
      · rw [Proper_append_singleton]
        exact ⟨hlowall, by omega, by omega⟩
      · rw [← hvalthis, hassoc, val_append (pre ++ ds'), val_append (pre ++ ds'), val_singleton,
          val_singleton, hs]
        have : (pre ++ ds').length + 1 = n1.length := by
          rw [← hlen']; simp; omega
        rw [← this, pow_succ]; ring
      · rw [List.length_append, List.length_singleton, ← hlen']; simp; omega
    · rw [if_pos (show c ≠ 0 ∧ c ≠ -1 from ⟨hc0, hc1⟩)]
      have hb : pre ++ (ds' ++ [dl]) = [] ∨ 0 ≤ back (pre ++ (ds' ++ [dl])) := by
        right; rw [hassoc, back_append_singleton]; exact hlow.2.1
      have hr := resize_succ_of_nonneg hb
      rw [hlen'] at hr
      have hset : ((pre ++ (ds' ++ [dl])) ++ [0]).set n1.length (toInt32 c)
          = (pre ++ (ds' ++ [dl])) ++ [toInt32 c] := by
        have := set_append_cons (pre ++ (ds' ++ [dl])) 0 [] (toInt32 c)
        rw [hlen'] at this; exact this
      rw [hr, hset, toInt32_of_range (by omega) (by omega)]
      have hfin : Proper ((pre ++ (ds' ++ [dl])) ++ [c]) ∧
          val ((pre ++ (ds' ++ [dl])) ++ [c])
            = val pre + 2147483648 ^ pre.length * (w + val (n1.drop pre.length)) ∧
          n1.length ≤ ((pre ++ (ds' ++ [dl])) ++ [c]).length := by
        refine ⟨?_, ?_, ?_⟩
        · rw [Proper_append_singleton]
          refine ⟨?_, by omega, by omega⟩
          rw [hassoc, Low_append, Low_singleton]
          exact ⟨hlowall, hlow.2⟩
        · rw [val_append, val_singleton, hlen', hvalthis]
        · rw [List.length_append, hlen']; simp
      split_ifs with hneg
      · rw [back_append_singleton, setBack_append_singleton]
        have : setSignBit c = c := by unfold setSignBit; rw [if_pos hneg]
        rw [this]; exact hfin
      · exact hfin

theorem Low_take {l : Words} (h : Low l) (i : Nat) : Low (l.take i) :=
  fun w hw => h w (List.mem_of_mem_take hw)

theorem Low_drop {l : Words} (h : Low l) (i : Nat) : Low (l.drop i) :=
  fun w hw => h w (List.mem_of_mem_drop hw)

theorem Proper_take_low {ws : Words} (h : Proper ws) {i : Nat} (hi : i < ws.length) :
    Low (ws.take i) := by
  obtain ⟨l, t, rfl, hl, _⟩ := Proper_iff.1 h
  have : i ≤ l.length := by simp at hi; omega
  rw [List.take_append_of_le_length this]
  exact Low_take hl i

theorem Proper_drop {ws : Words} (h : Proper ws) {i : Nat} (hi : i < ws.length) :
    Proper (ws.drop i) := by
  obtain ⟨l, t, rfl, hl, ht⟩ := Proper_iff.1 h
  have : i ≤ l.length := by simp at hi; omega
  rw [List.drop_append_of_le_length this, Proper_append_singleton]
  exact ⟨Low_drop hl i, ht⟩

theorem Proper_mem_range {ws : Words} (h : Proper ws) {w : Int} (hw : w ∈ ws) :
    -2147483648 ≤ w ∧ w < 2147483648 := by
  obtain ⟨l, t, rfl, hl, ht⟩ := Proper_iff.1 h
  rw [List.mem_append, List.mem_singleton] at hw
  rcases hw with hw | hw
  · have := hl w hw; omega
  · rw [hw]; exact ht

theorem Proper_getD_range {ws : Words} (h : Proper ws) (i : Nat) :
    -2147483648 ≤ ws.getD i 0 ∧ ws.getD i 0 < 2147483648 := by
  by_cases hi : i < ws.length
  · rw [List.getD_eq_getElem _ _ hi]
    exact Proper_mem_range h (List.getElem_mem _)
  · rw [List.getD_eq_default _ _ (by omega)]; decide

theorem Proper_length_pos {ws : Words} (h : Proper ws) : 0 < ws.length :=
  List.length_pos.2 h.1

/-- The call `result.add(n1, n2, 0)` on a fresh `result`. -/
theorem addWord_fresh {n1 : Words} (h : Proper n1) {w : Int}
    (hw : -2147483648 ≤ w ∧ w < 2147483648) :
    Proper (addWord [0] n1 w 0) ∧ val (addWord [0] n1 w 0) = w + val n1 ∧
      n1.length ≤ (addWord [0] n1 w 0).length := by
  have hp := Proper_length_pos h
  have := addWord_spec [] [0] n1 w Low_nil hp (by simpa using hp) (by simp) (by simpa using h) hw
  simpa [val] using this

/-- The call `add(*this, n2, index)` on the current object. -/
theorem addWord_inplace {t : Words} (h : Proper t) {i : Nat} (hi : i < t.length) {w : Int}
    (hw : -2147483648 ≤ w ∧ w < 2147483648) :
    Proper (addWord t t w i) ∧ val (addWord t t w i) = val t + 2147483648 ^ i * w ∧
      t.length ≤ (addWord t t w i).length := by
  have hlen : (t.take i).length = i := by simp; omega
  have := addWord_spec (t.take i) (t.drop i) t w (Proper_take_low h hi) (by omega)
    (by simp; omega) (by intro h0; simp at h0; omega) (by rw [hlen]; exact Proper_drop h hi) hw
  rw [List.take_append_drop, hlen] at this
  refine ⟨this.1, ?_, this.2.2⟩
  rw [this.2.1]
  conv_rhs => rw [← List.take_append_drop i t, val_append, hlen]
  ring

/-- The loop of the two-operand `add` adds the remaining words of `smaller`
at their positions. -/
theorem addFold_spec (smaller : Words) (hs : ∀ w ∈ smaller, -2147483648 ≤ w ∧ w < 2147483648) :
    ∀ (k i : Nat) (result : Words), Proper result → i + k = smaller.length →
      smaller.length ≤ result.length →
      Proper (addFold smaller k i result) ∧
        val (addFold smaller k i result) = val result + 2147483648 ^ i * val (smaller.drop i) := by
  intro k
  induction k with
  | zero =>
    intro i result hr hi _
    have : smaller.drop i = [] := List.drop_eq_nil_of_le (by omega)
    simp [addFold, this, val, hr]
  | succ k ih =>
    intro i result hr hi hlen
    have hilt : i < smaller.length := by omega
    have hw : -2147483648 ≤ smaller.getD i 0 ∧ smaller.getD i 0 < 2147483648 := by
      rw [List.getD_eq_getElem _ _ hilt]; exact hs _ (List.getElem_mem _)
    obtain ⟨h1, h2, h3⟩ := addWord_inplace hr (show i < result.length by omega) hw
    have := ih (i + 1) _ h1 (by omega) (by omega)
    simp only [addFold]
    refine ⟨this.1, ?_⟩
    rw [this.2, h2, drop_eq_getD_cons hilt, val_cons, pow_succ]
    ring

/-- Words of the two-operand `add` before the final `fix`, when the shorter
operand has at most as many words as the longer one. -/
theorem add_core {bigger smaller : Words} (hb : Proper bigger) (hs : Proper smaller)
    (hlen : smaller.length ≤ bigger.length) :
    Proper (addFold smaller (smaller.length - 1) 1 (addWord [0] bigger (smaller.getD 0 0) 0)) ∧
      val (addFold smaller (smaller.length - 1) 1 (addWord [0] bigger (smaller.getD 0 0) 0))
        = val bigger + val smaller := by
  obtain ⟨h1, h2, h3⟩ := addWord_fresh hb (Proper_getD_range hs 0)
  have hpos := Proper_length_pos hs
  have := addFold_spec smaller (fun w hw => Proper_mem_range hs hw) (smaller.length - 1) 1 _ h1
    (by omega) (by omega)
  refine ⟨this.1, ?_⟩
  rw [this.2, h2]
  have : smaller = smaller.getD 0 0 :: smaller.drop 1 := by
    have := drop_eq_getD_cons hpos
    simpa using this
  conv_rhs => rw [this, val_cons]
  ring

/-- Addition is exact: `add(n1, n2)` is the normalized vector of
`val n1 + val n2`. -/
theorem add_spec {n1 n2 : Words} (h1 : Proper n1) (h2 : Proper n2) :
    Normalized (add n1 n2 false) ∧ val (add n1 n2 false) = val n1 + val n2 := by
  unfold add
  simp only [Bool.false_eq_true, if_false]
  by_cases h : n1.length ≥ n2.length
  · rw [if_pos h, if_neg (by omega)]
    obtain ⟨hp, hv⟩ := add_core h1 h2 h
    exact ⟨fix_normalized hp, by rw [val_fix hp, hv]⟩
  · rw [if_neg h, if_pos (by omega)]
    obtain ⟨hp, hv⟩ := add_core h2 h1 (by omega)
    exact ⟨fix_normalized hp, by rw [val_fix hp, hv]; ring⟩

/-! ## bitwise_not and negative -/

theorem val_map_not {l : Words} (h : Low l) :
    val (l.map (fun w => low31 (-w - 1))) = 2147483648 ^ l.length - 1 - val l := by
  induction l with
  | nil => simp [val]
  | cons w ws ih =>
    rw [Low_cons] at h
    simp only [List.map_cons, val_cons, List.length_cons, pow_succ]
    have : low31 (-w - 1) = 2147483647 - w := by unfold low31; omega
    rw [this, ih h.2]
    ring

theorem Low_map_not (l : Words) : Low (l.map (fun w => low31 (-w - 1))) := by
  intro w hw
  rw [List.mem_map] at hw
  obtain ⟨a, _, rfl⟩ := hw
  exact ⟨low31_nonneg _, low31_lt _⟩

/-- The words of `bitwise_not` before the final `fix`. -/
theorem not_core {l : Words} {t : Int} (hl : Low l) (ht : -2147483648 ≤ t ∧ t < 2147483648) :
    Proper (l.map (fun w => low31 (-w - 1)) ++ [-t - 1]) ∧
      val (l.map (fun w => low31 (-w - 1)) ++ [-t - 1]) = -(val (l ++ [t])) - 1 := by
  constructor
  · rw [Proper_append_singleton]
    exact ⟨Low_map_not l, by omega, by omega⟩
  · rw [val_append, val_append, val_singleton, val_singleton, List.length_map, val_map_not hl]
    ring

theorem bitwise_not_eq (l : Words) (t : Int) :
    bitwise_not (l ++ [t]) = fix (l.map (fun w => low31 (-w - 1)) ++ [-t - 1]) := by
  unfold bitwise_not
  simp [back_append_singleton]

/-- Bitwise NOT denotes `-v - 1`. -/
theorem bitwise_not_spec {ws : Words} (h : Proper ws) :
    Normalized (bitwise_not ws) ∧ val (bitwise_not ws) = -(val ws) - 1 := by
  obtain ⟨l, t, rfl, hl, ht⟩ := Proper_iff.1 h
  rw [bitwise_not_eq]
  obtain ⟨hp, hv⟩ := not_core hl ht
  exact ⟨fix_normalized hp, by rw [val_fix hp, hv]⟩

/-- Negation is exact. -/
theorem negative_spec {ws : Words} (h : Proper ws) :
    Normalized (negative ws) ∧ val (negative ws) = -(val ws) := by
  obtain ⟨hn, hv⟩ := bitwise_not_spec h
  unfold negative
  obtain ⟨h1, h2, _⟩ := addWord_inplace hn.1 (Proper_length_pos hn.1)
    (show (-2147483648 : Int) ≤ 1 ∧ (1 : Int) < 2147483648 by decide)
  refine ⟨fix_normalized h1, ?_⟩
  rw [val_fix h1, h2, hv]; ring

theorem increment_spec {ws : Words} (h : Proper ws) :
    Normalized (increment ws) ∧ val (increment ws) = val ws + 1 := by
  unfold increment
  obtain ⟨h1, h2, _⟩ := addWord_inplace h (Proper_length_pos h)
    (show (-2147483648 : Int) ≤ 1 ∧ (1 : Int) < 2147483648 by decide)
  refine ⟨fix_normalized h1, ?_⟩
  rw [val_fix h1, h2]; ring

theorem decrement_spec {ws : Words} (h : Proper ws) :
    Normalized (decrement ws) ∧ val (decrement ws) = val ws - 1 := by
  unfold decrement
  obtain ⟨h1, h2, _⟩ := addWord_inplace h (Proper_length_pos h)
    (show (-2147483648 : Int) ≤ -1 ∧ (-1 : Int) < 2147483648 by decide)
  refine ⟨fix_normalized h1, ?_⟩
  rw [val_fix h1, h2]; ring

theorem abs_spec {ws : Words} (h : Normalized ws) :
    Normalized (abs ws) ∧ val (abs ws) = |val ws| := by
  unfold abs
  split_ifs with hneg
  · have := (is_negative_iff h.1).1 hneg
    obtain ⟨h1, h2⟩ := negative_spec h.1
    exact ⟨h1, by rw [h2, abs_of_neg this]⟩
  · have : ¬ val ws < 0 := fun hc => hneg ((is_negative_iff h.1).2 hc)
    exact ⟨h, by rw [abs_of_nonneg (by omega)]⟩

/-! ## Word counts -/

theorem pow_B_pos (n : Nat) : (0 : Int) < 2147483648 ^ n := by positivity

theorem pow_B_mono {m n : Nat} (h : m ≤ n) : (2147483648 : Int) ^ m ≤ 2147483648 ^ n :=
  pow_le_pow_right₀ (by norm_num) h

/-- A normalized vector of more than one word denotes a value that does not
fit in fewer words. -/
theorem Normalized_val_big {l : Words} {t : Int} (h : Normalized (l ++ [t])) (hl : l ≠ []) :
    2147483648 ^ l.length ≤ val (l ++ [t]) ∨ val (l ++ [t]) < -(2147483648 ^ l.length) := by
  rw [Normalized_append_singleton] at h
  obtain ⟨hlow, ht, ht2⟩ := h
  have h0 := Low_val_nonneg hlow
  have h1 := Low_val_lt hlow
  have hp := pow_B_pos l.length
  rw [val_append, val_singleton]
  have := ht2 hl
  by_cases hpos : 0 < t
  · left; nlinarith
  · right
    have : t ≤ -2 := by omega
    nlinarith

theorem length_le_of_bounds {a : Words} (h : Normalized a) {k : Nat} (hk : 1 ≤ k)
    (h1 : -(2147483648 ^ k) ≤ val a) (h2 : val a < 2147483648 ^ k) : a.length ≤ k := by
  obtain ⟨l, t, rfl, -, -⟩ := Proper_iff.1 h.1
  by_cases hl : l = []
  · subst hl; simpa using hk
  · by_contra hc
    have hk' : k ≤ l.length := by simp at hc; omega
    have := pow_B_mono hk'
    rcases Normalized_val_big h hl with hb | hb <;> omega

/-- A normalized vector has the least word count among the well-formed
vectors of the same value. -/
theorem length_le_of_val_eq {a b : Words} (ha : Normalized a) (hb : Proper b)
    (h : val a = val b) : a.length ≤ b.length := by
  have := Proper_val_bounds hb
  exact length_le_of_bounds ha (Proper_length_pos hb) (by omega) (by omega)

theorem negative_length_le {ws : Words} (h : Proper ws) :
    (negative ws).length ≤ ws.length + 1 := by
  obtain ⟨hn, hv⟩ := negative_spec h
  have := Proper_val_bounds h
  have hm := pow_B_mono (Nat.le_succ ws.length)
  have hp := pow_B_pos ws.length
  apply length_le_of_bounds hn (by omega)
  · rw [hv]; omega
  · rw [hv]
    have : (2147483648 : Int) ^ (ws.length + 1) = 2147483648 ^ ws.length * 2147483648 := pow_succ _ _
    omega

theorem negative_length_le_of_ne {ws : Words} (h : Proper ws)
    (hne : val ws ≠ -(2147483648 ^ ws.length)) : (negative ws).length ≤ ws.length := by
  obtain ⟨hn, hv⟩ := negative_spec h
  have := Proper_val_bounds h
  apply length_le_of_bounds hn (Proper_length_pos h)
  · rw [hv]; omega
  · rw [hv]; omega

theorem negative_length_ge {ws : Words} (h : Normalized ws) :
    ws.length ≤ (negative ws).length + 1 := by
  obtain ⟨hn, hv⟩ := negative_spec h.1
  obtain ⟨l, t, rfl, -, -⟩ := Proper_iff.1 h.1
  by_cases hl : l = []
  · subst hl; simp
  · have hb := Proper_val_bounds hn.1
    rw [hv] at hb
    by_contra hc
    have hk : (negative (l ++ [t])).length + 1 ≤ l.length := by simp at hc; omega
    have := pow_B_mono hk
    have hs : (2147483648 : Int) ^ ((negative (l ++ [t])).length + 1)
        = 2147483648 ^ (negative (l ++ [t])).length * 2147483648 := pow_succ _ _
    have hp := pow_B_pos (negative (l ++ [t])).length
    rcases Normalized_val_big h hl with hbig | hbig <;> omega

/-! ## Subtraction -/

/-- The first step of the two-operand `add` when the start index is the word
count of the accumulator (the operand folded in is one word longer). -/
theorem addWord_oob {t : Words} (h : Proper t) {w : Int}
    (hw : -2147483648 ≤ w ∧ w < 2147483648) :
    Proper (addWord t t w t.length) ∧ t.length ≤ (addWord t t w t.length).length := by
  obtain ⟨l, top, rfl, hl, htop⟩ := Proper_iff.1 h
  unfold addWord
  have hk : (l ++ [top]).length - (l ++ [top]).length = 0 := Nat.sub_self _
  rw [hk]
  simp only [addWordLoop, max_self, lt_irrefl, if_false]
  have hres : Proper ((resize (l ++ [top]) ((l ++ [top]).length + 1)).set (l ++ [top]).length
      (toInt32 w)) ∧ (l ++ [top]).length ≤ ((resize (l ++ [top]) ((l ++ [top]).length + 1)).set
        (l ++ [top]).length (toInt32 w)).length := by
    rw [toInt32_of_range hw.1 hw.2]
    by_cases hneg : top < 0
    · have hr : resize (l ++ [top]) ((l ++ [top]).length + 1)
          = (l ++ [low31 top]) ++ [-1] := by
        unfold resize
        rw [back_append_singleton, if_pos ⟨by simp, hneg⟩]
        simp only [setBack_append_singleton]
        have hd : List.drop ((l ++ [top]).length + 1) (l ++ [low31 top]) = [] := by
          apply List.drop_eq_nil_of_le; simp
        have ht' : List.take ((l ++ [top]).length + 1) (l ++ [low31 top]) = l ++ [low31 top] := by
          apply List.take_of_length_le; simp
        simp only [hd, List.all_nil, if_true, vecResize, ht']
        have : (l ++ [top]).length + 1 - (l ++ [low31 top]).length = 1 := by simp
        rw [this]
        simp only [List.replicate_one]
        rw [back_append_singleton, setBack_append_singleton]
        rfl
      have hlen : (l ++ [top]).length = (l ++ [low31 top]).length := by simp
      rw [hr, hlen, set_append_cons]
      constructor
      · rw [Proper_append_singleton, Low_append, Low_singleton]
        exact ⟨⟨hl, low31_nonneg _, low31_lt _⟩, hw⟩
      · simp
    · rw [resize_succ_of_nonneg (Or.inr (by rw [back_append_singleton]; omega)), set_append_cons]
      constructor
      · rw [Proper_append_singleton, Low_append, Low_singleton]
        exact ⟨⟨hl, by omega, htop.2⟩, hw⟩
      · simp
  have hin : ∀ x : Words, Proper x → (l ++ [top]).length ≤ x.length →
      Proper (if w < 0 then setBack x (setSignBit (back x)) else x) ∧
      (l ++ [top]).length ≤ (if w < 0 then setBack x (setSignBit (back x)) else x).length := by
    intro x hx hlen
    split_ifs
    · obtain ⟨l', t', rfl, hl', ht'⟩ := Proper_iff.1 hx
      rw [back_append_singleton, setBack_append_singleton]
      constructor
      · rw [Proper_append_singleton]
        refine ⟨hl', ?_⟩
        unfold setSignBit; split_ifs <;> omega
      · simpa using hlen
    · exact ⟨hx, hlen⟩
  by_cases hc : w ≠ 0 ∧ w ≠ -1
  · rw [if_pos hc]
    exact hin _ hres.1 hres.2
  · rw [if_neg hc]
    exact hin _ h (le_refl _)

/-- The loop of the two-operand `add` keeps the accumulator well formed, also
when the operand folded in is one word longer than the accumulator. -/
theorem addFold_proper (smaller : Words) (hs : ∀ w ∈ smaller, -2147483648 ≤ w ∧ w < 2147483648) :
    ∀ (k i : Nat) (result : Words), Proper result → i + k = smaller.length →
      smaller.length ≤ result.length + 1 → Proper (addFold smaller k i result) := by
  intro k
  induction k with
  | zero => intro i result hr _ _; exact hr
  | succ k ih =>
    intro i result hr hi hlen
    have hilt : i < smaller.length := by omega
    have hw : -2147483648 ≤ smaller.getD i 0 ∧ smaller.getD i 0 < 2147483648 := by
      rw [List.getD_eq_getElem _ _ hilt]; exact hs _ (List.getElem_mem _)
    simp only [addFold]
    by_cases hcase : i < result.length
    · obtain ⟨h1, _, h3⟩ := addWord_inplace hr hcase hw
      exact ih (i + 1) _ h1 (by omega) (by omega)
    · have hie : i = result.length := by omega
      obtain ⟨h1, h3⟩ := addWord_oob hr hw
      rw [← hie] at h1 h3
      exact ih (i + 1) _ h1 (by omega) (by omega)

theorem add_core_proper {bigger smaller : Words} (hb : Proper bigger) (hs : Proper smaller)
    (hlen : smaller.length ≤ bigger.length + 1) :
    Proper (addFold smaller (smaller.length - 1) 1 (addWord [0] bigger (smaller.getD 0 0) 0)) := by
  obtain ⟨h1, _, h3⟩ := addWord_fresh hb (Proper_getD_range hs 0)
  have hpos := Proper_length_pos hs
  exact addFold_proper smaller (fun w hw => Proper_mem_range hs hw) (smaller.length - 1) 1 _ h1
    (by omega) (by omega)

/-- The two-operand `add` returns a normalized vector for either value of the
`negative` flag. -/
theorem add_normalized {n1 n2 : Words} (h1 : Proper n1) (h2 : Normalized n2) (neg : Bool) :
    Normalized (add n1 n2 neg) := by
  cases neg with
  | false => exact (add_spec h1 h2.1).1
  | true =>
    unfold add
    simp only [if_true]
    obtain ⟨hn, -⟩ := negative_spec h2.1
    have hle := negative_length_le h2.1
    have hge := negative_length_ge h2
    by_cases h : n1.length ≥ n2.length
    · rw [if_pos h, if_neg (by omega)]
      exact fix_normalized (add_core_proper h1 hn.1 (by omega))
    · rw [if_neg h, if_pos (by omega)]
      exact fix_normalized (add_core_proper hn.1 h1 (by omega))

/-- Subtraction is exact when the negated subtrahend has no more words than
the longer operand. -/
theorem sub_spec {n1 n2 : Words} (h1 : Proper n1) (h2 : Normalized n2)
    (hlen : n2.length ≤ n1.length → (negative n2).length ≤ n1.length) :
    Normalized (add n1 n2 true) ∧ val (add n1 n2 true) = val n1 - val n2 := by
  refine ⟨add_normalized h1 h2 true, ?_⟩
  unfold add
  simp only [if_true]
  obtain ⟨hn, hv⟩ := negative_spec h2.1
  have hge := negative_length_ge h2
  by_cases h : n1.length ≥ n2.length
  · rw [if_pos h, if_neg (by omega)]
    obtain ⟨hp, hv'⟩ := add_core h1 hn.1 (hlen h)
    rw [val_fix hp, hv', hv]; ring
  · rw [if_neg h, if_pos (by omega)]
    obtain ⟨hp, hv'⟩ := add_core hn.1 h1 (by omega)
    rw [val_fix hp, hv', hv]; ring

/-- Subtraction is exact unless the subtrahend is the least value of its word
count. -/
theorem sub_spec_of_ne {n1 n2 : Words} (h1 : Proper n1) (h2 : Normalized n2)
    (hne : val n2 ≠ -(2147483648 ^ n2.length)) :
    Normalized (add n1 n2 true) ∧ val (add n1 n2 true) = val n1 - val n2 :=
  sub_spec h1 h2 (fun h => le_trans (negative_length_le_of_ne h2.1 hne) h)

theorem sub_spec_nonneg {n1 n2 : Words} (h1 : Proper n1) (h2 : Normalized n2)
    (hnn : 0 ≤ val n2) :
    Normalized (add n1 n2 true) ∧ val (add n1 n2 true) = val n1 - val n2 := by
  apply sub_spec_of_ne h1 h2
  have := pow_B_pos n2.length
  omega

/-! ## Observers -/

theorem is_zero_iff {ws : Words} (h : Normalized ws) : is_zero ws = true ↔ val ws = 0 := by
  obtain ⟨l, t, rfl, hl, ht⟩ := Proper_iff.1 h.1
  have hn := Normalized_append_singleton.1 h
  simp only [is_zero, back_append_singleton, decide_eq_true_eq]
  constructor
  · intro ht0
    have : l = [] := by
      by_contra hl0
      exact (hn.2.2 hl0).1 ht0
    subst this; simp [val, ht0]
  · intro hv
    by_contra ht0
    by_cases hl0 : l = []
    · subst hl0; simp [val] at hv; exact ht0 hv
    · have := val_ne_of_top h.1 (by rw [back_append_singleton]; exact ht0)
        (by rw [back_append_singleton]; exact (hn.2.2 hl0).2)
      exact this.1 hv

theorem is_zero_eq {ws : Words} (h : Normalized ws) (hz : is_zero ws = true) : ws = [0] := by
  apply Normalized_unique _ _ h (Normalized_singleton.2 (by decide))
  rw [(is_zero_iff h).1 hz]; rfl

/-! ## compare -/

theorem take_succ_getD {l : Words} {k : Nat} (h : k < l.length) :
    l.take (k + 1) = l.take k ++ [l.getD k 0] := by
  rw [List.take_succ, List.getD_eq_getElem _ _ h, List.getElem?_eq_getElem h]
  rfl

theorem compareWords_spec (a b : Words) :
    ∀ k, k ≤ a.length → k ≤ b.length → Low (a.take (k - 1)) → Low (b.take (k - 1)) →
      compareWords a b k = cmpInt (val (a.take k)) (val (b.take k)) := by
  intro k
  induction k with
  | zero => intro _ _ _ _; simp [compareWords, cmpInt, val]
  | succ k ih =>
    intro ha hb hla hlb
    simp only [Nat.add_sub_cancel] at hla hlb
    have ih' := ih (by omega) (by omega) (by
      have := Low_take hla (k - 1)
      rwa [List.take_take, min_eq_left (Nat.sub_le k 1)] at this) (by
      have := Low_take hlb (k - 1)
      rwa [List.take_take, min_eq_left (Nat.sub_le k 1)] at this)
    rw [take_succ_getD (show k < a.length by omega), take_succ_getD (show k < b.length by omega),
      val_append, val_append, val_singleton, val_singleton]
    have hka : (a.take k).length = k := by simp; omega
    have hkb : (b.take k).length = k := by simp; omega
    rw [hka, hkb]
    have a0 := Low_val_nonneg hla
    have a1 := Low_val_lt hla
    have b0 := Low_val_nonneg hlb
    have b1 := Low_val_lt hlb
    rw [hka] at a1
    rw [hkb] at b1
    have hp := pow_B_pos k
    simp only [compareWords]
    generalize a.getD k 0 = x at *
    generalize b.getD k 0 = y at *
    generalize val (a.take k) = va at *
    generalize val (b.take k) = vb at *
    generalize (2147483648 : Int) ^ k = P at *
    by_cases h1 : x > y
    · rw [if_pos h1]
      have : vb + P * y < va + P * x := by nlinarith
      unfold cmpInt
      rw [if_neg (by omega), if_neg (by omega)]
    · rw [if_neg h1]
      by_cases h2 : x < y
      · rw [if_pos h2]
        have : va + P * x < vb + P * y := by nlinarith
        unfold cmpInt
        rw [if_pos this]
      · rw [if_neg h2]
        have : x = y := by omega
        subst this
        rw [ih']
        unfold cmpInt
        split_ifs <;> omega

/-- The comparator `compare` orders normalized vectors by their values. -/
theorem compare_spec {a b : Words} (ha : Normalized a) (hb : Normalized b) :
    compare a b = cmpInt (val a) (val b) := by
  have hna := is_negative_iff ha.1
  have hnb := is_negative_iff hb.1
  have hba := Proper_val_bounds ha.1
  have hbb := Proper_val_bounds hb.1
  unfold compare
  by_cases h1 : a.length > b.length
  · rw [if_pos h1]
    obtain ⟨la, ta, rfl, -, -⟩ := Proper_iff.1 ha.1
    have hla : la ≠ [] := by
      intro h; subst h
      have := Proper_length_pos hb.1
      simp only [List.nil_append, List.length_singleton] at h1; omega
    have hm := pow_B_mono (show b.length ≤ la.length by simp at h1; omega)
    have hp := pow_B_pos la.length
    have hbig := Normalized_val_big ha hla
    unfold cmpInt
    split_ifs with hneg h2 h3 h4 h5
    all_goals first | rfl | (exfalso; have := hna.1; have := hna.2; omega) | skip
    all_goals (exfalso; first | exact absurd (hna.1 hneg) (by omega) | exact absurd (mt hna.2 hneg) (by omega))
  · rw [if_neg h1]
    by_cases h2 : a.length < b.length
    · rw [if_pos h2]
      obtain ⟨lb, tb, rfl, -, -⟩ := Proper_iff.1 hb.1
      have hlb : lb ≠ [] := by
        intro h; subst h
        have := Proper_length_pos ha.1
        simp only [List.nil_append, List.length_singleton] at h2; omega
      have hm := pow_B_mono (show a.length ≤ lb.length by simp at h2; omega)
      have hp := pow_B_pos lb.length
      have hbig := Normalized_val_big hb hlb
      unfold cmpInt
      split_ifs with hneg h2 h3 h4 h5
      all_goals first | rfl | skip
      all_goals (exfalso; first | exact absurd (hnb.1 hneg) (by omega) | exact absurd (mt hnb.2 hneg) (by omega))
    · rw [if_neg h2]
      have hlen : a.length = b.length := by omega
      by_cases h3 : is_negative a = true ∧ ¬ is_negative b = true
      · rw [if_pos h3]
        have := hna.1 h3.1
        have := mt hnb.2 h3.2
        unfold cmpInt
        rw [if_pos (by omega)]
      · rw [if_neg h3]
        by_cases h4 : ¬ is_negative a = true ∧ is_negative b = true
        · rw [if_pos h4]
          have := mt hna.2 h4.1
          have := hnb.1 h4.2
          unfold cmpInt
          rw [if_neg (by omega), if_neg (by omega)]
        · rw [if_neg h4]
          have := compareWords_spec a b a.length (le_refl _) (by omega)
            (Proper_take_low ha.1 (Nat.sub_lt (Proper_length_pos ha.1) Nat.one_pos))
            (by rw [hlen]; exact Proper_take_low hb.1 (Nat.sub_lt (Proper_length_pos hb.1) Nat.one_pos))
          rw [this, List.take_length]
          conv_lhs => rw [hlen, List.take_length]

theorem cmpInt_eq_zero {x y : Int} : cmpInt x y = 0 ↔ x = y := by
  unfold cmpInt; split_ifs <;> simp <;> omega

theorem cmpInt_lt_one {x y : Int} : cmpInt x y < 1 ↔ x ≤ y := by
  unfold cmpInt; split_ifs <;> simp <;> omega

/-! ## Shifts: word arithmetic -/

theorem B_eq_pow_mul {p : Nat} (hp : p ≤ 31) :
    (2147483648 : Int) = 2 ^ p * 2 ^ (31 - p) := by
  rw [← pow_add]
  have : p + (31 - p) = 31 := by omega
  rw [this]; norm_num

theorem two_pow_pos (p : Nat) : (0 : Int) < 2 ^ p := by positivity

theorem low31_mul_pow (w : Int) {p : Nat} (hp : p ≤ 31) :
    low31 (w * 2 ^ p) = 2 ^ p * (w % 2 ^ (31 - p)) := by
  unfold low31
  conv_lhs => rw [B_eq_pow_mul hp, mul_comm w]
  exact Int.mul_emod_mul_of_pos _ _ (two_pow_pos p)

theorem sar31_mul_pow (w : Int) {p : Nat} (hp : p ≤ 31) :
    sar31 (w * 2 ^ p) = w / 2 ^ (31 - p) := by
  unfold sar31
  conv_lhs => rw [B_eq_pow_mul hp, mul_comm w]
  exact Int.mul_ediv_mul_of_pos _ _ (two_pow_pos p)

theorem low31_add_sar31 (x : Int) : low31 x + 2147483648 * sar31 x = x := by
  unfold low31 sar31; omega

/-- A multiple of `2^p` below `2^31` leaves room for a carry below `2^p`. -/
theorem room_of_multiple {d c : Int} {p : Nat} (hp : p ≤ 31) (hd : d % 2 ^ p = 0)
    (hlt : d < 2147483648) (hc : c < 2 ^ p) : d + c < 2147483648 := by
  have hq := two_pow_pos p
  have hq' := two_pow_pos (31 - p)
  have hB := B_eq_pow_mul hp
  have hdq : d = 2 ^ p * (d / 2 ^ p) := by
    have := Int.emod_add_ediv d (2 ^ p)
    rw [hd] at this; omega
  have h1 : d / 2 ^ p < 2 ^ (31 - p) := by
    apply Int.ediv_lt_of_lt_mul hq
    rw [mul_comm, ← hB]; exact hlt
  have h2 : 2 ^ p * (d / 2 ^ p) ≤ 2 ^ p * (2 ^ (31 - p) - 1) :=
    mul_le_mul_of_nonneg_left (by omega) (le_of_lt hq)
  rw [mul_sub, ← hB, mul_one] at h2
  omega

theorem sar31_mul_pow_bounds {w : Int} {p : Nat} (hp : p ≤ 31)
    (hw : -2147483648 ≤ w ∧ w < 2147483648) :
    -(2 ^ p) ≤ sar31 (w * 2 ^ p) ∧ sar31 (w * 2 ^ p) < 2 ^ p := by
  rw [sar31_mul_pow w hp]
  have hq' := two_pow_pos (31 - p)
  have hB := B_eq_pow_mul hp
  constructor
  · apply Int.le_ediv_of_mul_le hq'
    rw [neg_mul, ← hB]; exact hw.1
  · apply Int.ediv_lt_of_lt_mul hq'
    rw [← hB]; exact hw.2

theorem sar31_mul_pow_nonneg {w : Int} {p : Nat} (hp : p ≤ 31) (hw : 0 ≤ w) :
    0 ≤ sar31 (w * 2 ^ p) := by
  rw [sar31_mul_pow w hp]
  exact Int.ediv_nonneg hw (le_of_lt (two_pow_pos _))

theorem two_pow_le_B {p : Nat} (hp : p ≤ 31) : (2 : Int) ^ p ≤ 2147483648 := by
  have := B_eq_pow_mul hp
  have h1 := two_pow_pos p
  have h2 := two_pow_pos (31 - p)
  nlinarith

theorem low31_mul_pow_mod (w : Int) {p : Nat} (hp : p ≤ 31) :
    low31 (w * 2 ^ p) % 2 ^ p = 0 := by
  rw [low31_mul_pow w hp]
  exact Int.mul_emod_right _ _

theorem set_append_cons_succ (pre : Words) (x y : Int) (rest : Words) (v : Int) :
    (pre ++ x :: y :: rest).set (pre.length + 1) v = pre ++ x :: v :: rest := by
  induction pre with
  | nil => rfl
  | cons a pre ih => simp [ih]

/-! ## bitwise_shift_left -/

/-- The loop of `bitwise_shift_left`: `d` is the word above the words still to
be shifted, already shifted and not yet given the overflow of the word below. -/
theorem shiftLeftLoop_spec {p : Nat} (hp : p ≤ 31) :
    ∀ (i : Nat) (pre : Words) (d : Int) (done : Words), pre.length = i → Low pre →
      d % 2 ^ p = 0 → Proper (d :: done) →
      Proper (shiftLeftLoop p i (pre ++ d :: done)) ∧
      val (shiftLeftLoop p i (pre ++ d :: done))
        = 2 ^ p * val pre + 2147483648 ^ i * val (d :: done) ∧
      (shiftLeftLoop p i (pre ++ d :: done)).length = i + 1 + done.length := by
  intro i
  induction i with
  | zero =>
    intro pre d done hlen _ _ hprop
    have : pre = [] := List.eq_nil_of_length_eq_zero hlen
    subst this
    simp only [shiftLeftLoop, List.nil_append]
    refine ⟨hprop, ?_, ?_⟩
    · simp [val_nil]
    · simp; omega
  | succ j ih =>
    intro pre d done hlen hlow hd hprop
    obtain ⟨pre', w, rfl⟩ := exists_append_of_ne_nil (show pre ≠ [] by
      intro h; rw [h] at hlen; simp at hlen)
    have hj : pre'.length = j := by simpa using hlen
    rw [Low_append, Low_singleton] at hlow
    have hstate : pre' ++ [w] ++ d :: done = pre' ++ w :: d :: done := by simp
    rw [hstate]
    simp only [shiftLeftLoop]
    rw [← hj, getD_append_cons, set_append_cons]
    have hg : (pre' ++ low31 (w * 2 ^ p) :: d :: done).getD (pre'.length + 1) 0 = d := by
      have := getD_append_cons_succ pre' (low31 (w * 2 ^ p)) (d :: done) 0
      simpa using this
    rw [hg, set_append_cons_succ]
    have hc0 := sar31_mul_pow_nonneg hp hlow.2.1
    have hc1 := (sar31_mul_pow_bounds hp (show -2147483648 ≤ w ∧ w < 2147483648 by omega)).2
    have hcB := two_pow_le_B hp
    have hl : low31 (sar31 (w * 2 ^ p)) = sar31 (w * 2 ^ p) := by
      unfold low31; omega
    rw [hl]
    have hdlt : d < 2147483648 := by
      cases done with
      | nil => exact (Proper_singleton.1 hprop).2
      | cons e done' => exact (Proper_cons_cons.1 hprop).1.2
    have hroom := room_of_multiple hp hd hdlt hc1
    have hdge : -2147483648 ≤ d := by
      cases done with
      | nil => exact (Proper_singleton.1 hprop).1
      | cons e done' => have := (Proper_cons_cons.1 hprop).1.1; omega
    rw [toInt32_of_range (by omega) hroom]
    have hprop' : Proper (low31 (w * 2 ^ p) :: (d + sar31 (w * 2 ^ p)) :: done) := by
      rw [Proper_cons_cons]
      refine ⟨⟨low31_nonneg _, low31_lt _⟩, ?_⟩
      cases done with
      | nil => rw [Proper_singleton]; omega
      | cons e done' =>
        rw [Proper_cons_cons] at hprop ⊢
        exact ⟨⟨by omega, hroom⟩, hprop.2⟩
    obtain ⟨h1, h2, h3⟩ := ih pre' (low31 (w * 2 ^ p)) ((d + sar31 (w * 2 ^ p)) :: done) hj hlow.1
      (low31_mul_pow_mod w hp) hprop'
    rw [hj]
    refine ⟨h1, ?_, by rw [h3]; simp; omega⟩
    rw [h2, val_append, val_singleton, hj, val_cons, val_cons, val_cons, pow_succ]
    have := low31_add_sar31 (w * 2 ^ p)
    linear_combination (2147483648 ^ j) * this

theorem Proper_append_low {a b : Words} (ha : Low a) (hb : Proper b) : Proper (a ++ b) := by
  obtain ⟨l, t, rfl, hl, ht⟩ := Proper_iff.1 hb
  rw [← List.append_assoc, Proper_append_singleton, Low_append]
  exact ⟨⟨ha, hl⟩, ht⟩

theorem set_length_sub_one (l : Words) (t v : Int) :
    (l ++ [t]).set ((l ++ [t]).length - 1) v = l ++ [v] := by
  have := setBack_append_singleton l t v
  unfold setBack at this
  exact this

/-- The partial left shift multiplies the value by `2^p`; its top word is zero
only when the value is zero. -/
theorem shiftLeftBits_spec {l : Words} {t : Int} (hl : Low l)
    (ht : -2147483648 ≤ t ∧ t < 2147483648) {p : Nat} (hp : p ≤ 31) :
    Proper (shiftLeftBits (l ++ [t]) p) ∧
      val (shiftLeftBits (l ++ [t]) p) = 2 ^ p * val (l ++ [t]) ∧
      (back (shiftLeftBits (l ++ [t]) p) = 0 → t = 0) := by
  have hq := two_pow_pos p
  have haux := sar31_mul_pow_bounds hp ht
  have hqB := two_pow_le_B hp
  have hsplit := low31_add_sar31 (t * 2 ^ p)
  have hl0 := low31_nonneg (t * 2 ^ p)
  have hl1 := low31_lt (t * 2 ^ p)
  -- the words after the top word has been shifted
  have key : ∃ T : Words, shiftLeftBits (l ++ [t]) p = shiftLeftLoop p l.length (l ++ T) ∧
      T ≠ [] ∧ (T.getD 0 0) % 2 ^ p = 0 ∧ Proper T ∧ val T = t * 2 ^ p ∧
      (T.length = 1 ∨ (T.length = 2 ∧ (2147483648 ≤ t * 2 ^ p ∨ t < 0))) := by
    unfold shiftLeftBits
    have hi : (l ++ [t]).length - 1 = l.length := by simp
    simp only [back_append_singleton, set_length_sub_one]
    rw [hi]
    by_cases h0 : sar31 (t * 2 ^ p) = 0
    · refine ⟨[t * 2 ^ p], ?_, by simp, ?_, ?_, by simp [val], Or.inl rfl⟩
      · have : low31 (t * 2 ^ p) = t * 2 ^ p := by omega
        simp [h0, this]
      · simp
      · rw [Proper_singleton]; omega
    · by_cases h1 : sar31 (t * 2 ^ p) = -1
      · refine ⟨[t * 2 ^ p], ?_, by simp, ?_, ?_, by simp [val], Or.inl rfl⟩
        · have : setSignBit (low31 (t * 2 ^ p)) = t * 2 ^ p := by
            unfold setSignBit; rw [if_neg (by omega)]; omega
          simp [h1, back_append_singleton, setBack_append_singleton, this]
        · simp
        · rw [Proper_singleton]; omega
      · refine ⟨[low31 (t * 2 ^ p), sar31 (t * 2 ^ p)], ?_, by simp, ?_, ?_, ?_, Or.inr ⟨rfl, ?_⟩⟩
        · rw [if_pos (show sar31 (t * 2 ^ p) ≠ 0 ∧ sar31 (t * 2 ^ p) ≠ -1 from ⟨h0, h1⟩)]
          rw [resize_succ_of_nonneg (Or.inr (by rw [back_append_singleton]; exact hl0)),
            setBack_append_singleton]
          have hfin : (l ++ [low31 (t * 2 ^ p)]) ++ [sar31 (t * 2 ^ p)]
              = l ++ [low31 (t * 2 ^ p), sar31 (t * 2 ^ p)] := by simp
          by_cases hneg : sar31 (t * 2 ^ p) < 0
          · rw [if_pos hneg, back_append_singleton, setBack_append_singleton]
            have : setSignBit (low31 (sar31 (t * 2 ^ p))) = sar31 (t * 2 ^ p) := by
              unfold setSignBit low31; rw [if_neg (by omega)]; omega
            rw [this, hfin]
          · rw [if_neg hneg]
            have : low31 (sar31 (t * 2 ^ p)) = sar31 (t * 2 ^ p) := by
              unfold low31; omega
            rw [this, hfin]
        · simpa using low31_mul_pow_mod t hp
        · rw [Proper_cons_cons, Proper_singleton]
          exact ⟨⟨hl0, hl1⟩, by omega, by omega⟩
        · simp only [val_cons, val_nil]; omega
        · by_cases hneg : t < 0
          · exact Or.inr hneg
          · left
            have : 0 ≤ t * 2 ^ p := mul_nonneg (by omega) (le_of_lt hq)
            unfold sar31 at h0 h1 haux
            omega
  obtain ⟨T, hT, hne, hmod, hprop, hval, hlenT⟩ := key
  obtain ⟨d, done, rfl⟩ := List.exists_cons_of_ne_nil hne
  simp only [List.getD_cons_zero] at hmod
  obtain ⟨h1, h2, h3⟩ := shiftLeftLoop_spec hp l.length l d done rfl hl hmod hprop
  rw [hT]
  refine ⟨h1, ?_, ?_⟩
  · rw [h2, hval, val_append, val_singleton]; ring
  · intro hb0
    by_contra htne
    obtain ⟨lo, top, hout, hlo, -⟩ := Proper_iff.1 h1
    rw [hout, back_append_singleton] at hb0
    rw [hout, hb0] at h2
    have hlen : lo.length + 1 = l.length + 1 + done.length := by
      rw [← h3, hout]; simp
    have v0 := Low_val_nonneg hlo
    have v1 := Low_val_lt hlo
    have w0 := Low_val_nonneg hl
    rw [val_append, val_singleton, mul_zero, add_zero, hval] at h2
    have hP := pow_B_pos l.length
    by_cases hneg : t < 0
    · have : t * 2 ^ p < 0 := mul_neg_of_neg_of_pos hneg hq
      have : 2147483648 ^ l.length * (t * 2 ^ p) < 0 := mul_neg_of_pos_of_neg hP this
      have : 2 ^ p * val l < 2147483648 ^ l.length * 1 := by
        have := Low_val_lt hl
        nlinarith
      nlinarith
    · have htpos : 1 ≤ t := by omega
      rcases hlenT with hlT | ⟨hlT, hbig⟩
      · have hdl : done.length = 0 := by simpa using hlT
        have hlol : lo.length = l.length := by omega
        rw [hlol] at v1
        have : 2147483648 ^ l.length * (1 * 1) ≤ 2147483648 ^ l.length * (t * 2 ^ p) := by
          apply mul_le_mul_of_nonneg_left _ (le_of_lt hP)
          exact mul_le_mul htpos (by omega) (by norm_num) (by omega)
        have : 0 ≤ 2 ^ p * val l := mul_nonneg (le_of_lt hq) w0
        omega
      · have hdl : done.length = 1 := by simpa using hlT
        have hlol : lo.length = l.length + 1 := by omega
        rw [hlol, pow_succ] at v1
        rcases hbig with hbig | hbig
        · have : 2147483648 ^ l.length * 2147483648 ≤ 2147483648 ^ l.length * (t * 2 ^ p) :=
            mul_le_mul_of_nonneg_left hbig (le_of_lt hP)
          have : 0 ≤ 2 ^ p * val l := mul_nonneg (le_of_lt hq) w0
          omega
        · omega

theorem pow_two_split (d : Nat) :
    (2 : Int) ^ d = 2147483648 ^ (d / 31) * 2 ^ (d % 31) := by
  have h : (2147483648 : Int) = 2 ^ 31 := by norm_num
  rw [h, ← pow_mul, ← pow_add, Nat.div_add_mod]

/-- Left shift is exact: `a << d` is the normalized vector of `val a * 2^d`. -/
theorem bitwise_shift_left_spec {ws : Words} (h : Normalized ws) (d : Nat) :
    Normalized (bitwise_shift_left ws d) ∧ val (bitwise_shift_left ws d) = val ws * 2 ^ d := by
  obtain ⟨l, t, rfl, hl, ht⟩ := Proper_iff.1 h.1
  have hp : d % 31 ≤ 31 := by omega
  have hz : t = 0 → val (l ++ [t]) = 0 := by
    intro ht0
    have := (is_zero_iff h).1 (by simp [is_zero, back_append_singleton, ht0])
    exact this
  have key : ∃ out, (if d % 31 > 0 then shiftLeftBits (l ++ [t]) (d % 31) else l ++ [t]) = out ∧
      Proper out ∧ val out = 2 ^ (d % 31) * val (l ++ [t]) ∧ (back out = 0 → t = 0) := by
    by_cases hpos : d % 31 > 0
    · rw [if_pos hpos]
      exact ⟨_, rfl, shiftLeftBits_spec hl ht hp⟩
    · rw [if_neg hpos]
      have : d % 31 = 0 := by omega
      refine ⟨_, rfl, h.1, by rw [this]; simp, ?_⟩
      rw [back_append_singleton]; exact id
  obtain ⟨out, hout, hprop, hval, hback⟩ := key
  unfold bitwise_shift_left
  simp only [hout]
  rw [pow_two_split d]
  by_cases hc : d / 31 > 0 ∧ back out ≠ 0
  · rw [if_pos hc]
    have hp' : Proper (List.replicate (d / 31) 0 ++ out) :=
      Proper_append_low (Low_replicate (by decide)) hprop
    refine ⟨fix_normalized hp', ?_⟩
    rw [val_fix hp', val_append, val_replicate_zero, List.length_replicate, hval]; ring
  · rw [if_neg hc]
    refine ⟨fix_normalized hprop, ?_⟩
    rw [val_fix hprop, hval]
    by_cases hf : d / 31 > 0
    · have hb0 : back out = 0 := by
        by_contra hb; exact hc ⟨hf, hb⟩
      rw [hz (hback hb0)]; ring
    · have : d / 31 = 0 := by omega
      rw [this]; ring

/-! ## bitwise_shift_right -/

theorem low31_mul_pow_sub (w : Int) {p : Nat} (hp : p ≤ 31) :
    low31 (w * 2 ^ (31 - p)) = 2 ^ (31 - p) * (w % 2 ^ p) := by
  have := low31_mul_pow w (show 31 - p ≤ 31 by omega)
  have e : 31 - (31 - p) = p := by omega
  rwa [e] at this

theorem sar31_mul_pow_sub (w : Int) {p : Nat} (hp : p ≤ 31) :
    sar31 (w * 2 ^ (31 - p)) = w / 2 ^ p := by
  have := sar31_mul_pow w (show 31 - p ≤ 31 by omega)
  have e : 31 - (31 - p) = p := by omega
  rwa [e] at this

theorem ediv_pow_bounds {w : Int} {p : Nat} (hp : p ≤ 31)
    (hw : -2147483648 ≤ w ∧ w < 2147483648) :
    -(2 ^ (31 - p)) ≤ w / 2 ^ p ∧ w / 2 ^ p < 2 ^ (31 - p) := by
  have := sar31_mul_pow_bounds (show 31 - p ≤ 31 by omega) hw
  rwa [sar31_mul_pow_sub w hp] at this

theorem split_pow (w : Int) {p : Nat} (hp : p ≤ 31) :
    2 ^ (31 - p) * (w % 2 ^ p) + 2147483648 * (w / 2 ^ p) = 2 ^ (31 - p) * w := by
  have hB : (2147483648 : Int) = 2 ^ (31 - p) * 2 ^ p := by
    rw [B_eq_pow_mul hp]; ring
  have := Int.emod_add_ediv w (2 ^ p)
  rw [hB]
  linear_combination (2 ^ (31 - p)) * this

/-- The loop of `bitwise_shift_right`: the word below the current index holds
the low 31 bits of `aux`, the quotient of the word shifted last. -/
theorem shiftRightLoop_spec {p : Nat} (hp : p ≤ 31) :
    ∀ (k : Nat) (done todo : Words) (aux : Int), todo.length = k → Low done →
      (todo ≠ [] → Proper todo) → (todo ≠ [] → 0 ≤ aux) →
      -(2 ^ (31 - p)) ≤ aux → aux < 2 ^ (31 - p) →
      ∃ lo a, shiftRightLoop p k (done.length + 1) aux (done ++ low31 aux :: todo)
          = (lo ++ [low31 a], a) ∧
        Low lo ∧ -(2 ^ (31 - p)) ≤ a ∧ a < 2 ^ (31 - p) ∧
        val (lo ++ [a]) = val done + 2147483648 ^ done.length * (aux + 2 ^ (31 - p) * val todo) := by
  intro k
  induction k with
  | zero =>
    intro done todo aux hlen hdone _ _ h1 h2
    have : todo = [] := List.eq_nil_of_length_eq_zero hlen
    subst this
    refine ⟨done, aux, by simp [shiftRightLoop], hdone, h1, h2, ?_⟩
    rw [val_append, val_singleton, val_nil]; ring
  | succ k ih =>
    intro done todo aux hlen hdone hprop hnn h1 h2
    obtain ⟨w, rest, rfl⟩ := List.exists_cons_of_ne_nil (show todo ≠ [] by
      intro h; rw [h] at hlen; simp at hlen)
    have hrest : rest.length = k := by simpa using hlen
    have hP := hprop (by simp)
    have haux0 := hnn (by simp)
    have hq := two_pow_pos (31 - p)
    have hqB := two_pow_le_B (show 31 - p ≤ 31 by omega)
    have hcur : low31 aux = aux := by unfold low31; omega
    have hwr : -2147483648 ≤ w ∧ w < 2147483648 := Proper_mem_range hP (by simp)
    simp only [shiftRightLoop, Nat.add_sub_cancel]
    have hg1 : (done ++ low31 aux :: w :: rest).getD (done.length + 1) 0 = w := by
      have := getD_append_cons_succ done (low31 aux) (w :: rest) 0
      simpa using this
    rw [hg1, getD_append_cons, set_append_cons, set_append_cons_succ,
      low31_mul_pow_sub w hp, sar31_mul_pow_sub w hp, hcur]
    have hm0 : 0 ≤ w % 2 ^ p := Int.emod_nonneg _ (ne_of_gt (two_pow_pos p))
    have hm1 : w % 2 ^ p < 2 ^ p := Int.emod_lt_of_pos _ (two_pow_pos p)
    have hB := B_eq_pow_mul hp
    have hcarry0 : 0 ≤ 2 ^ (31 - p) * (w % 2 ^ p) := mul_nonneg (le_of_lt hq) hm0
    have hcarry1 : 2 ^ (31 - p) * (w % 2 ^ p) ≤ 2147483648 - 2 ^ (31 - p) := by
      have h1 : 2 ^ (31 - p) * (w % 2 ^ p) ≤ 2 ^ (31 - p) * (2 ^ p - 1) :=
        mul_le_mul_of_nonneg_left (by omega) (le_of_lt hq)
      have h2 : (2 : Int) ^ (31 - p) * (2 ^ p - 1) = 2147483648 - 2 ^ (31 - p) := by
        rw [hB]; ring
      rw [h2] at h1
      exact h1
    rw [toInt32_of_range (by omega) (by omega)]
    have hb := ediv_pow_bounds hp hwr
    have hstate : done ++ (aux + 2 ^ (31 - p) * (w % 2 ^ p)) :: low31 (w / 2 ^ p) :: rest
        = (done ++ [aux + 2 ^ (31 - p) * (w % 2 ^ p)]) ++ low31 (w / 2 ^ p) :: rest := by simp
    have hidx : done.length + 1 + 1 = (done ++ [aux + 2 ^ (31 - p) * (w % 2 ^ p)]).length + 1 := by
      simp
    rw [hstate, hidx]
    have hdone' : Low (done ++ [aux + 2 ^ (31 - p) * (w % 2 ^ p)]) := by
      rw [Low_append, Low_singleton]
      exact ⟨hdone, by omega, by omega⟩
    have hrestP : rest ≠ [] → Proper rest := by
      intro hne
      obtain ⟨e, rest', rfl⟩ := List.exists_cons_of_ne_nil hne
      exact (Proper_cons_cons.1 hP).2
    have hnn' : rest ≠ [] → 0 ≤ w / 2 ^ p := by
      intro hne
      obtain ⟨e, rest', rfl⟩ := List.exists_cons_of_ne_nil hne
      exact Int.ediv_nonneg (Proper_cons_cons.1 hP).1.1 (le_of_lt (two_pow_pos p))
    obtain ⟨lo, a, e1, e2, e3, e4, e5⟩ := ih (done ++ [aux + 2 ^ (31 - p) * (w % 2 ^ p)]) rest
      (w / 2 ^ p) hrest hdone' hrestP hnn' hb.1 hb.2
    refine ⟨lo, a, e1, e2, e3, e4, ?_⟩
    rw [e5, val_append, val_singleton, val_cons, List.length_append, List.length_singleton,
      pow_succ]
    have := split_pow w hp
    linear_combination (2147483648 ^ done.length) * this

theorem setSignBit_low31 {a : Int} (h1 : -2147483648 ≤ a) (h2 : a < 0) :
    setSignBit (low31 a) = a := by
  unfold setSignBit low31; rw [if_neg (by omega)]; omega

/-- The partial right shift divides the value by `2^p`, rounding down. -/
theorem shiftRightBits_spec {ws : Words} (h : Proper ws) {p : Nat} (hp : p ≤ 31) :
    Proper (shiftRightBits ws p) ∧ val (shiftRightBits ws p) = val ws / 2 ^ p := by
  have hq := two_pow_pos p
  have hq' := two_pow_pos (31 - p)
  have hqB := two_pow_le_B (show 31 - p ≤ 31 by omega)
  cases ws with
  | nil => exact absurd rfl h.1
  | cons w0 todo =>
    have hw0 : -2147483648 ≤ w0 ∧ w0 < 2147483648 := Proper_mem_range h (by simp)
    have hb := ediv_pow_bounds hp hw0
    cases todo with
    | nil =>
      have : shiftRightBits [w0] p = [w0 / 2 ^ p] := by
        unfold shiftRightBits
        simp only [List.length_singleton, if_true, List.getD_cons_zero, List.set_cons_zero,
          Nat.sub_self, shiftRightLoop]
        rw [toInt32_of_range (by omega) (by omega)]
        split_ifs with hneg
        · simp only [back_singleton]
          have : setBack [w0 / 2 ^ p] (setSignBit (w0 / 2 ^ p)) = [setSignBit (w0 / 2 ^ p)] := rfl
          rw [this]
          unfold setSignBit; rw [if_pos hneg]
        · rfl
      rw [this, val_singleton, val_singleton, Proper_singleton]
      exact ⟨⟨by omega, by omega⟩, rfl⟩
    | cons w1 rest =>
      have hP := Proper_cons_cons.1 h
      have haux0 : 0 ≤ w0 / 2 ^ p := Int.ediv_nonneg hP.1.1 (le_of_lt hq)
      obtain ⟨lo, a, e1, e2, e3, e4, e5⟩ := shiftRightLoop_spec hp (w1 :: rest).length []
        (w1 :: rest) (w0 / 2 ^ p) rfl Low_nil (fun _ => hP.2) (fun _ => haux0) hb.1 hb.2
      simp only [List.nil_append, List.length_nil, Nat.zero_add, val_nil, zero_add, pow_zero,
        one_mul] at e1 e5
      have hout : shiftRightBits (w0 :: w1 :: rest) p = lo ++ [a] := by
        unfold shiftRightBits
        have hlen : ¬ (rest.length + 1 + 1 = 1) := by omega
        simp only [List.length_cons, if_neg hlen, List.getD_cons_zero, List.set_cons_zero,
          Nat.add_sub_cancel]
        simp only [List.length_cons] at e1
        rw [e1]
        simp only
        split_ifs with hneg
        · rw [back_append_singleton, setBack_append_singleton,
            setSignBit_low31 (by omega) hneg]
        · have : low31 a = a := by unfold low31; omega
          rw [this]
      rw [hout]
      constructor
      · rw [Proper_append_singleton]
        exact ⟨e2, by omega, by omega⟩
      · rw [e5]
        have hs := split_pow w0 hp
        have hB : (2147483648 : Int) = 2 ^ (31 - p) * 2 ^ p := by
          rw [B_eq_pow_mul hp]; ring
        have hm0 : 0 ≤ w0 % 2 ^ p := Int.emod_nonneg _ (ne_of_gt hq)
        have hm1 : w0 % 2 ^ p < 2 ^ p := Int.emod_lt_of_pos _ hq
        have hval : val (w0 :: w1 :: rest)
            = w0 % 2 ^ p + (w0 / 2 ^ p + 2 ^ (31 - p) * val (w1 :: rest)) * 2 ^ p := by
          rw [val_cons w0]
          have := Int.emod_add_ediv w0 (2 ^ p)
          rw [hB]
          linear_combination -this
        rw [hval, Int.add_mul_ediv_right _ _ (ne_of_gt hq), Int.ediv_eq_zero_of_lt hm0 hm1]
        ring

theorem ediv_ediv_pos (a : Int) {b c : Int} (hb : 0 < b) (hc : 0 < c) :
    a / b / c = a / (b * c) := by
  have h1 := Int.emod_add_ediv a b
  have h2 := Int.emod_add_ediv (a / b) c
  have r0 := Int.emod_nonneg a (ne_of_gt hb)
  have r1 := Int.emod_lt_of_pos a hb
  have s0 := Int.emod_nonneg (a / b) (ne_of_gt hc)
  have s1 := Int.emod_lt_of_pos (a / b) hc
  have hsplit : a = (a % b + b * ((a / b) % c)) + (a / b / c) * (b * c) := by
    linear_combination -h1 - b * h2
  have hlo : 0 ≤ a % b + b * ((a / b) % c) := by
    have := mul_nonneg (le_of_lt hb) s0
    omega
  have hhi : a % b + b * ((a / b) % c) < b * c := by
    have : b * ((a / b) % c) ≤ b * (c - 1) := mul_le_mul_of_nonneg_left (by omega) (le_of_lt hb)
    rw [mul_sub, mul_one] at this
    omega
  conv_rhs => rw [hsplit]
  rw [Int.add_mul_ediv_right _ _ (ne_of_gt (mul_pos hb hc)), Int.ediv_eq_zero_of_lt hlo hhi]
  ring

theorem val_drop_eq_ediv {ws : Words} (h : Proper ws) {f : Nat} (hf : f < ws.length) :
    val (ws.drop f) = val ws / 2147483648 ^ f := by
  have hlow := Proper_take_low h hf
  have h0 := Low_val_nonneg hlow
  have h1 := Low_val_lt hlow
  have hlen : (ws.take f).length = f := by simp; omega
  rw [hlen] at h1
  have hP := pow_B_pos f
  conv_rhs => rw [← List.take_append_drop f ws, val_append, hlen, mul_comm]
  rw [Int.add_mul_ediv_right _ _ (ne_of_gt hP), Int.ediv_eq_zero_of_lt h0 h1]
  ring

/-- Right shift: the result is normalized; it denotes `floor(val / 2^d)` as
long as the whole-word part of the shift leaves at least one word, and is the
zero value otherwise. -/
theorem bitwise_shift_right_spec {ws : Words} (h : Proper ws) (d : Nat) :
    Normalized (bitwise_shift_right ws d) ∧
      (d / 31 < ws.length → val (bitwise_shift_right ws d) = val ws / 2 ^ d) ∧
      (ws.length ≤ d / 31 → bitwise_shift_right ws d = [0]) := by
  have hdrop : (if d / 31 > 0 then ws.drop (d / 31) else ws) = ws.drop (d / 31) := by
    split_ifs with hf
    · rfl
    · have : d / 31 = 0 := by omega
      rw [this]; rfl
  unfold bitwise_shift_right
  simp only [hdrop]
  by_cases hlen : ws.length ≤ d / 31
  · have hnil : ws.drop (d / 31) = [] := List.drop_eq_nil_of_le hlen
    rw [hnil]
    simp only [ne_eq, not_true_eq_false, and_false, if_false, fix_nil]
    exact ⟨Normalized_singleton.2 (by decide), fun hc => absurd hc (by omega), fun _ => trivial⟩
  · have hlt : d / 31 < ws.length := by omega
    have hP := Proper_drop h hlt
    have hv := val_drop_eq_ediv h hlt
    have hp : d % 31 ≤ 31 := by omega
    have key : ∃ out, (if d % 31 > 0 ∧ ws.drop (d / 31) ≠ [] then
          shiftRightBits (ws.drop (d / 31)) (d % 31) else ws.drop (d / 31)) = out ∧
        Proper out ∧ val out = val (ws.drop (d / 31)) / 2 ^ (d % 31) := by
      by_cases hc : d % 31 > 0 ∧ ws.drop (d / 31) ≠ []
      · rw [if_pos hc]
        exact ⟨_, rfl, shiftRightBits_spec hP hp⟩
      · rw [if_neg hc]
        have : d % 31 = 0 := by
          by_contra hne
          exact hc ⟨by omega, hP.1⟩
        refine ⟨_, rfl, hP, ?_⟩
        rw [this]; simp
    obtain ⟨out, hout, hprop, hval⟩ := key
    rw [hout]
    refine ⟨fix_normalized hprop, fun _ => ?_, fun hc => absurd hc hlen⟩
    rw [val_fix hprop, hval, hv, pow_two_split d,
      ediv_ediv_pos _ (pow_B_pos _) (two_pow_pos _)]

theorem bitwise_shift_right_normalized {ws : Words} (h : Proper ws) (d : Nat) :
    Normalized (bitwise_shift_right ws d) := (bitwise_shift_right_spec h d).1

/-- Right shift by one bit halves the value, rounding down. -/
theorem val_shift_right_one {ws : Words} (h : Proper ws) :
    val (bitwise_shift_right ws 1) = val ws / 2 := by
  have := (bitwise_shift_right_spec h 1).2.1 (by
    have := Proper_length_pos h
    simpa using this)
  simpa using this

/-! ## split -/

theorem Low_proper {l : Words} (hl : Low l) (hne : l ≠ []) : Proper l := by
  obtain ⟨l', t, rfl⟩ := exists_append_of_ne_nil hne
  rw [Low_append, Low_singleton] at hl
  rw [Proper_append_singleton]
  exact ⟨hl.1, by omega, hl.2.2⟩

theorem fix_length_le {ws : Words} (h : Proper ws) : (fix ws).length ≤ ws.length :=
  length_le_of_val_eq (fix_normalized h) h (val_fix h)

theorem back_drop {ws : Words} {s : Nat} (hs : s < ws.length) : back (ws.drop s) = back ws := by
  obtain ⟨l, t, rfl⟩ := exists_append_of_ne_nil (show ws ≠ [] by
    intro h; rw [h] at hs; simp at hs)
  have : s ≤ l.length := by simp at hs; omega
  rw [List.drop_append_of_le_length this, back_append_singleton, back_append_singleton]

/-- The two parts returned by `split` are normalized and recompose the
operand; when the operand has more than `s` words the low part lies in
`[0, 2^(31 s))` and the high part is neither 0 nor -1. -/
theorem split_spec {a : Words} (h : Normalized a) {s : Nat} (hs : 1 ≤ s) :
    Normalized (split a s).1 ∧ Normalized (split a s).2 ∧
      val a = val (split a s).1 + 2147483648 ^ s * val (split a s).2 ∧
      (a.length ≤ s → (split a s).1 = a ∧ (split a s).2 = [0]) ∧
      (s < a.length → 0 ≤ val (split a s).1 ∧ val (split a s).1 < 2147483648 ^ s ∧
        val (split a s).2 ≠ 0 ∧ val (split a s).2 ≠ -1) := by
  unfold split
  by_cases hlen : s < a.length
  · simp only [if_pos hlen]
    have hlow := Proper_take_low h.1 hlen
    have htl : (a.take s).length = s := by simp; omega
    have hne : a.take s ≠ [] := by
      intro hc; rw [hc] at htl; simp at htl; omega
    have hP1 := Low_proper hlow hne
    have hfl := fix_length_le hP1
    have hne2 : ¬ ((fix (a.take s)).length = a.length) := by omega
    simp only [if_neg hne2]
    have hP2 := Proper_drop h.1 hlen
    have hv0 := Low_val_nonneg hlow
    have hv1 := Low_val_lt hlow
    rw [htl] at hv1
    have htop : back (a.drop s) ≠ 0 ∧ back (a.drop s) ≠ -1 := by
      rw [back_drop hlen]
      exact h.2 (by omega)
    have hvd := val_ne_of_top hP2 htop.1 htop.2
    refine ⟨fix_normalized hP1, fix_normalized hP2, ?_, fun hc => absurd hc (by omega), fun _ => ?_⟩
    · rw [val_fix hP1, val_fix hP2]
      conv_lhs => rw [← List.take_append_drop s a, val_append, htl]
    · rw [val_fix hP1, val_fix hP2]
      exact ⟨hv0, hv1, hvd.1, hvd.2⟩
  · simp only [if_neg hlen, fix_of_normalized h, if_true, fix_singleton]
    refine ⟨h, Normalized_singleton.2 (by decide), by simp [val], ?_,
      fun hc => absurd hc hlen⟩
    simp

/-! ## multiply: the measure of the recursion -/

theorem natAbs_parts {A X W P : Int} (hP : 2 ≤ P) (hA : A = X + P * W) (hX0 : 0 ≤ X)
    (hX1 : X < P) (hW0 : W ≠ 0) (hW1 : W ≠ -1) :
    W.natAbs < A.natAbs ∧ X.natAbs < A.natAbs ∧ (W + X).natAbs < A.natAbs := by
  by_cases hpos : 1 ≤ W
  · have h1 : P ≤ P * W := by nlinarith
    have h2 : 2 * W ≤ P * W := by nlinarith
    omega
  · have hneg : W ≤ -2 := by omega
    have h1 : P * W ≤ -(2 * P) := by nlinarith
    have h2 : P * W + P ≤ 2 * W + 2 := by nlinarith
    omega

/-! ## multiply: base case and recombination -/

theorem mul_range {t1 t2 : Int} (h1 : -2147483648 ≤ t1 ∧ t1 < 2147483648)
    (h2 : -2147483648 ≤ t2 ∧ t2 < 2147483648) :
    -4611686018427387904 < t1 * t2 ∧ t1 * t2 ≤ 4611686018427387904 := by
  constructor
  · nlinarith [mul_nonneg (show 0 ≤ t1 + 2147483648 by omega) (show 0 ≤ t2 + 2147483648 by omega),
      mul_nonneg (show 0 ≤ 2147483647 - t1 by omega) (show 0 ≤ 2147483647 - t2 by omega)]
  · nlinarith [mul_nonneg (show 0 ≤ t1 + 2147483648 by omega) (show 0 ≤ 2147483648 - t2 by omega),
      mul_nonneg (show 0 ≤ 2147483648 - t1 by omega) (show 0 ≤ t2 + 2147483648 by omega)]

/-- The two words stored by the single-word case of `multiply` hold the
product unless it is `2^62`. -/
theorem mul_base {t1 t2 : Int} (h1 : -2147483648 ≤ t1 ∧ t1 < 2147483648)
    (h2 : -2147483648 ≤ t2 ∧ t2 < 2147483648) :
    Normalized (fix (if sar31 (sar31 (t1 * t2)) < 0
        then [low31 (t1 * t2), setSignBit (low31 (sar31 (t1 * t2)))]
        else [low31 (t1 * t2), low31 (sar31 (t1 * t2))])) ∧
    (t1 * t2 ≠ 4611686018427387904 →
      val (fix (if sar31 (sar31 (t1 * t2)) < 0
        then [low31 (t1 * t2), setSignBit (low31 (sar31 (t1 * t2)))]
        else [low31 (t1 * t2), low31 (sar31 (t1 * t2))])) = t1 * t2) := by
  have hr := mul_range h1 h2
  generalize t1 * t2 = res at hr
  have hP : Proper (if sar31 (sar31 res) < 0 then [low31 res, setSignBit (low31 (sar31 res))]
      else [low31 res, low31 (sar31 res)]) := by
    split_ifs
    · rw [Proper_cons_cons, Proper_singleton]
      unfold setSignBit low31 sar31
      split_ifs <;> omega
    · rw [Proper_cons_cons, Proper_singleton]
      unfold low31 sar31
      omega
  refine ⟨fix_normalized hP, fun hne => ?_⟩
  rw [val_fix hP]
  split_ifs with hneg
  · simp only [val_cons, val_nil]
    unfold setSignBit low31 sar31 at *
    split_ifs <;> omega
  · simp only [val_cons, val_nil]
    unfold low31 sar31 at *
    omega

theorem pow_two_31_mul (k : Nat) : (2 : Int) ^ (31 * k) = 2147483648 ^ k := by
  rw [pow_mul]; norm_num

/-- The recombination step of `multiply`. -/
theorem mul_combine {r p q : Words} (hr : Normalized r) (hp : Normalized p) (hq : Normalized q)
    (s : Nat) :
    Normalized (add (add (bitwise_shift_left p (2 * s * 31))
        (bitwise_shift_left (add (add r p true) q true) (31 * s)) false) q false) ∧
    (0 ≤ val p → 0 ≤ val q →
      val (add (add (bitwise_shift_left p (2 * s * 31))
        (bitwise_shift_left (add (add r p true) q true) (31 * s)) false) q false)
        = val p * 2147483648 ^ (2 * s) + (val r - val p - val q) * 2147483648 ^ s + val q) := by
  obtain ⟨n1, v1⟩ := bitwise_shift_left_spec hp (2 * s * 31)
  have hrp := add_normalized hr.1 hp true
  have hrpq := add_normalized hrp.1 hq true
  obtain ⟨n2, v2⟩ := bitwise_shift_left_spec hrpq (31 * s)
  obtain ⟨n3, v3⟩ := add_spec n1.1 n2.1
  obtain ⟨n4, v4⟩ := add_spec n3.1 hq.1
  refine ⟨n4, fun hp0 hq0 => ?_⟩
  obtain ⟨-, w1⟩ := sub_spec_nonneg hr.1 hp hp0
  obtain ⟨-, w2⟩ := sub_spec_nonneg hrp.1 hq hq0
  have e1 : (2 : Int) ^ (2 * s * 31) = 2147483648 ^ (2 * s) := by
    rw [mul_comm (2 * s) 31]; exact pow_two_31_mul _
  rw [v4, v3, v1, v2, w2, w1, e1, pow_two_31_mul]

theorem eq_singleton_of_val {b : Words} (hb : Normalized b) {v : Int}
    (hv : val b = v) (h1 : -2147483648 ≤ v) (h2 : v < 2147483648) : b = [v] :=
  Normalized_unique _ _ hb (Normalized_singleton.2 ⟨h1, h2⟩) (by rw [hv, val_singleton])

theorem ofNative_minus_one : ofNative (-1) = [-1] := by decide

theorem ofNative_one : ofNative 1 = [1] := by decide

theorem reset_nil : reset [] = [0] := by decide

/-! ## multiply: termination, normalization and exactness -/

theorem compare_minus_iff {a : Words} (ha : Normalized a) :
    compare a (ofNative (-1)) = 0 ↔ val a = -1 := by
  rw [ofNative_minus_one, compare_spec ha (Normalized_singleton.2 (by decide)), cmpInt_eq_zero,
    val_singleton]

/-- Facts on the two parts of an operand of the recursive case. -/
theorem split_cases {a : Words} (ha : Normalized a) {s : Nat} (hs : 1 ≤ s) {x w : Words}
    (hsp : split a s = (x, w)) :
    Normalized x ∧ Normalized w ∧ val a = val x + 2147483648 ^ s * val w ∧
      ((a.length ≤ s ∧ val x = val a ∧ val w = 0) ∨
        (s < a.length ∧ 0 ≤ val x ∧ val x < 2147483648 ^ s ∧ val w ≠ 0 ∧ val w ≠ -1)) := by
  have := split_spec ha hs
  rw [hsp] at this
  obtain ⟨h1, h2, h3, h4, h5⟩ := this
  refine ⟨h1, h2, h3, ?_⟩
  by_cases hlen : s < a.length
  · exact Or.inr ⟨hlen, h5 hlen⟩
  · obtain ⟨e1, e2⟩ := h4 (by omega)
    simp only at e1 e2
    exact Or.inl ⟨by omega, by rw [e1], by rw [e2]; rfl⟩

theorem two_le_pow_B {s : Nat} (hs : 1 ≤ s) : (2 : Int) ≤ 2147483648 ^ s := by
  have := pow_B_mono hs
  simp only [pow_one] at this
  omega

/-- Measure of the operands of the recursive calls. -/
theorem parts_measure {A X W P : Int} (hP : 2 ≤ P) (hA : A = X + P * W)
    (h : (X = A ∧ W = 0) ∨ (0 ≤ X ∧ X < P ∧ W ≠ 0 ∧ W ≠ -1)) :
    W.natAbs ≤ A.natAbs ∧ X.natAbs ≤ A.natAbs ∧ (W + X).natAbs ≤ A.natAbs ∧
      ((0 ≤ X ∧ X < P ∧ W ≠ 0 ∧ W ≠ -1) →
        W.natAbs < A.natAbs ∧ X.natAbs < A.natAbs ∧ (W + X).natAbs < A.natAbs) := by
  rcases h with ⟨h1, h2⟩ | ⟨h1, h2, h3, h4⟩
  · subst h2
    refine ⟨by omega, by omega, by omega, ?_⟩
    rintro ⟨-, -, h3, -⟩
    exact absurd rfl h3
  · have := natAbs_parts hP hA h1 h2 h3 h4
    exact ⟨by omega, by omega, by omega, fun _ => this⟩

/-- Sign facts on the parts of a non-negative operand. -/
theorem parts_nonneg {A X W P : Int} (hP : 2 ≤ P) (hA : A = X + P * W) (hA0 : 0 ≤ A)
    (h : (X = A ∧ W = 0) ∨ (0 ≤ X ∧ X < P ∧ W ≠ 0 ∧ W ≠ -1)) : 0 ≤ X ∧ 0 ≤ W := by
  rcases h with ⟨h1, h2⟩ | ⟨h1, h2, h3, h4⟩
  · omega
  · refine ⟨h1, ?_⟩
    by_contra hc
    have : P * W ≤ -P := by nlinarith
    omega

theorem size_bounds {m : Nat} (hm : 2 ≤ m) : 1 ≤ m / 2 + m % 2 ∧ m / 2 + m % 2 < m := by
  omega

/-- The product `multiply` terminates with a normalized result on normalized operands as
soon as the fuel exceeds the sum of the absolute values of the operands; the
result is the product when both operands are non-negative or one of them is
0 or 1. -/
theorem multiplyFuel_spec : ∀ (fuel : Nat) (a b : Words), Normalized a → Normalized b →
    (val a).natAbs + (val b).natAbs < fuel →
    ∃ r, multiplyFuel fuel a b = some r ∧ Normalized r ∧
      (MulExact (val a) (val b) → val r = val a * val b) := by
  intro fuel
  induction fuel with
  | zero => intro a b _ _ h; omega
  | succ f ih =>
    intro a b ha hb hm
    rw [multiplyFuel]
    by_cases hz : is_zero a = true ∨ is_zero b = true
    · rw [if_pos hz, reset_nil]
      refine ⟨_, rfl, Normalized_singleton.2 (by decide), fun _ => ?_⟩
      rcases hz with hz | hz
      · rw [(is_zero_iff ha).1 hz]; simp [val]
      · rw [(is_zero_iff hb).1 hz]; simp [val]
    rw [if_neg hz]
    have hza : val a ≠ 0 := fun h => hz (Or.inl ((is_zero_iff ha).2 h))
    have hzb : val b ≠ 0 := fun h => hz (Or.inr ((is_zero_iff hb).2 h))
    by_cases hm1 : compare a (ofNative (-1)) = 0
    · rw [if_pos hm1]
      obtain ⟨hn, hv⟩ := negative_spec hb.1
      refine ⟨_, rfl, hn, fun _ => ?_⟩
      rw [hv, (compare_minus_iff ha).1 hm1]; ring
    rw [if_neg hm1]
    by_cases hm2 : compare b (ofNative (-1)) = 0
    · rw [if_pos hm2]
      obtain ⟨hn, hv⟩ := negative_spec ha.1
      refine ⟨_, rfl, hn, fun _ => ?_⟩
      rw [hv, (compare_minus_iff hb).1 hm2]; ring
    rw [if_neg hm2]
    by_cases hsingle : a.length = 1 ∧ b.length = 1
    · rw [if_pos hsingle]
      obtain ⟨t1, rfl⟩ := List.length_eq_one.1 hsingle.1
      obtain ⟨t2, rfl⟩ := List.length_eq_one.1 hsingle.2
      have h1 := Normalized_singleton.1 ha
      have h2 := Normalized_singleton.1 hb
      simp only [back_singleton, val_singleton]
      obtain ⟨hn, hv⟩ := mul_base h1 h2
      refine ⟨_, rfl, hn, fun hE => hv ?_⟩
      intro hc
      simp only [val_singleton] at hza hzb
      rcases hE with ⟨e1, e2⟩ | (e | e) | (e | e)
      · have : t1 * t2 ≤ 2147483647 * 2147483647 :=
          mul_le_mul (by omega) (by omega) e2 (by norm_num)
        omega
      · exact hzb e
      · rw [e] at hc; omega
      · exact hza e
      · rw [e] at hc; omega
    rw [if_neg hsingle]
    -- the recursive case
    have hla := Proper_length_pos ha.1
    have hlb := Proper_length_pos hb.1
    have hmax : 2 ≤ max a.length b.length := by
      by_contra hc
      apply hsingle
      have : max a.length b.length ≤ 1 := by omega
      have h1 := le_max_left a.length b.length
      have h2 := le_max_right a.length b.length
      omega
    obtain ⟨hs1, hs2⟩ := size_bounds hmax
    show ∃ r, (match split a (max a.length b.length / 2 + max a.length b.length % 2) with
        | (x, w) =>
          match split b (max a.length b.length / 2 + max a.length b.length % 2) with
          | (z, y) =>
            match multiplyFuel f (add w x false) (add y z false), multiplyFuel f w y,
              multiplyFuel f x z with
            | some r, some p, some q =>
              some (add (add (bitwise_shift_left p
                  (2 * (max a.length b.length / 2 + max a.length b.length % 2) * 31))
                (bitwise_shift_left (add (add r p true) q true)
                  (31 * (max a.length b.length / 2 + max a.length b.length % 2))) false) q false)
            | _, _, _ => none) = some r ∧ Normalized r ∧
              (MulExact (val a) (val b) → val r = val a * val b)
    generalize max a.length b.length / 2 + max a.length b.length % 2 = s at hs1 hs2 ⊢
    obtain ⟨x, w, hsa⟩ : ∃ x w, split a s = (x, w) := ⟨_, _, rfl⟩
    obtain ⟨z, y, hsb⟩ : ∃ z y, split b s = (z, y) := ⟨_, _, rfl⟩
    obtain ⟨nx, nw, eA, cA⟩ := split_cases ha hs1 hsa
    obtain ⟨nz, ny, eB, cB⟩ := split_cases hb hs1 hsb
    rw [hsa, hsb]
    simp only
    have hP := two_le_pow_B hs1
    obtain ⟨nwx, vwx⟩ := add_spec nw.1 nx.1
    obtain ⟨nyz, vyz⟩ := add_spec ny.1 nz.1
    have cA' : (val x = val a ∧ val w = 0) ∨
        (0 ≤ val x ∧ val x < 2147483648 ^ s ∧ val w ≠ 0 ∧ val w ≠ -1) := by
      rcases cA with ⟨-, h1, h2⟩ | ⟨-, h⟩
      · exact Or.inl ⟨h1, h2⟩
      · exact Or.inr h
    have cB' : (val z = val b ∧ val y = 0) ∨
        (0 ≤ val z ∧ val z < 2147483648 ^ s ∧ val y ≠ 0 ∧ val y ≠ -1) := by
      rcases cB with ⟨-, h1, h2⟩ | ⟨-, h⟩
      · exact Or.inl ⟨h1, h2⟩
      · exact Or.inr h
    obtain ⟨mA1, mA2, mA3, mA4⟩ := parts_measure hP eA cA'
    obtain ⟨mB1, mB2, mB3, mB4⟩ := parts_measure hP eB cB'
    -- one of the operands has more than `s` words
    have hlong : (0 ≤ val x ∧ val x < 2147483648 ^ s ∧ val w ≠ 0 ∧ val w ≠ -1) ∨
        (0 ≤ val z ∧ val z < 2147483648 ^ s ∧ val y ≠ 0 ∧ val y ≠ -1) := by
      rcases cA with ⟨h1, -⟩ | ⟨-, h⟩
      · rcases cB with ⟨h2, -⟩ | ⟨-, h⟩
        · exfalso
          have : max a.length b.length ≤ s := max_le h1 h2
          omega
        · exact Or.inr h
      · exact Or.inl h
    have hmr : (val (add w x false)).natAbs + (val (add y z false)).natAbs < f := by
      rw [vwx, vyz]
      rcases hlong with h | h
      · have := (mA4 h).2.2; omega
      · have := (mB4 h).2.2; omega
    have hmp : (val w).natAbs + (val y).natAbs < f := by
      rcases hlong with h | h
      · have := (mA4 h).1; omega
      · have := (mB4 h).1; omega
    have hmq : (val x).natAbs + (val z).natAbs < f := by
      rcases hlong with h | h
      · have := (mA4 h).2.1; omega
      · have := (mB4 h).2.1; omega
    obtain ⟨r, er, nr, vr⟩ := ih _ _ nwx nyz hmr
    obtain ⟨p, ep, np, vp⟩ := ih _ _ nw ny hmp
    obtain ⟨q, eq, nq, vq⟩ := ih _ _ nx nz hmq
    rw [er, ep, eq]
    simp only
    obtain ⟨nres, vres⟩ := mul_combine nr np nq s
    refine ⟨_, rfl, nres, fun hE => ?_⟩
    -- exactness
    have hfacts : MulExact (val (add w x false)) (val (add y z false)) ∧
        MulExact (val w) (val y) ∧ MulExact (val x) (val z) ∧ 0 ≤ val w * val y ∧
        0 ≤ val x * val z := by
      rw [vwx, vyz]
      rcases hE with ⟨e1, e2⟩ | (e | e) | (e | e)
      · obtain ⟨x0, w0⟩ := parts_nonneg hP eA e1 cA'
        obtain ⟨z0, y0⟩ := parts_nonneg hP eB e2 cB'
        exact ⟨Or.inl ⟨by omega, by omega⟩, Or.inl ⟨w0, y0⟩, Or.inl ⟨x0, z0⟩,
          mul_nonneg w0 y0, mul_nonneg x0 z0⟩
      · exact absurd e hzb
      · -- b = [1]
        have hb1 := eq_singleton_of_val hb e (by decide) (by decide)
        have hlen1 : b.length = 1 := by rw [hb1]; rfl
        rcases cB with ⟨-, h1, h2⟩ | ⟨h, -⟩
        · have hx0 : 0 ≤ val x := by
            rcases cA with ⟨h, -⟩ | ⟨-, h, -⟩
            · exfalso
              have : max a.length b.length ≤ s := max_le h (by omega)
              omega
            · exact h
          refine ⟨Or.inr (Or.inl (Or.inr (by omega))), Or.inr (Or.inl (Or.inl h2)),
            Or.inr (Or.inl (Or.inr (by omega))), ?_, ?_⟩
          · rw [h2]; simp
          · rw [h1, e]; simpa using hx0
        · omega
      · exact absurd e hza
      · -- a = [1]
        have ha1 := eq_singleton_of_val ha e (by decide) (by decide)
        have hlen1 : a.length = 1 := by rw [ha1]; rfl
        rcases cA with ⟨-, h1, h2⟩ | ⟨h, -⟩
        · have hz0 : 0 ≤ val z := by
            rcases cB with ⟨h, -⟩ | ⟨-, h, -⟩
            · exfalso
              have : max a.length b.length ≤ s := max_le (by omega) h
              omega
            · exact h
          refine ⟨Or.inr (Or.inr (Or.inr (by omega))), Or.inr (Or.inr (Or.inl h2)),
            Or.inr (Or.inr (Or.inr (by omega))), ?_, ?_⟩
          · rw [h2]; simp
          · rw [h1, e]; simpa using hz0
        · omega
    obtain ⟨E1, E2, E3, P0, Q0⟩ := hfacts
    have vr' := vr E1
    have vp' := vp E2
    have vq' := vq E3
    rw [vres (by rw [vp']; exact P0) (by rw [vq']; exact Q0), vr', vp', vq', vwx, vyz, eA, eB]
    ring

/-- More fuel does not change a result of `multiplyFuel`. -/
theorem multiplyFuel_succ : ∀ (f : Nat) (a b r : Words),
    multiplyFuel f a b = some r → multiplyFuel (f + 1) a b = some r := by
  intro f
  induction f with
  | zero => intro a b r h; simp [multiplyFuel] at h
  | succ f ih =>
    intro a b r h
    rw [multiplyFuel] at h ⊢
    by_cases hz : is_zero a = true ∨ is_zero b = true
    · rw [if_pos hz] at h ⊢; exact h
    rw [if_neg hz] at h ⊢
    by_cases hm1 : compare a (ofNative (-1)) = 0
    · rw [if_pos hm1] at h ⊢; exact h
    rw [if_neg hm1] at h ⊢
    by_cases hm2 : compare b (ofNative (-1)) = 0
    · rw [if_pos hm2] at h ⊢; exact h
    rw [if_neg hm2] at h ⊢
    by_cases hsingle : a.length = 1 ∧ b.length = 1
    · rw [if_pos hsingle] at h ⊢; exact h
    rw [if_neg hsingle] at h ⊢
    simp only at h ⊢
    generalize max a.length b.length / 2 + max a.length b.length % 2 = s at h ⊢
    generalize (split a s).1 = x at h ⊢
    generalize (split a s).2 = w at h ⊢
    generalize (split b s).1 = z at h ⊢
    generalize (split b s).2 = y at h ⊢
    cases hr : multiplyFuel f (add w x false) (add y z false) with
    | none => rw [hr] at h; simp at h
    | some r' =>
      cases hp : multiplyFuel f w y with
      | none => rw [hr, hp] at h; simp at h
      | some p' =>
        cases hq : multiplyFuel f x z with
        | none => rw [hr, hp, hq] at h; simp at h
        | some q' =>
          rw [hr, hp, hq] at h
          rw [ih _ _ _ hr, ih _ _ _ hp, ih _ _ _ hq]
          exact h

theorem multiplyFuel_mono {f f' : Nat} (hle : f ≤ f') {a b r : Words}
    (h : multiplyFuel f a b = some r) : multiplyFuel f' a b = some r := by
  induction hle with
  | refl => exact h
  | step _ ih => exact multiplyFuel_succ _ _ _ _ ih

/-- On normalized operands `multiply` is the result of `multiplyFuel` for
every fuel from `mulFuel` on; it is normalized, and it is the product when
both operands are non-negative or one of them is 0 or 1. -/
theorem multiply_spec {a b : Words} (ha : Normalized a) (hb : Normalized b) :
    (∀ fuel, mulFuel a b ≤ fuel → multiplyFuel fuel a b = some (multiply a b)) ∧
      Normalized (multiply a b) ∧
      (MulExact (val a) (val b) → val (multiply a b) = val a * val b) := by
  obtain ⟨r, e, n, v⟩ := multiplyFuel_spec (mulFuel a b) a b ha hb (by unfold mulFuel; omega)
  have hm : multiply a b = r := by unfold multiply; rw [e]; rfl
  rw [hm]
  exact ⟨fun fuel hle => multiplyFuel_mono hle e, n, v⟩

theorem multiply_normalized {a b : Words} (ha : Normalized a) (hb : Normalized b) :
    Normalized (multiply a b) := (multiply_spec ha hb).2.1

theorem val_multiply_nonneg {a b : Words} (ha : Normalized a) (hb : Normalized b)
    (h1 : 0 ≤ val a) (h2 : 0 ≤ val b) : val (multiply a b) = val a * val b :=
  (multiply_spec ha hb).2.2 (Or.inl ⟨h1, h2⟩)

/-! ## findFirstOne -/

theorem bitLength_spec : ∀ (fuel : Nat) (t : Int), 0 ≤ t → t < 2 ^ fuel →
    (t = 0 → bitLength fuel t = 0) ∧
    (0 < t → 1 ≤ bitLength fuel t ∧ 2 ^ (bitLength fuel t - 1) ≤ t ∧ t < 2 ^ bitLength fuel t) := by
  intro fuel
  induction fuel with
  | zero =>
    intro t h0 h1
    simp only [pow_zero] at h1
    exact ⟨fun _ => rfl, fun h => by omega⟩
  | succ f ih =>
    intro t h0 h1
    rw [pow_succ] at h1
    constructor
    · intro ht; simp [bitLength, ht]
    · intro ht
      have hne : t ≠ 0 := by omega
      simp only [bitLength, if_pos hne]
      obtain ⟨i1, i2⟩ := ih (t / 2) (by omega) (by omega)
      by_cases h2 : t / 2 = 0
      · rw [i1 h2]
        have : t = 1 := by omega
        subst this
        exact ⟨by omega, by norm_num, by norm_num⟩
      · obtain ⟨j1, j2, j3⟩ := i2 (by omega)
        refine ⟨by omega, ?_, ?_⟩
        · have e : bitLength f (t / 2) + 1 - 1 = (bitLength f (t / 2) - 1) + 1 := by omega
          rw [e, pow_succ]; omega
        · rw [pow_succ]; omega

/-- On a non-negative normalized vector `findFirstOne` is the index of the
most significant 1 bit, and -1 for the zero value. -/
theorem findFirstOne_spec {ws : Words} (h : Normalized ws) (h0 : 0 ≤ val ws) :
    (val ws = 0 → findFirstOne ws = -1) ∧
    (0 < val ws → 0 ≤ findFirstOne ws ∧ 2 ^ (findFirstOne ws).toNat ≤ val ws ∧
      val ws < 2 ^ ((findFirstOne ws).toNat + 1)) := by
  have hneg : is_negative ws = false := by
    by_contra hc
    have := (is_negative_iff h.1).1 (by simpa using hc)
    omega
  obtain ⟨l, t, rfl, hl, ht⟩ := Proper_iff.1 h.1
  have ht0 : 0 ≤ t := by
    by_contra hc
    have := (Proper_val_neg_iff (t := t) hl).2 (by omega)
    omega
  unfold findFirstOne
  rw [hneg]
  simp only [Bool.false_eq_true, if_false, back_append_singleton, List.length_append,
    List.length_singleton]
  obtain ⟨b1, b2⟩ := bitLength_spec 32 t ht0 (by norm_num; omega)
  constructor
  · intro hv
    have hz := (is_zero_iff h).2 hv
    have := is_zero_eq h hz
    have hl0 : l = [] := by
      cases l with
      | nil => rfl
      | cons a l' => simp at this
    subst hl0
    have ht : t = 0 := by simpa [val] using hv
    rw [b1 ht]; simp
  · intro hv
    have htpos : 0 < t := by
      by_contra hc
      have ht : t = 0 := by omega
      have hz : is_zero (l ++ [t]) = true := by simp [is_zero, back_append_singleton, ht]
      have := (is_zero_iff h).1 hz
      omega
    obtain ⟨c1, c2, c3⟩ := b2 htpos
    have hk : ((bitLength 32 t : Int) + (((l.length + 1 : Nat) : Int) - 1) * 31 - 1).toNat
        = (bitLength 32 t - 1) + 31 * l.length := by omega
    have hk0 : 0 ≤ (bitLength 32 t : Int) + (((l.length + 1 : Nat) : Int) - 1) * 31 - 1 := by
      omega
    rw [hk]
    refine ⟨hk0, ?_, ?_⟩
    · rw [pow_add, pow_two_31_mul, val_append, val_singleton]
      have v0 := Low_val_nonneg hl
      have hP := pow_B_pos l.length
      have : 2 ^ (bitLength 32 t - 1) * 2147483648 ^ l.length ≤ 2147483648 ^ l.length * t := by
        rw [mul_comm]; exact mul_le_mul_of_nonneg_left c2 (le_of_lt hP)
      omega
    · have e : bitLength 32 t - 1 + 31 * l.length + 1 = bitLength 32 t + 31 * l.length := by omega
      rw [e, pow_add, pow_two_31_mul, val_append, val_singleton]
      have v1 := Low_val_lt hl
      have hP := pow_B_pos l.length
      have : 2147483648 ^ l.length * (t + 1) ≤ 2147483648 ^ l.length * 2 ^ bitLength 32 t :=
        mul_le_mul_of_nonneg_left (by omega) (le_of_lt hP)
      rw [mul_add, mul_one] at this
      rw [mul_comm (2 ^ bitLength 32 t)]
      omega

/-! ## divide -/

/-- Invariant of the loop of `divide`: with `k` iterations left the shifted
divisor is `D * 2^(k-1)` and the remainder is below `D * 2^k`. -/
theorem divideLoop_spec (D : Int) (hD : 0 < D) :
    ∀ (k : Nat) (q r aux : Words), Normalized q → Normalized r → Normalized aux →
      (1 ≤ k → val aux = D * 2 ^ (k - 1)) → 0 ≤ val r → val r < D * 2 ^ k → 0 ≤ val q →
      Normalized (divideLoop k q r aux).1 ∧ Normalized (divideLoop k q r aux).2 ∧
        val (divideLoop k q r aux).1 * D + val (divideLoop k q r aux).2
          = val q * 2 ^ k * D + val r ∧
        0 ≤ val (divideLoop k q r aux).2 ∧ val (divideLoop k q r aux).2 < D ∧
        0 ≤ val (divideLoop k q r aux).1 := by
  intro k
  induction k with
  | zero =>
    intro q r aux hq hr _ _ h0 h1 hq0
    simp only [pow_zero, mul_one] at h1
    simp only [divideLoop]
    exact ⟨hq, hr, by ring, h0, h1, hq0⟩
  | succ k ih =>
    intro q r aux hq hr haux hva h0 h1 hq0
    have hva' : val aux = D * 2 ^ k := by simpa using hva (by omega)
    have hpk := two_pow_pos k
    have haux0 : 0 ≤ val aux := by rw [hva']; exact mul_nonneg (le_of_lt hD) (le_of_lt hpk)
    obtain ⟨nq1, vq1⟩ := bitwise_shift_left_spec hq 1
    obtain ⟨nr1, vr1⟩ := sub_spec_nonneg hr.1 haux haux0
    obtain ⟨nq2, vq2⟩ := add_spec nq1.1 (show Proper (ofNative 1) by
      rw [ofNative_one, Proper_singleton]; decide)
    have naux' := bitwise_shift_right_normalized haux.1 1
    have vaux' := val_shift_right_one haux.1
    have hcmp := compare_spec haux hr
    simp only [divideLoop]
    have h1' : val r < 2 * val aux := by
      rw [hva']; rw [pow_succ] at h1; linarith
    have hnext : 1 ≤ k → val (bitwise_shift_right aux 1) = D * 2 ^ (k - 1) := by
      intro hk
      rw [vaux', hva']
      have e : k = (k - 1) + 1 := by omega
      conv_lhs => rw [e, pow_succ, ← mul_assoc]
      exact Int.mul_ediv_cancel _ (by norm_num)
    by_cases hc : compare aux r < 1
    · have hle : val aux ≤ val r := by rw [hcmp] at hc; exact cmpInt_lt_one.1 hc
      simp only [if_pos hc]
      obtain ⟨i1, i2, i3, i4, i5, i6⟩ := ih _ _ _ nq2 nr1 naux' hnext
        (by rw [vr1]; omega) (by rw [vr1, ← hva']; omega)
        (by rw [vq2, vq1, ofNative_one, val_singleton]; omega)
      refine ⟨i1, i2, ?_, i4, i5, i6⟩
      rw [i3, vq2, vq1, vr1, hva', ofNative_one, val_singleton, pow_succ]
      ring
    · have hlt : val r < val aux := by
        rw [hcmp] at hc
        by_contra hcc
        exact hc (cmpInt_lt_one.2 (by omega))
      simp only [if_neg hc]
      obtain ⟨i1, i2, i3, i4, i5, i6⟩ := ih _ _ _ nq1 hr naux' hnext h0
        (by rw [← hva']; exact hlt) (by rw [vq1]; omega)
      refine ⟨i1, i2, ?_, i4, i5, i6⟩
      rw [i3, vq1, pow_succ]
      ring

/-- Truncated division from the division of the absolute values. -/
theorem tdiv_tmod_of_abs {A Bv q r : Int} (hB : Bv ≠ 0) (h : q * |Bv| + r = |A|)
    (h0 : 0 ≤ r) (h1 : r < |Bv|) :
    Int.tdiv A Bv = (if (A < 0) ≠ (Bv < 0) then -q else q) ∧
      Int.tmod A Bv = (if A < 0 then -r else r) := by
  have hBpos : 0 < |Bv| := abs_pos.2 hB
  have hq : |A| / |Bv| = q := by
    have := (Int.ediv_emod_unique (a := |A|) (r := r) (q := q) hBpos).2
      ⟨by rw [← h]; ring, h0, h1⟩
    exact this.1
  have hdiv : Int.tdiv A Bv = (if (A < 0) ≠ (Bv < 0) then -q else q) := by
    by_cases hA : A < 0
    · by_cases hBn : Bv < 0
      · have e1 : A = -|A| := by rw [abs_of_neg hA]; ring
        have e2 : Bv = -|Bv| := by rw [abs_of_neg hBn]; ring
        rw [if_neg (by simp [hA, hBn])]
        conv_lhs => rw [e1, e2, Int.neg_tdiv, Int.tdiv_neg, neg_neg,
          Int.tdiv_eq_ediv (abs_nonneg A) (abs_nonneg Bv), hq]
      · have e1 : A = -|A| := by rw [abs_of_neg hA]; ring
        have e2 : Bv = |Bv| := by rw [abs_of_nonneg (by omega)]
        rw [if_pos (by simp [hA, hBn])]
        conv_lhs => rw [e1, e2, Int.neg_tdiv,
          Int.tdiv_eq_ediv (abs_nonneg A) (abs_nonneg Bv), hq]
    · by_cases hBn : Bv < 0
      · have e1 : A = |A| := by rw [abs_of_nonneg (by omega)]
        have e2 : Bv = -|Bv| := by rw [abs_of_neg hBn]; ring
        rw [if_pos (by simp [hA, hBn])]
        conv_lhs => rw [e1, e2, Int.tdiv_neg,
          Int.tdiv_eq_ediv (abs_nonneg A) (abs_nonneg Bv), hq]
      · have e1 : A = |A| := by rw [abs_of_nonneg (by omega)]
        have e2 : Bv = |Bv| := by rw [abs_of_nonneg (by omega)]
        rw [if_neg (by simp [hA, hBn])]
        conv_lhs => rw [e1, e2, Int.tdiv_eq_ediv (abs_nonneg A) (abs_nonneg Bv), hq]
  refine ⟨hdiv, ?_⟩
  have hmod := Int.tmod_add_tdiv A Bv
  rw [hdiv] at hmod
  by_cases hA : A < 0
  · rw [if_pos hA]
    rw [abs_of_neg hA] at h
    by_cases hBn : Bv < 0
    · rw [if_neg (by simp [hA, hBn])] at hmod
      rw [abs_of_neg hBn] at h
      linear_combination hmod + h
    · rw [if_pos (by simp [hA, hBn])] at hmod
      rw [abs_of_nonneg (show 0 ≤ Bv by omega)] at h
      linear_combination hmod + h
  · rw [if_neg hA]
    rw [abs_of_nonneg (show 0 ≤ A by omega)] at h
    by_cases hBn : Bv < 0
    · rw [if_pos (by simp [hA, hBn])] at hmod
      rw [abs_of_neg hBn] at h
      linear_combination hmod - h
    · rw [if_neg (by simp [hA, hBn])] at hmod
      rw [abs_of_nonneg (show 0 ≤ Bv by omega)] at h
      linear_combination hmod - h

/-- Signs of the truncated quotient and remainder. -/
theorem tdiv_tmod_signs {A Bv q r : Int} (hB : Bv ≠ 0) (h : q * |Bv| + r = |A|)
    (h0 : 0 ≤ r) (h1 : r < |Bv|) (hq0 : 0 ≤ q) :
    (Int.tdiv A Bv < 0 → ((A < 0) ≠ (Bv < 0))) ∧ (Int.tmod A Bv < 0 → A < 0) ∧
      (0 < Int.tmod A Bv → 0 ≤ A) := by
  obtain ⟨t1, t2⟩ := tdiv_tmod_of_abs hB h h0 h1
  rw [t1, t2]
  refine ⟨?_, ?_, ?_⟩
  · intro hlt
    by_cases hc : (A < 0) ≠ (Bv < 0)
    · exact hc
    · rw [if_neg hc] at hlt
      omega
  · intro hlt
    by_cases hc : A < 0
    · exact hc
    · rw [if_neg hc] at hlt
      omega
  · intro hlt
    by_cases hc : A < 0
    · rw [if_pos hc] at hlt
      omega
    · omega

theorem abs_eq (ws : Words) :
    (if is_negative ws = true then negative ws else ws) = abs ws := rfl

/-- Division is exact on normalized operands: `divide` returns the truncated
quotient and remainder. -/
theorem divide_spec {a b : Words} (ha : Normalized a) (hb : Normalized b) (hb0 : val b ≠ 0) :
    ∃ q r, divide a b = some (q, r) ∧ Normalized q ∧ Normalized r ∧
      val q = Int.tdiv (val a) (val b) ∧ val r = Int.tmod (val a) (val b) ∧
      |val r| < |val b| ∧
      (Int.tdiv (val a) (val b) < 0 → ((val a < 0) ≠ (val b < 0))) ∧
      (Int.tmod (val a) (val b) < 0 → val a < 0) ∧
      (0 < Int.tmod (val a) (val b) → 0 ≤ val a) := by
  have hz : ¬ is_zero b = true := fun h => hb0 ((is_zero_iff hb).1 h)
  obtain ⟨nR, vR⟩ := abs_spec ha
  obtain ⟨nD, vD⟩ := abs_spec hb
  have hDpos : 0 < |val b| := abs_pos.2 hb0
  have hR0 : 0 ≤ |val a| := abs_nonneg _
  obtain ⟨fR0, fR1⟩ := findFirstOne_spec nR (by rw [vR]; exact hR0)
  obtain ⟨-, fD1⟩ := findFirstOne_spec nD (by rw [vD]; omega)
  obtain ⟨fD2, fD3, fD4⟩ := fD1 (by rw [vD]; exact hDpos)
  rw [vR] at fR0 fR1
  rw [vD] at fD3 fD4
  -- the shifted divisor and the bound on the dividend
  have key : ∃ aux K, (if findFirstOne (abs a) - findFirstOne (abs b) > 0
        then bitwise_shift_left (abs b) (findFirstOne (abs a) - findFirstOne (abs b)).toNat
        else abs b) = aux ∧
      (findFirstOne (abs a) - findFirstOne (abs b) + 1).toNat = K ∧ Normalized aux ∧
      (1 ≤ K → val aux = |val b| * 2 ^ (K - 1)) ∧ |val a| < |val b| * 2 ^ K := by
    by_cases hidx : findFirstOne (abs a) - findFirstOne (abs b) < 0
    · refine ⟨abs b, 0, by rw [if_neg (by omega)], by omega, nD, fun h => by omega, ?_⟩
      simp only [pow_zero, mul_one]
      by_cases hA0 : |val a| = 0
      · omega
      · obtain ⟨g1, g2, g3⟩ := fR1 (by omega)
        have hle : (findFirstOne (abs a)).toNat + 1 ≤ (findFirstOne (abs b)).toNat := by omega
        have := pow_le_pow_right₀ (show (1 : Int) ≤ 2 by norm_num) hle
        omega
    · have hA0 : 0 < |val a| := by
        by_contra hc
        have := fR0 (by omega)
        omega
      obtain ⟨g1, g2, g3⟩ := fR1 hA0
      have hKeq : (findFirstOne (abs a) - findFirstOne (abs b) + 1).toNat
          = (findFirstOne (abs a) - findFirstOne (abs b)).toNat + 1 := by omega
      have hsum : (findFirstOne (abs a)).toNat + 1 = (findFirstOne (abs b)).toNat
          + ((findFirstOne (abs a) - findFirstOne (abs b)).toNat + 1) := by omega
      have hbound : |val a| < |val b| * 2 ^ ((findFirstOne (abs a) - findFirstOne (abs b)).toNat + 1) := by
        rw [hsum, pow_add] at g3
        have hp := two_pow_pos ((findFirstOne (abs a) - findFirstOne (abs b)).toNat + 1)
        have := mul_le_mul_of_nonneg_right fD3 (le_of_lt hp)
        omega
      by_cases hpos : findFirstOne (abs a) - findFirstOne (abs b) > 0
      · obtain ⟨n1, v1⟩ := bitwise_shift_left_spec nD
          (findFirstOne (abs a) - findFirstOne (abs b)).toNat
        refine ⟨_, _, by rw [if_pos hpos], hKeq, n1, fun _ => ?_, hbound⟩
        rw [v1, vD]; simp
      · refine ⟨_, _, by rw [if_neg hpos], hKeq, nD, fun _ => ?_, hbound⟩
        have : (findFirstOne (abs a) - findFirstOne (abs b)).toNat = 0 := by omega
        rw [vD, this]; simp
  obtain ⟨aux, K, eaux, eK, naux, vaux, hlt⟩ := key
  obtain ⟨i1, i2, i3, i4, i5, i6⟩ := divideLoop_spec |val b| hDpos K [0] (abs a) aux
    (Normalized_singleton.2 (by decide)) nR naux vaux (by rw [vR]; exact hR0)
    (by rw [vR]; exact hlt) (by simp [val])
  simp only [val_singleton, zero_mul, zero_add, vR] at i3
  obtain ⟨t1, t2⟩ := tdiv_tmod_of_abs hb0 i3 i4 i5
  have hna := is_negative_iff ha.1
  have hnb := is_negative_iff hb.1
  obtain ⟨nq, vq⟩ := negative_spec i1.1
  obtain ⟨nr, vr⟩ := negative_spec i2.1
  unfold divide
  rw [if_neg hz]
  simp only [abs_eq, eaux, eK, reset_nil]
  refine ⟨_, _, rfl, ?_, ?_, ?_, ?_, ?_, tdiv_tmod_signs hb0 i3 i4 i5 i6⟩
  · split_ifs
    · exact nq
    · exact i1
  · split_ifs
    · exact nr
    · exact i2
  · rw [t1]
    by_cases hA : val a < 0 <;> by_cases hBn : val b < 0
    · have e1 := hna.2 hA
      have e2 := hnb.2 hBn
      simp [e1, e2, hA, hBn]
    · have e1 := hna.2 hA
      have e2 : is_negative b = false := by
        by_contra hc; exact hBn (hnb.1 (by simpa using hc))
      simp [e1, e2, hA, hBn, vq]
    · have e1 : is_negative a = false := by
        by_contra hc; exact hA (hna.1 (by simpa using hc))
      have e2 := hnb.2 hBn
      simp [e1, e2, hA, hBn, vq]
    · have e1 : is_negative a = false := by
        by_contra hc; exact hA (hna.1 (by simpa using hc))
      have e2 : is_negative b = false := by
        by_contra hc; exact hBn (hnb.1 (by simpa using hc))
      simp [e1, e2, hA, hBn]
  · rw [t2]
    by_cases hA : val a < 0
    · have e1 := hna.2 hA
      simp [e1, hA, vr]
    · have e1 : is_negative a = false := by
        by_contra hc; exact hA (hna.1 (by simpa using hc))
      simp [e1, hA]
  · have habs : |val (divideLoop K [0] (abs a) aux).2| < |val b| := by
      rw [abs_of_nonneg i4]; exact i5
    split_ifs
    · rw [vr, abs_neg]; exact habs
    · exact habs

/-! ## resize keeps a vector well formed -/

theorem setBack_proper {ws : Words} (h : Proper ws) : Proper (setBack ws (setSignBit (back ws))) := by
  obtain ⟨l, t, rfl, hl, ht⟩ := Proper_iff.1 h
  rw [back_append_singleton, setBack_append_singleton, Proper_append_singleton]
  refine ⟨hl, ?_⟩
  unfold setSignBit; split_ifs <;> omega

theorem Low_setSign_proper {l : Words} (hl : Low l) (hne : l ≠ []) :
    Proper (setBack l (setSignBit (back l))) := setBack_proper (Low_proper hl hne)

theorem vecResize_low {ws : Words} (h : Low ws) (n : Nat) {c : Int}
    (hc : 0 ≤ c ∧ c < 2147483648) : Low (vecResize ws n c) := by
  unfold vecResize
  rw [Low_append]
  exact ⟨Low_take h n, Low_replicate hc⟩

theorem vecResize_ne_nil (ws : Words) {n : Nat} (hn : 1 ≤ n) (c : Int) : vecResize ws n c ≠ [] := by
  intro h
  have := vecResize_length ws n c
  rw [h] at this
  simp at this
  omega

/-- The method `resize(n)` with `n > 0` returns a well-formed vector of `n`
words. -/
theorem resize_proper {ws : Words} (h : Proper ws) {n : Nat} (hn : 1 ≤ n) :
    Proper (resize ws n) ∧ (resize ws n).length = n := by
  obtain ⟨l, t, rfl, hl, ht⟩ := Proper_iff.1 h
  by_cases hneg : t < 0
  · unfold resize
    rw [back_append_singleton, if_pos ⟨by simp, hneg⟩]
    simp only [setBack_append_singleton]
    have hlow : Low (l ++ [low31 t]) := by
      rw [Low_append, Low_singleton]
      exact ⟨hl, low31_nonneg _, low31_lt _⟩
    split_ifs with hs
    · have h1 := vecResize_low hlow n (show (0 : Int) ≤ INT32_MAX ∧ INT32_MAX < 2147483648 by decide)
      have h2 := vecResize_ne_nil (l ++ [low31 t]) hn INT32_MAX
      exact ⟨Low_setSign_proper h1 h2, by rw [setBack_length, vecResize_length]⟩
    · have h1 := vecResize_low hlow n (show (0 : Int) ≤ 0 ∧ (0 : Int) < 2147483648 by decide)
      have h2 := vecResize_ne_nil (l ++ [low31 t]) hn 0
      exact ⟨Low_proper h1 h2, vecResize_length _ _ _⟩
  · rw [resize_of_nonneg (Or.inr (by rw [back_append_singleton]; omega))]
    refine ⟨?_, vecResize_length _ _ _⟩
    by_cases hle : n ≤ l.length
    · have : vecResize (l ++ [t]) n 0 = l.take n := by
        unfold vecResize
        rw [List.take_append_of_le_length hle]
        have : n - (l ++ [t]).length = 0 :=
          Nat.sub_eq_zero_of_le (by rw [List.length_append]; omega)
        rw [this]; simp
      rw [this]
      exact Low_proper (Low_take hl n) (by
        intro hc
        have hlen : (l.take n).length = n := by rw [List.length_take]; omega
        rw [hc, List.length_nil] at hlen
        omega)
    · have hlow : Low (l ++ [t]) := by
        rw [Low_append, Low_singleton]
        exact ⟨hl, by omega, ht.2⟩
      exact Low_proper (vecResize_low hlow n (by decide)) (vecResize_ne_nil _ hn 0)

/-! ## The integral constructor -/

theorem push_word {ws : Words} (h : ws = [] ∨ 0 ≤ back ws) (aux : Int) :
    setBack (resize ws (ws.length + 1)) aux = ws ++ [aux] := by
  rw [resize_succ_of_nonneg h, setBack_append_singleton]

theorem ofNativeLoop_succ (fuel : Nat) (n : Int) (ws : Words) :
    ofNativeLoop (fuel + 1) n ws =
      if n ≠ 0 ∧ n ≠ -1 then
        ofNativeLoop fuel (sar31 n) (setBack (resize ws (ws.length + 1))
          (if INT32_MIN ≤ n ∧ n ≤ INT32_MAX then toInt32 n else low31 n))
      else ws := rfl

theorem ofNativeLoop_zero (n : Int) (ws : Words) : ofNativeLoop 0 n ws = ws := rfl

/-- The integral constructor stores any 64-bit value in normalized form. -/
theorem ofNative_spec {n : Int} (h1 : -9223372036854775808 ≤ n) (h2 : n < 9223372036854775808) :
    Normalized (ofNative n) ∧ val (ofNative n) = n := by
  unfold ofNative
  rw [ofNativeLoop_succ]
  by_cases c1 : n ≠ 0 ∧ n ≠ -1
  · rw [if_pos c1, push_word (Or.inl rfl), ofNativeLoop_succ, List.nil_append]
    by_cases c2 : sar31 n ≠ 0 ∧ sar31 n ≠ -1
    · have hr : ¬ (INT32_MIN ≤ n ∧ n ≤ INT32_MAX) := by
        unfold sar31 INT32_MIN INT32_MAX at *; omega
      rw [if_pos c2, if_neg hr,
        push_word (Or.inr (by rw [back_singleton]; exact low31_nonneg _)), ofNativeLoop_succ]
      by_cases c3 : sar31 (sar31 n) ≠ 0 ∧ sar31 (sar31 n) ≠ -1
      · have hr2 : ¬ (INT32_MIN ≤ sar31 n ∧ sar31 n ≤ INT32_MAX) := by
          unfold sar31 INT32_MIN INT32_MAX at *; omega
        have hr3 : INT32_MIN ≤ sar31 (sar31 n) ∧ sar31 (sar31 n) ≤ INT32_MAX := by
          unfold sar31 INT32_MIN INT32_MAX at *; omega
        rw [if_pos c3, if_neg hr2, if_pos hr3]
        have hb : [low31 n] ++ [low31 (sar31 n)] = [] ∨
            0 ≤ back ([low31 n] ++ [low31 (sar31 n)]) := by
          right; rw [back_append_singleton]; exact low31_nonneg _
        rw [push_word hb, ofNativeLoop_zero]
        rw [if_neg (by simp)]
        constructor
        · rw [Normalized_append_singleton, Low_append, Low_singleton, Low_singleton]
          unfold toInt32 low31 sar31 INT32_MIN INT32_MAX at *
          refine ⟨⟨by omega, by omega⟩, by omega, fun _ => by omega⟩
        · simp only [List.singleton_append, List.cons_append, List.nil_append, val_cons, val_nil]
          unfold toInt32 low31 sar31 INT32_MIN INT32_MAX at *
          omega
      · have hr2 : INT32_MIN ≤ sar31 n ∧ sar31 n ≤ INT32_MAX := by
          unfold sar31 INT32_MIN INT32_MAX at *; omega
        rw [if_neg c3, if_pos hr2]
        rw [if_neg (by simp)]
        constructor
        · rw [Normalized_append_singleton, Low_singleton]
          unfold toInt32 low31 sar31 INT32_MIN INT32_MAX at *
          refine ⟨by omega, by omega, fun _ => by omega⟩
        · simp only [List.singleton_append, val_cons, val_nil]
          unfold toInt32 low31 sar31 INT32_MIN INT32_MAX at *
          omega
    · have hr : INT32_MIN ≤ n ∧ n ≤ INT32_MAX := by
        unfold sar31 INT32_MIN INT32_MAX at *; omega
      rw [if_neg c2, if_pos hr]
      rw [if_neg (by simp)]
      unfold INT32_MIN INT32_MAX at hr
      rw [toInt32_of_range hr.1 (by omega), Normalized_singleton, val_singleton]
      exact ⟨⟨hr.1, by omega⟩, rfl⟩
  · rw [if_neg c1, if_pos rfl]
    have : n = 0 ∨ n = -1 := by omega
    rcases this with rfl | rfl <;> exact ⟨by decide, by decide⟩

theorem ofUnsignedLoop_succ (fuel : Nat) (n : Int) (ws : Words) :
    ofUnsignedLoop (fuel + 1) n ws =
      if n ≠ 0 then
        ofUnsignedLoop fuel (sar31 n) (setBack (resize ws (ws.length + 1)) (low31 n))
      else ws := rfl

theorem ofUnsignedLoop_zero (n : Int) (ws : Words) : ofUnsignedLoop 0 n ws = ws := rfl

/-- The integral constructor stores any unsigned 64-bit value in normalized
form. -/
theorem ofUnsigned_spec {n : Int} (h1 : 0 ≤ n) (h2 : n < 18446744073709551616) :
    Normalized (ofUnsigned n) ∧ val (ofUnsigned n) = n := by
  unfold ofUnsigned
  rw [ofUnsignedLoop_succ]
  by_cases c1 : n ≠ 0
  · rw [if_pos c1, push_word (Or.inl rfl), ofUnsignedLoop_succ, List.nil_append]
    by_cases c2 : sar31 n ≠ 0
    · rw [if_pos c2, push_word (Or.inr (by rw [back_singleton]; exact low31_nonneg _)),
        ofUnsignedLoop_succ]
      by_cases c3 : sar31 (sar31 n) ≠ 0
      · have hb : [low31 n] ++ [low31 (sar31 n)] = [] ∨
            0 ≤ back ([low31 n] ++ [low31 (sar31 n)]) := by
          right; rw [back_append_singleton]; exact low31_nonneg _
        rw [if_pos c3, push_word hb, ofUnsignedLoop_zero]
        rw [if_neg (by simp)]
        constructor
        · rw [Normalized_append_singleton, Low_append, Low_singleton, Low_singleton]
          unfold low31 sar31 at *
          refine ⟨⟨by omega, by omega⟩, by omega, fun _ => by omega⟩
        · simp only [List.singleton_append, List.cons_append, List.nil_append, val_cons, val_nil]
          unfold low31 sar31 at *
          omega
      · rw [if_neg c3]
        rw [if_neg (by simp)]
        constructor
        · rw [Normalized_append_singleton, Low_singleton]
          unfold low31 sar31 at *
          refine ⟨by omega, by omega, fun _ => by omega⟩
        · simp only [List.singleton_append, val_cons, val_nil]
          unfold low31 sar31 at *
          omega
    · rw [if_neg c2]
      rw [if_neg (by simp)]
      rw [Normalized_singleton, val_singleton]
      unfold low31 sar31 at *
      omega
  · rw [if_neg c1, if_pos rfl]
    have : n = 0 := by omega
    subst this
    exact ⟨by decide, by decide⟩

/-! ## string_to_integer and power -/

theorem stringLoop_normalized : ∀ (cs : List Char) (this pow_ten r : Words),
    Normalized this → Normalized pow_ten → stringLoop cs this pow_ten = some r →
    Normalized r := by
  intro cs
  induction cs with
  | nil =>
    intro this pow_ten r h1 _ h
    simp only [stringLoop, Option.some.injEq] at h
    rw [← h]; exact h1
  | cons c cs ih =>
    intro this pow_ten r h1 h2 h
    simp only [stringLoop] at h
    split_ifs at h with hd hm
    · have hdig : Normalized (ofNative ((c.toNat : Int) - 48)) :=
        (ofNative_spec (by omega) (by
          have : c.toNat ≤ 57 := hd.2
          omega)).1
      have hten : Normalized (ofNative 10) := by decide
      exact ih _ _ _ (add_normalized h1.1 (multiply_normalized h2 hdig) false)
        (multiply_normalized h2 hten) h
    · exact ih _ _ _ (negative_spec h1.1).1 h2 h

theorem stringLoop_digits : ∀ (cs : List Char) (this pow_ten : Words),
    (∀ c ∈ cs, '0' ≤ c ∧ c ≤ '9') → ∃ r, stringLoop cs this pow_ten = some r := by
  intro cs
  induction cs with
  | nil => intro this pow_ten _; exact ⟨this, rfl⟩
  | cons c cs ih =>
    intro this pow_ten h
    simp only [stringLoop]
    rw [if_pos (h c (by simp))]
    exact ih _ _ (fun c' hc' => h c' (by simp [hc']))

/-- A successful `string_to_integer` returns a normalized vector. -/
theorem string_to_integer_normalized {s : String} {r : Words}
    (h : string_to_integer s = some r) : Normalized r :=
  stringLoop_normalized _ _ _ _ (by rw [reset_nil]; decide) (by decide) h

theorem powerLoop_normalized : ∀ (k : Nat) (result aux exp_aux : Words),
    Normalized result → Normalized aux → Normalized (powerLoop k result aux exp_aux) := by
  intro k
  induction k with
  | zero => intro result aux exp_aux h _; exact h
  | succ k ih =>
    intro result aux exp_aux h1 h2
    simp only [powerLoop]
    split_ifs
    · exact h1
    · exact ih _ _ _ h1 (multiply_normalized h2 h2)
    · exact ih _ _ _ (multiply_normalized h1 h2) (multiply_normalized h2 h2)

/-- A successful `power` returns a normalized vector. -/
theorem power_normalized {a e r : Words} (ha : Normalized a) (h : power a e = some r) :
    Normalized r := by
  unfold power at h
  split_ifs at h
  simp only [Option.some.injEq] at h
  rw [← h]
  exact powerLoop_normalized _ _ _ _ (by decide) ha

theorem power_isSome_iff (a e : Words) : (power a e).isSome = true ↔ is_negative e = false := by
  unfold power
  split_ifs with h <;> simp [h]

/-! ## Bitwise AND and OR on words -/

theorem ldiff_lt_two_pow {m k : Nat} (h : m < 2 ^ k) (n : Nat) : Nat.ldiff m n < 2 ^ k := by
  apply Nat.lt_pow_two_of_testBit
  intro i hi
  rw [Nat.testBit_ldiff]
  have : m < 2 ^ i := lt_of_lt_of_le h (Nat.pow_le_pow_right (by norm_num) hi)
  rw [Nat.testBit_lt_two_pow this]
  rfl

theorem and_lt_two_pow {m k : Nat} (h : m < 2 ^ k) (n : Nat) : m &&& n < 2 ^ k :=
  lt_of_le_of_lt Nat.and_le_left h

theorem land_low_left {x : Int} (hx : 0 ≤ x ∧ x < 2147483648) (y : Int) :
    0 ≤ Int.land x y ∧ Int.land x y < 2147483648 := by
  obtain ⟨m, rfl⟩ := Int.eq_ofNat_of_zero_le hx.1
  have hm : m < 2 ^ 31 := by have := hx.2; norm_num; omega
  cases y with
  | ofNat n =>
    have := and_lt_two_pow hm n
    show 0 ≤ ((m &&& n : Nat) : Int) ∧ ((m &&& n : Nat) : Int) < 2147483648
    norm_num at this; omega
  | negSucc n =>
    have := ldiff_lt_two_pow hm n
    show 0 ≤ ((Nat.ldiff m n : Nat) : Int) ∧ ((Nat.ldiff m n : Nat) : Int) < 2147483648
    norm_num at this; omega

theorem land_low_right (x : Int) {y : Int} (hy : 0 ≤ y ∧ y < 2147483648) :
    0 ≤ Int.land x y ∧ Int.land x y < 2147483648 := by
  obtain ⟨n, rfl⟩ := Int.eq_ofNat_of_zero_le hy.1
  have hn : n < 2 ^ 31 := by have := hy.2; norm_num; omega
  cases x with
  | ofNat m =>
    have : m &&& n < 2 ^ 31 := lt_of_le_of_lt Nat.and_le_right hn
    show 0 ≤ ((m &&& n : Nat) : Int) ∧ ((m &&& n : Nat) : Int) < 2147483648
    norm_num at this; omega
  | negSucc m =>
    have := ldiff_lt_two_pow hn m
    show 0 ≤ ((Nat.ldiff n m : Nat) : Int) ∧ ((Nat.ldiff n m : Nat) : Int) < 2147483648
    norm_num at this; omega

theorem land_range {x y : Int} (hx : -2147483648 ≤ x ∧ x < 2147483648)
    (hy : -2147483648 ≤ y ∧ y < 2147483648) :
    -2147483648 ≤ Int.land x y ∧ Int.land x y < 2147483648 := by
  by_cases hx0 : 0 ≤ x
  · have := land_low_left ⟨hx0, hx.2⟩ y; omega
  · by_cases hy0 : 0 ≤ y
    · have := land_low_right x ⟨hy0, hy.2⟩; omega
    · cases x with
      | ofNat m => exact absurd (Int.ofNat_nonneg m) hx0
      | negSucc m =>
        cases y with
        | ofNat n => exact absurd (Int.ofNat_nonneg n) hy0
        | negSucc n =>
          have hm : m < 2 ^ 31 := by
            have := hx.1; rw [Int.negSucc_eq] at this; norm_num; omega
          have hn : n < 2 ^ 31 := by
            have := hy.1; rw [Int.negSucc_eq] at this; norm_num; omega
          have := Nat.or_lt_two_pow hm hn
          show -2147483648 ≤ Int.negSucc (m ||| n) ∧ Int.negSucc (m ||| n) < 2147483648
          rw [Int.negSucc_eq]
          norm_num at this; omega

theorem lor_low {x y : Int} (hx : 0 ≤ x ∧ x < 2147483648) (hy : 0 ≤ y ∧ y < 2147483648) :
    0 ≤ Int.lor x y ∧ Int.lor x y < 2147483648 := by
  obtain ⟨m, rfl⟩ := Int.eq_ofNat_of_zero_le hx.1
  obtain ⟨n, rfl⟩ := Int.eq_ofNat_of_zero_le hy.1
  have hm : m < 2 ^ 31 := by have := hx.2; norm_num; omega
  have hn : n < 2 ^ 31 := by have := hy.2; norm_num; omega
  have := Nat.or_lt_two_pow hm hn
  show 0 ≤ ((m ||| n : Nat) : Int) ∧ ((m ||| n : Nat) : Int) < 2147483648
  norm_num at this; omega

theorem lor_range_low {x y : Int} (hx : -2147483648 ≤ x ∧ x < 2147483648)
    (hy : 0 ≤ y ∧ y < 2147483648) :
    -2147483648 ≤ Int.lor x y ∧ Int.lor x y < 2147483648 := by
  by_cases hx0 : 0 ≤ x
  · have := lor_low ⟨hx0, hx.2⟩ hy; omega
  · obtain ⟨n, rfl⟩ := Int.eq_ofNat_of_zero_le hy.1
    cases x with
    | ofNat m => exact absurd (Int.ofNat_nonneg m) hx0
    | negSucc m =>
      have hm : m < 2 ^ 31 := by
        have := hx.1; rw [Int.negSucc_eq] at this; norm_num; omega
      have := ldiff_lt_two_pow hm n
      show -2147483648 ≤ Int.negSucc (Nat.ldiff m n) ∧ Int.negSucc (Nat.ldiff m n) < 2147483648
      rw [Int.negSucc_eq]
      norm_num at this; omega

/-! ## The loops of bitwise_and and bitwise_or -/

theorem andWords_length : ∀ (k : Nat) (ts ws : Words), (andWords k ts ws).length = ts.length
  | 0, ts, ws => by simp [andWords]
  | k + 1, [], ws => by simp [andWords]
  | k + 1, t :: ts, [] => by simp [andWords]
  | k + 1, t :: ts, w :: ws => by simp [andWords, andWords_length k ts ws]

theorem andWords_low_left : ∀ (k : Nat) (ts ws : Words), Low ts → Low (andWords k ts ws)
  | 0, ts, ws, h => by simpa [andWords] using h
  | k + 1, [], ws, h => by simpa [andWords] using h
  | k + 1, t :: ts, [], h => by simpa [andWords] using h
  | k + 1, t :: ts, w :: ws, h => by
    rw [Low_cons] at h
    simp only [andWords]
    rw [Low_cons]
    exact ⟨land_low_left h.1 w, andWords_low_left k ts ws h.2⟩

theorem andWords_low_right : ∀ (k : Nat) (ts ws : Words), Low ws → ts.length ≤ k →
    ts.length ≤ ws.length → Low (andWords k ts ws)
  | 0, ts, ws, _, h1, _ => by
    have : ts = [] := List.eq_nil_of_length_eq_zero (by omega)
    subst this; simpa [andWords] using Low_nil
  | k + 1, [], ws, _, _, _ => by simpa [andWords] using Low_nil
  | k + 1, t :: ts, [], _, _, h2 => by simp at h2
  | k + 1, t :: ts, w :: ws, h, h1, h2 => by
    rw [Low_cons] at h
    simp only [andWords]
    rw [Low_cons]
    exact ⟨land_low_right t h.1, andWords_low_right k ts ws h.2 (by simpa using h1)
      (by simpa using h2)⟩

theorem andWords_append : ∀ (k : Nat) (R rest ws : Words), R.length = k →
    andWords k (R ++ rest) ws = andWords k R ws ++ rest
  | 0, R, rest, ws, h => by
    have : R = [] := List.eq_nil_of_length_eq_zero h
    subst this; simp [andWords]
  | k + 1, [], rest, ws, h => by simp at h
  | k + 1, t :: R, rest, [], _ => by simp [andWords]
  | k + 1, t :: R, rest, w :: ws, h => by
    have ih := andWords_append k R rest ws (by simpa using h)
    simp only [List.cons_append, andWords, List.append_eq, ih]

theorem andWords_top : ∀ (l ln : Words) (t tn : Int), l.length = ln.length →
    andWords (l.length + 1) (l ++ [t]) (ln ++ [tn]) = andWords l.length l ln ++ [Int.land t tn]
  | [], [], t, tn, _ => by simp [andWords]
  | [], _ :: _, t, tn, h => by simp at h
  | _ :: _, [], t, tn, h => by simp at h
  | a :: l, b :: ln, t, tn, h => by
    have ih := andWords_top l ln t tn (by simpa using h)
    simp only [List.cons_append, List.length_cons, andWords, List.append_eq, ih]

theorem orWords_length : ∀ (k : Nat) (ts ws : Words), (orWords k ts ws).length = ts.length
  | 0, ts, ws => by simp [orWords]
  | k + 1, [], ws => by simp [orWords]
  | k + 1, t :: ts, [] => by simp [orWords]
  | k + 1, t :: ts, w :: ws => by simp [orWords, orWords_length k ts ws]

theorem Proper_cons {a : Int} {l : Words} (ha : 0 ≤ a ∧ a < 2147483648) (hl : Proper l) :
    Proper (a :: l) := by
  obtain ⟨b, l', rfl⟩ := List.exists_cons_of_ne_nil hl.1
  exact Proper_cons_cons.2 ⟨ha, hl⟩

theorem orWords_proper : ∀ (k : Nat) (ts ws : Words), Proper ts → Proper (orWords k ts ws)
  | 0, ts, ws, h => by simpa [orWords] using h
  | k + 1, [], ws, h => by simpa [orWords] using h
  | k + 1, t :: ts, [], h => by simpa [orWords] using h
  | k + 1, [t], w :: ws, h => by
    rw [Proper_singleton] at h
    cases k <;> simp only [orWords] <;> rw [Proper_singleton] <;>
      exact lor_range_low h ⟨low31_nonneg _, low31_lt _⟩
  | k + 1, t :: t' :: ts, w :: ws, h => by
    rw [Proper_cons_cons] at h
    simp only [orWords]
    exact Proper_cons (lor_low h.1 ⟨low31_nonneg _, low31_lt _⟩)
      (orWords_proper k (t' :: ts) ws h.2)

theorem take_set_of_le : ∀ (l : Words) (m j : Nat) (a : Int), m ≤ j →
    (l.set j a).take m = l.take m
  | [], m, j, a, _ => by simp
  | x :: l, 0, j, a, _ => by simp
  | x :: l, m + 1, 0, a, h => by omega
  | x :: l, m + 1, j + 1, a, h => by
    simp only [List.set_cons_succ, List.take_succ_cons]
    rw [take_set_of_le l m j a (by omega)]

theorem Proper_nonneg_low {ws : Words} (h : Proper ws) (h0 : 0 ≤ back ws) : Low ws := by
  obtain ⟨l, t, rfl, hl, ht⟩ := Proper_iff.1 h
  rw [back_append_singleton] at h0
  rw [Low_append, Low_singleton]
  exact ⟨hl, h0, ht.2⟩

/-- Growing a vector keeps its words below the old top as 31-bit words. -/
theorem resize_grow_take {ws : Words} (h : Proper ws) {n : Nat} (hn : ws.length < n) :
    Low ((resize ws n).take ws.length) ∧ ((resize ws n).take ws.length).length = ws.length := by
  have hlen : ((resize ws n).take ws.length).length = ws.length := by
    rw [List.length_take, (resize_proper h (by omega)).2]; omega
  refine ⟨?_, hlen⟩
  obtain ⟨l, t, rfl, hl, ht⟩ := Proper_iff.1 h
  by_cases hneg : t < 0
  · unfold resize
    rw [back_append_singleton, if_pos ⟨by simp, hneg⟩]
    simp only [setBack_append_singleton]
    have hlow : Low (l ++ [low31 t]) := by
      rw [Low_append, Low_singleton]
      exact ⟨hl, low31_nonneg _, low31_lt _⟩
    have hd : List.drop n (l ++ [low31 t]) = [] := by
      apply List.drop_eq_nil_of_le
      simp at hn ⊢; omega
    simp only [hd, List.all_nil, if_true]
    unfold setBack
    rw [take_set_of_le _ _ _ _ (by rw [vecResize_length]; simp at hn ⊢; omega)]
    unfold vecResize
    have ht' : List.take n (l ++ [low31 t]) = l ++ [low31 t] := by
      apply List.take_of_length_le; simp at hn ⊢; omega
    rw [ht']
    have e : (l ++ [t]).length = (l ++ [low31 t]).length := by simp
    rw [e, List.take_left]
    exact hlow
  · have hb : 0 ≤ back (l ++ [t]) := by rw [back_append_singleton]; omega
    rw [resize_of_nonneg (Or.inr hb)]
    unfold vecResize
    rw [List.take_of_length_le (show (l ++ [t]).length ≤ n by omega), List.take_left]
    exact Proper_nonneg_low h hb

theorem is_negative_false_iff (ws : Words) : ¬ is_negative ws = true ↔ 0 ≤ back ws := by
  simp [is_negative]

/-- Bitwise AND of two normalized vectors is a normalized vector. -/
theorem bitwise_and_normalized {a n : Words} (ha : Proper a) (hn : Proper n) :
    Normalized (bitwise_and a n) := by
  unfold bitwise_and
  apply fix_normalized
  have hla := Proper_length_pos ha
  have hln := Proper_length_pos hn
  by_cases c1 : n.length < a.length ∧ ¬ is_negative n = true
  · rw [if_pos c1]
    have hmin : min a.length n.length = n.length := by omega
    rw [hmin]
    obtain ⟨hp, hl⟩ := resize_proper ha hln
    have hnlow := Proper_nonneg_low hn ((is_negative_false_iff n).1 c1.2)
    have := andWords_low_right n.length (resize a n.length) n hnlow (by omega) (by omega)
    exact Low_proper this (by
      intro hc
      have := andWords_length n.length (resize a n.length) n
      rw [hc, hl] at this
      simp at this; omega)
  · rw [if_neg c1]
    by_cases c2 : n.length > a.length ∧ is_negative a = true
    · rw [if_pos c2]
      have hmin : min a.length n.length = a.length := by omega
      rw [hmin]
      obtain ⟨hlow, hlen⟩ := resize_grow_take ha c2.1
      rw [andWords_append _ _ _ _ hlen]
      exact Proper_append_low (andWords_low_left _ _ _ hlow) (Proper_drop hn c2.1)
    · rw [if_neg c2]
      by_cases h1 : n.length < a.length
      · have hmin : min a.length n.length = n.length := by omega
        rw [hmin]
        have hlen : (a.take n.length).length = n.length := by rw [List.length_take]; omega
        conv => rw [← List.take_append_drop n.length a]
        rw [andWords_append _ _ _ _ hlen]
        exact Proper_append_low (andWords_low_left _ _ _ (Proper_take_low ha h1))
          (Proper_drop ha h1)
      · by_cases h2 : a.length < n.length
        · have hmin : min a.length n.length = a.length := by omega
          rw [hmin]
          have hneg : ¬ is_negative a = true := fun hc => c2 ⟨h2, hc⟩
          have halow := Proper_nonneg_low ha ((is_negative_false_iff a).1 hneg)
          exact Low_proper (andWords_low_left _ _ _ halow) (by
            intro hc
            have := andWords_length a.length a n
            rw [hc] at this
            simp at this; omega)
        · have heq : a.length = n.length := by omega
          have hmin : min a.length n.length = a.length := by omega
          rw [hmin]
          obtain ⟨l, t, rfl, hl, ht⟩ := Proper_iff.1 ha
          obtain ⟨ln, tn, rfl, hln', htn⟩ := Proper_iff.1 hn
          have hll : l.length = ln.length := by simpa using heq
          have e : (l ++ [t]).length = l.length + 1 := by simp
          rw [e, andWords_top l ln t tn hll, Proper_append_singleton]
          exact ⟨andWords_low_left _ _ _ hl, land_range ht htn⟩

/-- Bitwise OR of two normalized vectors is a normalized vector. -/
theorem bitwise_or_normalized {a n : Words} (ha : Proper a) (hn : Proper n) :
    Normalized (bitwise_or a n) := by
  unfold bitwise_or
  apply fix_normalized
  have hla := Proper_length_pos ha
  have hln := Proper_length_pos hn
  have hp1 := orWords_proper (min a.length n.length) a n ha
  have hl1 := orWords_length (min a.length n.length) a n
  generalize orWords (min a.length n.length) a n = this1 at hp1 hl1
  have key : Proper (if (this1.length < n.length ∧ ¬ is_negative this1 = true) ∨
      (this1.length > n.length ∧ is_negative n = true) then
      (resize this1 n.length).take (min a.length n.length) ++ n.drop (min a.length n.length)
      else this1) := by
    split_ifs with hc
    · rcases hc with ⟨h1, h2⟩ | ⟨h1, h2⟩
      · have hmin : min a.length n.length = this1.length := by omega
        rw [hmin]
        obtain ⟨hlow, -⟩ := resize_grow_take hp1 h1
        exact Proper_append_low hlow (Proper_drop hn h1)
      · have hmin : min a.length n.length = n.length := by omega
        rw [hmin]
        obtain ⟨hp, hl⟩ := resize_proper hp1 hln
        have e1 : (resize this1 n.length).take n.length = resize this1 n.length :=
          List.take_of_length_le (by omega)
        have e2 : n.drop n.length = [] := List.drop_eq_nil_of_le (le_refl _)
        rw [e1, e2, List.append_nil]
        exact hp
    · exact hp1
  have key' : ∃ t2, (if (this1.length < n.length ∧ ¬ is_negative this1 = true) ∨
      (this1.length > n.length ∧ is_negative n = true) then
      (resize this1 n.length).take (min a.length n.length) ++ n.drop (min a.length n.length)
      else this1) = t2 ∧ Proper t2 := ⟨_, rfl, key⟩
  obtain ⟨t2, e, hk⟩ := key'
  rw [e]
  split_ifs with hs
  · exact setBack_proper hk
  · exact hk

/-! ## Statements about the operations -/

/-- The value of a word vector written as the sum of `w[i] * 2^(31*i)`. -/
theorem val_eq_sum : ∀ ws : Words,
    val ws = ∑ i in Finset.range ws.length, ws.getD i 0 * 2 ^ (31 * i)
  | [] => by simp [val]
  | w :: ws => by
    rw [val, val_eq_sum ws, List.length_cons, Finset.sum_range_succ', Finset.mul_sum]
    simp only [List.getD_cons_succ, List.getD_cons_zero, Nat.mul_zero, pow_zero, mul_one]
    rw [add_comm]
    congr 1
    apply Finset.sum_congr rfl
    intro i _
    rw [Nat.mul_succ, pow_add]
    norm_num
    ring

/-- The loop of `string_to_integer` accepts decimal digits followed, at the
front of the string, by a digit or by `-`. -/
theorem stringLoop_signed (c0 : Char) (h0 : ('0' ≤ c0 ∧ c0 ≤ '9') ∨ c0 = '-') :
    ∀ (ds : List Char) (this pow_ten : Words), (∀ c ∈ ds, '0' ≤ c ∧ c ≤ '9') →
      ∃ r, stringLoop (ds ++ [c0]) this pow_ten = some r
  | [], this, pow_ten, _ => by
    rcases h0 with h | h
    · exact stringLoop_digits [c0] this pow_ten (by simpa using h)
    · subst h
      refine ⟨negative this, ?_⟩
      simp [stringLoop]
  | c :: ds, this, pow_ten, h => by
    have hc : '0' ≤ c ∧ c ≤ '9' := h c (List.mem_cons_self _ _)
    obtain ⟨r, hr⟩ := stringLoop_signed c0 h0 ds
      (add this (multiply pow_ten (ofNative ((c.toNat : Int) - 48))) false)
      (multiply pow_ten (ofNative 10)) (fun x hx => h x (List.mem_cons_of_mem _ hx))
    refine ⟨r, ?_⟩
    rw [List.cons_append, stringLoop, if_pos hc]
    exact hr

/-- The string constructor accepts every string made of an optional leading
`-` and decimal digits, and returns a normalized vector. -/
theorem string_to_integer_total (s : String)
    (hs : ∀ c ∈ s.data.tail, '0' ≤ c ∧ c ≤ '9')
    (hs0 : ∀ c ∈ s.data.head?, ('0' ≤ c ∧ c ≤ '9') ∨ c = '-') :
    ∃ r, string_to_integer s = some r ∧ Normalized r := by
  have hex : ∃ r, string_to_integer s = some r := by
    unfold string_to_integer
    cases hd : s.data with
    | nil => exact ⟨_, rfl⟩
    | cons c0 ds =>
      rw [hd] at hs hs0
      rw [List.reverse_cons]
      exact stringLoop_signed c0 (hs0 c0 (by simp)) ds.reverse _ _
        (fun c hc => hs c (by simpa using hc))
  obtain ⟨r, hr⟩ := hex
  exact ⟨r, hr, string_to_integer_normalized hr⟩

theorem val_ne_zero_of_is_zero {b : Words} (hb : Normalized b) (h : is_zero b = false) :
    val b ≠ 0 := by
  intro hv
  have := (is_zero_iff hb).2 hv
  rw [h] at this
  exact Bool.noConfusion this

/-- Claim C1: every value-producing operation (construction from a native
signed or unsigned integer or from a decimal string, addition, subtraction,
negation, increment, decrement, product, quotient and remainder, power,
absolute value, bitwise not, and, or, and both shifts) returns a normalized
word vector when its operands are normalized; the fallible ones (string
constructor, division, power) do return on a well-formed string, a non-zero
divisor and a non-negative exponent. -/
theorem operations_return_normalized (a b dv e : Words) (n u : Int) (s : String) (k : Nat)
    (ha : Normalized a) (hb : Normalized b) (hdv : Normalized dv)
    (hn : -9223372036854775808 ≤ n ∧ n < 9223372036854775808)
    (hu : 0 ≤ u ∧ u < 18446744073709551616)
    (hs : ∀ c ∈ s.data.tail, '0' ≤ c ∧ c ≤ '9')
    (hs0 : ∀ c ∈ s.data.head?, ('0' ≤ c ∧ c ≤ '9') ∨ c = '-')
    (hdv0 : is_zero dv = false) (he0 : is_negative e = false) :
    Normalized (ofNative n) ∧ Normalized (ofUnsigned u) ∧
      (∃ r, string_to_integer s = some r ∧ Normalized r) ∧
      Normalized (add a b false) ∧ Normalized (add a b true) ∧
      Normalized (negative a) ∧ Normalized (increment a) ∧ Normalized (decrement a) ∧
      (multiplyFuel (mulFuel a b) a b = some (multiply a b) ∧ Normalized (multiply a b)) ∧
      (∃ q r, divide a dv = some (q, r) ∧ Normalized q ∧ Normalized r) ∧
      (∃ r, power a e = some r ∧ Normalized r) ∧
      Normalized (abs a) ∧ Normalized (bitwise_not a) ∧
      Normalized (bitwise_and a b) ∧ Normalized (bitwise_or a b) ∧
      Normalized (bitwise_shift_left a k) ∧ Normalized (bitwise_shift_right a k) := by
  refine ⟨(ofNative_spec hn.1 hn.2).1, (ofUnsigned_spec hu.1 hu.2).1,
    string_to_integer_total s hs hs0, add_normalized ha.1 hb false, add_normalized ha.1 hb true,
    (negative_spec ha.1).1, (increment_spec ha.1).1, (decrement_spec ha.1).1,
    ⟨(multiply_spec ha hb).1 _ le_rfl, (multiply_spec ha hb).2.1⟩, ?_, ?_,
    (abs_spec ha).1, (bitwise_not_spec ha.1).1, bitwise_and_normalized ha.1 hb.1,
    bitwise_or_normalized ha.1 hb.1, (bitwise_shift_left_spec ha k).1,
    bitwise_shift_right_normalized ha.1 k⟩
  · obtain ⟨q, r, h, hq, hr, _⟩ := divide_spec ha hdv (val_ne_zero_of_is_zero hdv hdv0)
    exact ⟨q, r, h, hq, hr⟩
  · have hsome : (power a e).isSome = true := (power_isSome_iff a e).2 he0
    obtain ⟨r, hr⟩ := Option.isSome_iff_exists.1 hsome
    exact ⟨r, hr, power_normalized ha hr⟩

theorem operations_return_normalized_witness :
    (Normalized [5, 3] ∧ Normalized [-7] ∧ Normalized [2] ∧
      is_zero [2] = false ∧ is_negative [3] = false) ∧
    (Normalized (ofNative (-12)) ∧ Normalized (ofUnsigned 12) ∧
      (∃ r, string_to_integer "-12" = some r ∧ Normalized r) ∧
      Normalized (add [5, 3] [-7] false) ∧ Normalized (add [5, 3] [-7] true) ∧
      Normalized (negative [5, 3]) ∧ Normalized (increment [5, 3]) ∧
      Normalized (decrement [5, 3]) ∧
      (multiplyFuel (mulFuel [5, 3] [-7]) [5, 3] [-7] = some (multiply [5, 3] [-7]) ∧
        Normalized (multiply [5, 3] [-7])) ∧
      (∃ q r, divide [5, 3] [2] = some (q, r) ∧ Normalized q ∧ Normalized r) ∧
      (∃ r, power [5, 3] [3] = some r ∧ Normalized r) ∧
      Normalized (abs [5, 3]) ∧ Normalized (bitwise_not [5, 3]) ∧
      Normalized (bitwise_and [5, 3] [-7]) ∧ Normalized (bitwise_or [5, 3] [-7]) ∧
      Normalized (bitwise_shift_left [5, 3] 40) ∧
      Normalized (bitwise_shift_right [5, 3] 40)) :=
  ⟨by decide,
    operations_return_normalized [5, 3] [-7] [2] [3] (-12) 12 "-12" 40
      (by decide) (by decide) (by decide) (by decide) (by decide)
      (by decide) (by decide) (by decide) (by decide)⟩

/-- Claim C2: for normalized `a` and `b` of any length and sign, `a + b`
denotes `val a + val b`, where `val` is the sum of `w[i] * 2^(31*i)`. -/
theorem add_denotes_sum (a b : Words) (ha : Normalized a) (hb : Normalized b) :
    val (add a b false) = val a + val b ∧
      val (add a b false) =
        (∑ i in Finset.range a.length, a.getD i 0 * 2 ^ (31 * i)) +
          ∑ i in Finset.range b.length, b.getD i 0 * 2 ^ (31 * i) := by
  have h := (add_spec ha.1 hb.1).2
  refine ⟨h, ?_⟩
  rw [h, val_eq_sum a, val_eq_sum b]

theorem add_denotes_sum_witness :
    (Normalized [2147483647, 5] ∧ Normalized [-3]) ∧
    (val (add [2147483647, 5] [-3] false) = val [2147483647, 5] + val [-3] ∧
      val (add [2147483647, 5] [-3] false) =
        (∑ i in Finset.range [2147483647, 5].length,
            [2147483647, 5].getD i 0 * 2 ^ (31 * i)) +
          ∑ i in Finset.range [-3].length, [-3].getD i 0 * 2 ^ (31 * i)) :=
  ⟨by decide, add_denotes_sum [2147483647, 5] [-3] (by decide) (by decide)⟩

/-- Claim C3, evaluation at the failing input: for `a = -2^31`, the single
word `INT32_MIN`, which is normalized, `a - a` is the vector `[0, 1]`, of
value `2^31`, and not the zero value. -/
theorem sub_self_int32_min :
    ofNative (-2147483648) = [-2147483648] ∧ Normalized [-2147483648] ∧
      add [-2147483648] [-2147483648] true = [0, 1] ∧ val [0, 1] = 2147483648 ∧
      is_zero (add [-2147483648] [-2147483648] true) = false := by
  decide

/-- Claim C4: for every normalized `a`, `a + (-a)` is the zero value, the
single word 0. -/
theorem add_negative_self (a : Words) (ha : Normalized a) :
    add a (negative a) false = [0] := by
  have hn := negative_spec ha.1
  have hs := add_spec ha.1 hn.1.1
  apply eq_singleton_of_val hs.1 _ (by norm_num) (by norm_num)
  rw [hs.2, hn.2]
  ring

theorem add_negative_self_witness :
    Normalized [-2147483648] ∧ add [-2147483648] (negative [-2147483648]) false = [0] :=
  ⟨by decide, add_negative_self [-2147483648] (by decide)⟩

/-- Claim C5, evaluation at the failing input: the product of the one-word
operands `INT32_MIN` and `INT32_MIN` is the zero vector, of value 0, while
the product of the values is `2^62`. -/
theorem multiply_int32_min_squared :
    ofNative (-2147483648) = [-2147483648] ∧ Normalized [-2147483648] ∧
      multiplyFuel (mulFuel [-2147483648] [-2147483648]) [-2147483648] [-2147483648]
        = some [0] ∧
      multiply [-2147483648] [-2147483648] = [0] ∧
      val [-2147483648] * val [-2147483648] = 4611686018427387904 := by
  decide

/-- Claim C6: for normalized non-negative `a` and `b` of any length the
product terminates and denotes exactly `val a * val b`; and
`4294967295 * 4294967295` is `18446744065119617025`. -/
theorem multiply_nonneg_exact (a b : Words) (ha : Normalized a) (hb : Normalized b)
    (h1 : 0 ≤ val a) (h2 : 0 ≤ val b) :
    multiplyFuel (mulFuel a b) a b = some (multiply a b) ∧
      val (multiply a b) = val a * val b ∧
      multiply (ofUnsigned 4294967295) (ofUnsigned 4294967295)
        = ofUnsigned 18446744065119617025 :=
  ⟨(multiply_spec ha hb).1 _ le_rfl, (multiply_spec ha hb).2.2 (Or.inl ⟨h1, h2⟩), by decide⟩

theorem multiply_nonneg_exact_witness :
    (Normalized [2147483647, 1] ∧ 0 ≤ val [2147483647, 1]) ∧
    (multiplyFuel (mulFuel [2147483647, 1] [2147483647, 1]) [2147483647, 1] [2147483647, 1]
        = some (multiply [2147483647, 1] [2147483647, 1]) ∧
      val (multiply [2147483647, 1] [2147483647, 1])
        = val [2147483647, 1] * val [2147483647, 1] ∧
      multiply (ofUnsigned 4294967295) (ofUnsigned 4294967295)
        = ofUnsigned 18446744065119617025) :=
  ⟨by decide, multiply_nonneg_exact [2147483647, 1] [2147483647, 1]
    (by decide) (by decide) (by decide) (by decide)⟩

/-- Claim C7, evaluation at the failing input: both operands are the
normalized negative vector `[2147483647, -2147483648]`, and their product is
a negative vector. -/
theorem multiply_negatives_negative :
    Normalized [2147483647, -2147483648] ∧
      is_negative [2147483647, -2147483648] = true ∧
      multiply [2147483647, -2147483648] [2147483647, -2147483648]
        = [1, 2147483646, -2147483646] ∧
      is_negative (multiply [2147483647, -2147483648] [2147483647, -2147483648]) = true ∧
      is_zero (multiply [2147483647, -2147483648] [2147483647, -2147483648]) = false := by
  decide

/-- Claim C8: for every normalized `a`, `a * 1` and `1 * a` terminate and
are the word vector `a` itself. -/
theorem multiply_one (a : Words) (ha : Normalized a) :
    (multiplyFuel (mulFuel a (ofNative 1)) a (ofNative 1) = some a ∧
        multiplyFuel (mulFuel (ofNative 1) a) (ofNative 1) a = some a) ∧
      multiply a (ofNative 1) = a ∧ multiply (ofNative 1) a = a := by
  have h1 : Normalized (ofNative 1) := by decide
  have hv : val (ofNative 1) = 1 := by decide
  have hr := multiply_spec ha h1
  have hl := multiply_spec h1 ha
  have er : multiply a (ofNative 1) = a :=
    Normalized_unique _ _ hr.2.1 ha
      (by rw [hr.2.2 (Or.inr (Or.inl (Or.inr hv))), hv, mul_one])
  have el : multiply (ofNative 1) a = a :=
    Normalized_unique _ _ hl.2.1 ha
      (by rw [hl.2.2 (Or.inr (Or.inr (Or.inr hv))), hv, one_mul])
  refine ⟨⟨?_, ?_⟩, er, el⟩
  · have := hr.1 _ le_rfl
    rwa [er] at this
  · have := hl.1 _ le_rfl
    rwa [el] at this

theorem multiply_one_witness :
    Normalized [5, -3] ∧
    ((multiplyFuel (mulFuel [5, -3] (ofNative 1)) [5, -3] (ofNative 1) = some [5, -3] ∧
        multiplyFuel (mulFuel (ofNative 1) [5, -3]) (ofNative 1) [5, -3] = some [5, -3]) ∧
      multiply [5, -3] (ofNative 1) = [5, -3] ∧ multiply (ofNative 1) [5, -3] = [5, -3]) :=
  ⟨by decide, multiply_one [5, -3] (by decide)⟩

theorem decimalValue_append (ds : List Char) (c : Char) :
    decimalValue (ds ++ [c]) = 10 * decimalValue ds + ((c.toNat : Int) - 48) := by
  unfold decimalValue
  rw [List.foldl_append]
  rfl

theorem decRev_eq_decimalValue : ∀ cs : List Char, decRev cs = decimalValue cs.reverse
  | [] => rfl
  | c :: cs => by
    rw [List.reverse_cons, decimalValue_append, decRev, decRev_eq_decimalValue cs]
    ring

theorem decimalValue_eq_decRev (ds : List Char) : decimalValue ds = decRev ds.reverse := by
  rw [decRev_eq_decimalValue, List.reverse_reverse]

theorem digit_range {c : Char} (h : IsDigit c) :
    0 ≤ (c.toNat : Int) - 48 ∧ (c.toNat : Int) - 48 ≤ 9 := by
  have h1 : 48 ≤ c.toNat := h.1
  have h2 : c.toNat ≤ 57 := h.2
  omega

theorem decRev_nonneg : ∀ cs : List Char, (∀ c ∈ cs, IsDigit c) → 0 ≤ decRev cs
  | [], _ => le_refl _
  | c :: cs, h => by
    have h1 := digit_range (h c (List.mem_cons_self _ _))
    have h2 := decRev_nonneg cs (fun x hx => h x (List.mem_cons_of_mem _ hx))
    rw [decRev]
    omega

theorem ofNative_digit {c : Char} (h : IsDigit c) :
    Normalized (ofNative ((c.toNat : Int) - 48)) ∧
      val (ofNative ((c.toNat : Int) - 48)) = (c.toNat : Int) - 48 := by
  have hr := digit_range h
  exact ofNative_spec (by omega) (by omega)

/-! ## The loop of string_to_integer -/

/-- The loop that returns an `Option` is the state transformer with the state
dropped when the exception is thrown. -/
theorem stringLoop_eq_stringRun : ∀ (cs : List Char) (this pow_ten : Words),
    stringLoop cs this pow_ten =
      if (stringRun cs this pow_ten).1 = true then none
      else some (stringRun cs this pow_ten).2
  | [], this, pow_ten => by simp [stringLoop, stringRun]
  | c :: cs, this, pow_ten => by
    rw [stringLoop, stringRun]
    split_ifs with h1 h2 h3 h4 h5 <;>
      first
      | rfl
      | (rw [stringLoop_eq_stringRun cs]; simp_all)
      | simp_all

/-- Reading a run of digits adds their value, scaled by the current power of
ten, to the accumulator. -/
theorem stringRun_digits_append : ∀ (cs tl : List Char) (this pow_ten : Words) (k : Nat),
    Normalized this → Normalized pow_ten → val pow_ten = 10 ^ k →
    (∀ c ∈ cs, IsDigit c) →
    ∃ this' pow', stringRun (cs ++ tl) this pow_ten = stringRun tl this' pow' ∧
      Normalized this' ∧ Normalized pow' ∧
      val this' = val this + 10 ^ k * decRev cs ∧ val pow' = 10 ^ (k + cs.length)
  | [], tl, this, pow_ten, k, h1, h2, h3, _ =>
    ⟨this, pow_ten, rfl, h1, h2, by simp [decRev], by simpa using h3⟩
  | c :: cs, tl, this, pow_ten, k, h1, h2, h3, h4 => by
    have hc : IsDigit c := h4 c (List.mem_cons_self _ _)
    have hd := ofNative_digit hc
    have hr := digit_range hc
    have hten : Normalized (ofNative 10) := by decide
    have hvten : val (ofNative 10) = 10 := by decide
    have hp0 : (0 : Int) ≤ val pow_ten := by rw [h3]; positivity
    have hm := multiply_normalized h2 hd.1
    have hmv := val_multiply_nonneg h2 hd.1 hp0 (by rw [hd.2]; exact hr.1)
    have hm10 := multiply_normalized h2 hten
    have hmv10 := val_multiply_nonneg h2 hten hp0 (by rw [hvten]; norm_num)
    have ha := add_spec h1.1 hm.1
    obtain ⟨t', p', e, n1, n2, v1, v2⟩ := stringRun_digits_append cs tl
      (add this (multiply pow_ten (ofNative ((c.toNat : Int) - 48))) false)
      (multiply pow_ten (ofNative 10)) (k + 1) ha.1 hm10
      (by rw [hmv10, h3, hvten, pow_succ])
      (fun x hx => h4 x (List.mem_cons_of_mem _ hx))
    refine ⟨t', p', ?_, n1, n2, ?_, ?_⟩
    · rw [List.cons_append, stringRun, if_pos (show '0' ≤ c ∧ c ≤ '9' from hc)]
      exact e
    · rw [v1, ha.2, hmv, hd.2, h3, decRev, pow_succ]
      ring
    · rw [v2, List.length_cons]
      congr 1
      omega

/-- A character that is not a digit and is not the first character of the
string makes the loop throw. -/
theorem stringRun_invalid : ∀ (cs tl : List Char) (this pow_ten : Words),
    tl ≠ [] → (∃ c ∈ cs, ¬ IsDigit c) → (stringRun (cs ++ tl) this pow_ten).1 = true
  | [], _, _, _, _, h => by
    obtain ⟨c, hc, _⟩ := h
    exact absurd hc (List.not_mem_nil c)
  | c :: cs, tl, this, pow_ten, htl, h => by
    rw [List.cons_append, stringRun]
    by_cases hc : IsDigit c
    · rw [if_pos (show '0' ≤ c ∧ c ≤ '9' from hc)]
      apply stringRun_invalid cs tl _ _ htl
      obtain ⟨x, hx, hnx⟩ := h
      rcases List.mem_cons.1 hx with rfl | hx'
      · exact absurd hc hnx
      · exact ⟨x, hx', hnx⟩
    · rw [if_neg (show ¬ ('0' ≤ c ∧ c ≤ '9') from hc), if_neg]
      intro h'
      exact htl (List.append_eq_nil.1 h'.1).2

/-- When the loop throws, the accumulator holds the digits read before the
offending character. -/
theorem stringRun_thrown : ∀ (cs : List Char) (this pow_ten : Words) (k : Nat),
    Normalized this → Normalized pow_ten → val pow_ten = 10 ^ k →
    (stringRun cs this pow_ten).1 = true →
    ∃ ds c rest, cs = ds ++ c :: rest ∧ (∀ x ∈ ds, IsDigit x) ∧ ¬ IsDigit c ∧
      ¬ (rest = [] ∧ c = '-') ∧ Normalized (stringRun cs this pow_ten).2 ∧
      val (stringRun cs this pow_ten).2 = val this + 10 ^ k * decRev ds
  | [], this, pow_ten, k, _, _, _, h => by simp [stringRun] at h
  | c :: cs, this, pow_ten, k, h1, h2, h3, h => by
    by_cases hc : IsDigit c
    · obtain ⟨t', p', e, n1, n2, v1, v2⟩ := stringRun_digits_append [c] cs this pow_ten k
        h1 h2 h3 (by simpa using hc)
      rw [List.singleton_append] at e
      rw [e] at h ⊢
      obtain ⟨ds, x, rest, hcs, hds, hx, hr, hn, hv⟩ :=
        stringRun_thrown cs t' p' (k + 1) n1 n2 (by simpa using v2) h
      refine ⟨c :: ds, x, rest, by rw [hcs]; rfl, ?_, hx, hr, hn, ?_⟩
      · intro y hy
        rcases List.mem_cons.1 hy with rfl | hy'
        · exact hc
        · exact hds y hy'
      · rw [hv, v1]
        simp only [decRev, mul_zero, add_zero, pow_succ]
        ring
    · by_cases hm : cs = [] ∧ c = '-'
      · rw [stringRun, if_neg (show ¬ ('0' ≤ c ∧ c ≤ '9') from hc), if_pos hm, hm.1, stringRun] at h
        exact absurd h (by simp)
      · refine ⟨[], c, cs, rfl, by simp, hc, hm, ?_, ?_⟩
        · rw [stringRun, if_neg (show ¬ ('0' ≤ c ∧ c ≤ '9') from hc), if_neg hm]
          exact h1
        · rw [stringRun, if_neg (show ¬ ('0' ≤ c ∧ c ≤ '9') from hc), if_neg hm]
          simp [decRev]

/-- The loop on a valid string, read from its last character: it does not
throw and leaves the value of the digits, negated after a leading `-`. -/
theorem stringRun_valid (c0 : Char) (ds : List Char) (this : Words)
    (h0 : IsDigit c0 ∨ c0 = '-') (hds : ∀ c ∈ ds, IsDigit c) :
    ∃ r, stringRun (ds.reverse ++ [c0]) (reset this) (ofNative 1) = (false, r) ∧
      Normalized r ∧
      val r = if c0 = '-' then -decimalValue ds else decimalValue (c0 :: ds) := by
  have hreset : reset this = [0] := by
    unfold reset vecResize setBack
    cases this <;> simp
  have hval0 : val ([0] : Words) = 0 := by decide
  rw [hreset]
  rcases h0 with h | h
  · have hne : c0 ≠ '-' := by
      intro hh
      rw [hh] at h
      exact absurd h (by decide)
    obtain ⟨t', p', e, n1, _, v1, _⟩ := stringRun_digits_append (ds.reverse ++ [c0]) [] [0]
      (ofNative 1) 0 (by decide) (by decide) (by decide)
      (fun c hc => by
        rcases List.mem_append.1 hc with hc' | hc'
        · exact hds c (List.mem_reverse.1 hc')
        · rw [List.mem_singleton.1 hc']; exact h)
    rw [List.append_nil] at e
    refine ⟨t', by rw [e, stringRun], n1, ?_⟩
    rw [if_neg hne, v1, hval0, decimalValue_eq_decRev, List.reverse_cons]
    simp
  · subst h
    obtain ⟨t', p', e, n1, _, v1, _⟩ := stringRun_digits_append ds.reverse ['-'] [0]
      (ofNative 1) 0 (by decide) (by decide) (by decide)
      (fun c hc => hds c (List.mem_reverse.1 hc))
    have hnd : ¬ IsDigit '-' := by decide
    refine ⟨negative t', ?_, (negative_spec n1.1).1, ?_⟩
    · rw [e, stringRun, if_neg (show ¬ ('0' ≤ '-' ∧ '-' ≤ '9') from hnd), if_pos ⟨rfl, rfl⟩, stringRun]
    · rw [if_pos rfl, (negative_spec n1.1).2, v1, hval0, decimalValue_eq_decRev]
      simp

/-! ## string_to_integer on a whole string -/

theorem reset_eq (ws : Words) : reset ws = [0] := by
  unfold reset vecResize setBack
  cases ws <;> simp

/-- The string constructor is the string assignment with the state dropped
when the exception is thrown. -/
theorem string_to_integer_eq_assign (this : Words) (s : String) :
    string_to_integer s =
      if (assignString this s).1 = true then none else some (assignString this s).2 := by
  unfold string_to_integer assignString
  rw [stringLoop_eq_stringRun, reset_eq, reset_eq]

/-- On a valid string the assignment does not throw, and the value left is
the one the digits denote, negated after a leading `-`. -/
theorem assignString_valid (this : Words) (s : String) (h : ValidDecimal s.data) :
    ∃ r, assignString this s = (false, r) ∧ Normalized r ∧
      val r = if s.data.head? = some '-' then -decimalValue s.data.tail
        else decimalValue s.data := by
  unfold assignString
  cases hd : s.data with
  | nil =>
    refine ⟨[0], ?_, by decide, by decide⟩
    rw [List.reverse_nil, stringRun, reset_eq]
  | cons c0 ds =>
    rw [hd] at h
    obtain ⟨r, e, hn, hv⟩ := stringRun_valid c0 ds this (h.2 c0 (by simp)) h.1
    refine ⟨r, by rw [List.reverse_cons]; exact e, hn, ?_⟩
    rw [hv]
    simp only [List.head?_cons, Option.some.injEq, List.tail_cons]

/-- The assignment throws exactly on the strings that are not valid. -/
theorem assignString_thrown_iff (this : Words) (s : String) :
    (assignString this s).1 = true ↔ ¬ ValidDecimal s.data := by
  constructor
  · intro h hv
    obtain ⟨r, e, _⟩ := assignString_valid this s hv
    rw [e] at h
    exact Bool.noConfusion h
  · intro hv
    unfold assignString
    cases hd : s.data with
    | nil => rw [hd] at hv; exact absurd (by decide) hv
    | cons c0 ds =>
      rw [hd] at hv
      rw [List.reverse_cons]
      by_cases hds : ∀ c ∈ ds, IsDigit c
      · have h0 : ¬ (IsDigit c0 ∨ c0 = '-') := by
          intro h0
          apply hv
          exact ⟨hds, fun c hc => by
            simp only [List.head?_cons, Option.mem_def, Option.some.injEq] at hc
            rw [← hc]; exact h0⟩
        obtain ⟨t', p', e, _⟩ := stringRun_digits_append ds.reverse [c0] (reset this)
          (ofNative 1) 0 (by rw [reset_eq]; decide) (by decide) (by decide)
          (fun c hc => hds c (List.mem_reverse.1 hc))
        rw [e, stringRun, if_neg (show ¬ ('0' ≤ c0 ∧ c0 ≤ '9') from fun hh => h0 (Or.inl hh)),
          if_neg (fun hh => h0 (Or.inr hh.2))]
      · apply stringRun_invalid _ _ _ _ (by simp)
        by_contra hcon
        apply hds
        intro c hc
        by_contra hnc
        exact hcon ⟨c, List.mem_reverse.2 hc, hnc⟩

/-- When the assignment throws, the object holds the value of the digits that
follow the last offending character. -/
theorem assignString_thrown (this : Words) (s : String)
    (h : (assignString this s).1 = true) :
    ∃ pre c ds, s.data = pre ++ c :: ds ∧ (∀ x ∈ ds, IsDigit x) ∧ ¬ IsDigit c ∧
      ¬ (pre = [] ∧ c = '-') ∧ Normalized (assignString this s).2 ∧
      val (assignString this s).2 = decimalValue ds := by
  unfold assignString at h ⊢
  obtain ⟨ds, c, rest, hcs, hds, hc, hr, hn, hv⟩ := stringRun_thrown s.data.reverse
    (reset this) (ofNative 1) 0 (by rw [reset_eq]; decide) (by decide) (by decide) h
  refine ⟨rest.reverse, c, ds.reverse, ?_, fun x hx => hds x (List.mem_reverse.1 hx), hc, ?_,
    hn, ?_⟩
  · have := congrArg List.reverse hcs
    rw [List.reverse_reverse] at this
    rw [this]
    simp
  · intro hh
    exact hr ⟨List.reverse_eq_nil_iff.1 hh.1, hh.2⟩
  · rw [hv, reset_eq, decimalValue_eq_decRev, List.reverse_reverse]
    simp [val]

/-! ## getInt and the integral assignment -/

theorem toInt64_of_range {x : Int} (h1 : -9223372036854775808 ≤ x)
    (h2 : x < 9223372036854775808) : toInt64 x = x := by
  unfold toInt64; omega

theorem getInt_eq_none_iff (ws : Words) : getInt ws = none ↔ 2 ≤ ws.length := by
  unfold getInt
  split_ifs with h
  · simp; omega
  · simp; omega

theorem getInt_singleton {w : Int} (h1 : -2147483648 ≤ w) (h2 : w < 2147483648) :
    getInt [w] = some w := by
  unfold getInt
  rw [if_neg (by simp)]
  simp only [List.length_singleton, getIntLoop, List.getD_cons_zero, Nat.mul_zero, pow_zero,
    mul_one, zero_add]
  rw [toInt64_of_range (x := w) (by omega) (by omega), toInt64_of_range (by omega) (by omega)]

/-- On a one-word normalized vector `getInt` returns the value. -/
theorem getInt_of_length_one {ws : Words} (h : Normalized ws) (hl : ws.length = 1) :
    getInt ws = some (val ws) := by
  match ws, hl with
  | [w], _ =>
    have hb := Normalized_singleton.1 h
    rw [getInt_singleton hb.1 hb.2, val_singleton]

theorem assignNativeLoop_eq : ∀ (fuel : Nat) (n : Int) (ws : Words),
    assignNativeLoop fuel n ws = ofNativeLoop fuel n ws
  | 0, _, _ => rfl
  | fuel + 1, n, ws => by
    rw [assignNativeLoop, ofNativeLoop]
    have hc : ((0 ≤ n ∧ n ≤ INT32_MAX) ∨ (n < 0 ∧ INT32_MIN ≤ n)) ↔
        (INT32_MIN ≤ n ∧ n ≤ INT32_MAX) := by
      unfold INT32_MAX INT32_MIN; omega
    simp only [hc, assignNativeLoop_eq fuel]

/-- The integral assignment forgets the previous words and stores what the
integral constructor stores. -/
theorem assignNative_eq (this : Words) (n : Int) : assignNative this n = ofNative n := by
  unfold assignNative ofNative
  simp only [List.take_zero, assignNativeLoop_eq]

/-! ## Digit sequences, least significant digit first -/

theorem char_eq_of_digit_eq {c1 c2 : Char}
    (h : (c1.toNat : Int) - 48 = (c2.toNat : Int) - 48) : c1 = c2 := by
  have h' : c1.toNat = c2.toNat := by omega
  rw [← Char.ofNat_toNat c1, ← Char.ofNat_toNat c2, h']

theorem digit_pos_of_ne_zero {c : Char} (h : IsDigit c) (hne : c ≠ '0') :
    1 ≤ (c.toNat : Int) - 48 := by
  have hr := digit_range h
  by_contra hcon
  have h0 : (c.toNat : Int) - 48 = ('0'.toNat : Int) - 48 := by
    have : (('0' : Char).toNat : Int) = 48 := by decide
    omega
  exact hne (char_eq_of_digit_eq h0)

theorem decRev_append (l : List Char) (c : Char) :
    decRev (l ++ [c]) = decRev l + 10 ^ l.length * ((c.toNat : Int) - 48) := by
  induction l with
  | nil => simp [decRev]
  | cons x l ih =>
    rw [List.cons_append, decRev, ih, decRev, List.length_cons, pow_succ]
    ring

theorem getLast?_cons_of_ne_nil {c : Char} {l : List Char} (h : l ≠ []) :
    (c :: l).getLast? = l.getLast? := by
  cases l with
  | nil => exact absurd rfl h
  | cons x t => rfl

/-- A non-empty digit sequence without a leading zero denotes a positive
integer. -/
theorem decRev_pos : ∀ l : List Char, (∀ c ∈ l, IsDigit c) → l ≠ [] →
    l.getLast? ≠ some '0' → 0 < decRev l
  | [], _, h, _ => absurd rfl h
  | [c], hd, _, hl => by
    have hc : c ≠ '0' := by
      intro hh; apply hl; rw [hh]; rfl
    have := digit_pos_of_ne_zero (hd c (by simp)) hc
    simp only [decRev]
    omega
  | c :: x :: t, hd, _, hl => by
    have hr := digit_range (hd c (by simp))
    have ht := decRev_pos (x :: t) (fun y hy => hd y (List.mem_cons_of_mem _ hy))
      (by simp) (by rw [← getLast?_cons_of_ne_nil (c := c) (by simp)]; exact hl)
    rw [decRev]
    omega

/-- Two digit sequences without leading zeros that denote the same integer
are the same sequence. -/
theorem decRev_inj : ∀ l1 l2 : List Char, (∀ c ∈ l1, IsDigit c) → (∀ c ∈ l2, IsDigit c) →
    l1.getLast? ≠ some '0' → l2.getLast? ≠ some '0' → decRev l1 = decRev l2 → l1 = l2
  | [], [], _, _, _, _, _ => rfl
  | [], c :: t, _, h2, _, g2, e => by
    have := decRev_pos (c :: t) h2 (by simp) g2
    rw [← e] at this
    simp [decRev] at this
  | c :: t, [], h1, _, g1, _, e => by
    have := decRev_pos (c :: t) h1 (by simp) g1
    rw [e] at this
    simp [decRev] at this
  | c1 :: t1, c2 :: t2, h1, h2, g1, g2, e => by
    have r1 := digit_range (h1 c1 (by simp))
    have r2 := digit_range (h2 c2 (by simp))
    simp only [decRev] at e
    have hc : c1 = c2 := char_eq_of_digit_eq (by omega)
    have ht : decRev t1 = decRev t2 := by omega
    have k1 : t1.getLast? ≠ some '0' := by
      by_cases hn : t1 = []
      · rw [hn]; simp
      · rw [← getLast?_cons_of_ne_nil (c := c1) hn]; exact g1
    have k2 : t2.getLast? ≠ some '0' := by
      by_cases hn : t2 = []
      · rw [hn]; simp
      · rw [← getLast?_cons_of_ne_nil (c := c2) hn]; exact g2
    rw [hc, decRev_inj t1 t2 (fun y hy => h1 y (List.mem_cons_of_mem _ hy))
      (fun y hy => h2 y (List.mem_cons_of_mem _ hy)) k1 k2 ht]

/-! ## The digit loop of integer_to_string -/

/-- Division of a non-negative value by ten. -/
theorem divide_ten {aux : Words} (h : Normalized aux) (h0 : 0 ≤ val aux) :
    ∃ q r, divide aux (ofNative 10) = some (q, r) ∧ Normalized q ∧ Normalized r ∧
      val q = val aux / 10 ∧ val r = val aux % 10 := by
  have hten : Normalized (ofNative 10) := by decide
  have hv : val (ofNative 10) = 10 := by decide
  obtain ⟨q, r, e, hq, hr, vq, vr, _⟩ := divide_spec h hten (by rw [hv]; norm_num)
  refine ⟨q, r, e, hq, hr, ?_, ?_⟩
  · rw [vq, hv, Int.tdiv_eq_ediv h0 (by norm_num)]
  · rw [vr, hv, Int.tmod_eq_emod h0 (by norm_num)]

/-- The character of a one-digit value. -/
theorem digitChar_spec {r : Words} (h : Normalized r) (h0 : 0 ≤ val r) (h9 : val r < 10) :
    ∃ c, digitChar r = some c ∧ IsDigit c ∧ (c.toNat : Int) - 48 = val r ∧
      (val r = 0 → c = '0') := by
  have hr : r = [val r] := eq_singleton_of_val h rfl (by omega) (by omega)
  generalize val r = d at hr h0 h9
  subst hr
  unfold digitChar
  rw [getInt_singleton (by omega) (by omega)]
  obtain ⟨n, rfl⟩ := Int.eq_ofNat_of_zero_le h0
  have hn : n < 10 := by omega
  interval_cases n <;> exact ⟨_, rfl, by decide, by decide, by decide⟩

theorem is_zero_false_iff {ws : Words} (h : Normalized ws) :
    is_zero ws = false ↔ val ws ≠ 0 := by
  have hi := is_zero_iff h
  constructor
  · intro hf hv
    rw [hi.2 hv] at hf
    exact Bool.noConfusion hf
  · intro hv
    cases hz : is_zero ws with
    | false => rfl
    | true => exact absurd (hi.1 hz) hv

/-- The digit loop: it stops within `k + 1` tests when the quotient is below
`10 ^ k`, appends the digits below the most significant one and returns the
most significant one in `r`. -/
theorem digitsLoop_spec : ∀ (k : Nat) (aux r : Words) (acc : List Char),
    Normalized aux → 0 ≤ val aux → val aux < 10 ^ k →
    Normalized r → 0 ≤ val r → val r < 10 →
    ∃ r' D, digitsLoop (k + 1) aux r acc = some (r', acc ++ D) ∧
      Normalized r' ∧ 0 ≤ val r' ∧ val r' < 10 ∧ (∀ c ∈ D, IsDigit c) ∧
      decRev D + 10 ^ D.length * val r' = 10 * val aux + val r ∧
      (val aux ≠ 0 → val r' ≠ 0) ∧ (val aux = 0 → D = [] ∧ r' = r) := by
  intro k
  induction k with
  | zero =>
    intro aux r acc ha h0 hlt hr hr0 hr9
    have hz : val aux = 0 := by
      rw [pow_zero] at hlt; omega
    refine ⟨r, [], ?_, hr, hr0, hr9, by simp, by simp [decRev, hz], fun h => absurd hz h,
      fun _ => ⟨rfl, rfl⟩⟩
    rw [digitsLoop, if_neg (by rw [(is_zero_iff ha).2 hz]; simp), List.append_nil]
  | succ k ih =>
    intro aux r acc ha h0 hlt hr hr0 hr9
    by_cases hz : val aux = 0
    · refine ⟨r, [], ?_, hr, hr0, hr9, by simp, by simp [decRev, hz], fun h => absurd hz h,
        fun _ => ⟨rfl, rfl⟩⟩
      rw [digitsLoop, if_neg (by rw [(is_zero_iff ha).2 hz]; simp), List.append_nil]
    · obtain ⟨c, hc, hcd, hcv, _⟩ := digitChar_spec hr hr0 hr9
      obtain ⟨q, r2, hdiv, hq, hr2, vq, vr2⟩ := divide_ten ha h0
      have hq0 : 0 ≤ val q := by rw [vq]; omega
      have hqlt : val q < 10 ^ k := by
        rw [vq]
        rw [pow_succ] at hlt
        omega
      obtain ⟨r', D, e, n', p0, p9, hD, hsum, hne, heq⟩ :=
        ih q r2 (acc ++ [c]) hq hq0 hqlt hr2 (by rw [vr2]; omega) (by rw [vr2]; omega)
      refine ⟨r', c :: D, ?_, n', p0, p9, ?_, ?_, ?_, fun h => absurd h hz⟩
      · rw [digitsLoop, if_pos ((is_zero_false_iff ha).2 hz), hc, hdiv]
        simp only
        rw [e, List.append_assoc, List.singleton_append]
      · intro x hx
        rcases List.mem_cons.1 hx with rfl | hx'
        · exact hcd
        · exact hD x hx'
      · rw [decRev, List.length_cons, pow_succ, hcv]
        have : val aux = 10 * val q + val r2 := by rw [vq, vr2]; omega
        rw [this]
        linear_combination 10 * hsum
      · intro _
        by_cases hqz : val q = 0
        · rw [(heq hqz).2, vr2]
          rw [vq] at hqz
          omega
        · exact hne hqz

/-- The value `|val a|` is below `10 ^ (31 * length)`. -/
theorem abs_lt_pow_ten {a : Words} (h : Proper a) : |val a| < 10 ^ (31 * a.length) := by
  have hb := Proper_val_bounds h
  have h1 : (2147483648 : Int) ^ a.length = 2 ^ (31 * a.length) := by
    rw [pow_mul]; norm_num
  have h2 : (2 : Int) ^ (31 * a.length) < 10 ^ (31 * a.length) := by
    apply pow_lt_pow_left₀ (by norm_num) (by norm_num)
    have := Proper_length_pos h
    omega
  rw [abs_lt]
  constructor <;> omega

/-- What `integer_to_string` returns: the digits of `|val a|`, least
significant first in `L`, without a leading zero unless the value is 0, then
the sign, the whole reversed. -/
theorem integer_to_string_spec {a : Words} (h : Normalized a) :
    ∃ L, integer_to_string a =
        some (String.mk (L ++ if val a < 0 then ['-'] else []).reverse) ∧
      (∀ c ∈ L, IsDigit c) ∧ decRev L = |val a| ∧
      (val a = 0 → L = ['0']) ∧ (val a ≠ 0 → L.getLast? ≠ some '0') := by
  have habs : Normalized (if is_negative a = true then negative a else a) ∧
      val (if is_negative a = true then negative a else a) = |val a| := abs_spec h
  obtain ⟨q, r, hdiv, hq, hr, vq, vr⟩ := divide_ten habs.1 (by rw [habs.2]; exact abs_nonneg _)
  rw [habs.2] at vq vr
  have hlt := abs_lt_pow_ten h.1
  have hnn := abs_nonneg (val a)
  obtain ⟨r', D, e, n', p0, p9, hD, hsum, hne, heq⟩ :=
    digitsLoop_spec (31 * a.length) q r [] hq (by rw [vq]; omega) (by rw [vq]; omega) hr
      (by rw [vr]; omega) (by rw [vr]; omega)
  obtain ⟨c, hc, hcd, hcv, hc0⟩ := digitChar_spec n' p0 p9
  have hval : decRev (D ++ [c]) = |val a| := by
    rw [decRev_append, hcv]
    have : |val a| = 10 * val q + val r := by rw [vq, vr]; omega
    rw [this, ← hsum]
  have hcond : D = [] ∨ is_zero r' = false := by
    by_cases hqz : val q = 0
    · exact Or.inl (heq hqz).1
    · exact Or.inr ((is_zero_false_iff n').2 (hne hqz))
  refine ⟨D ++ [c], ?_, ?_, hval, ?_, ?_⟩
  · unfold integer_to_string integer_to_stringFuel
    simp only [hdiv, List.nil_append] at e ⊢
    rw [e]
    simp only [if_pos hcond, hc]
    by_cases hneg : val a < 0
    · rw [if_pos ((is_negative_iff h.1).2 hneg), if_pos hneg]
    · have : ¬ is_negative a = true := fun hh => hneg ((is_negative_iff h.1).1 hh)
      rw [if_neg this, if_neg hneg, List.append_nil]
  · intro x hx
    rcases List.mem_append.1 hx with hx' | hx'
    · exact hD x hx'
    · rw [List.mem_singleton.1 hx']; exact hcd
  · intro hz
    have hq0 : val q = 0 := by rw [vq, hz]; simp
    have hr0 : val r = 0 := by rw [vr, hz]; simp
    obtain ⟨hDnil, hr'⟩ := heq hq0
    rw [hDnil, List.nil_append, hc0 (by rw [hr', hr0])]
  · intro hnz
    rw [List.getLast?_concat]
    simp only [ne_eq, Option.some.injEq]
    intro hh
    have hv0 : val r' = 0 := by
      rw [← hcv, hh]; decide
    have habs0 : |val a| ≠ 0 := by simpa using hnz
    by_cases hqz : val q = 0
    · have := (heq hqz).2
      rw [this, vr] at hv0
      rw [vq] at hqz
      omega
    · exact hne hqz hv0

/-! ## Decimal round trips -/

theorem string_mk_data (s : String) : String.mk s.data = s := rfl

theorem canonicalDigits_head {ds : List Char} (h : CanonicalDigits ds) (hne : ds ≠ ['0']) :
    ds ≠ [] ∧ ds.head? ≠ some '0' ∧ ds.head? ≠ some '-' := by
  obtain ⟨hd, h0 | ⟨hnil, hc0⟩⟩ := h
  · exact absurd h0 hne
  · cases ds with
    | nil => exact absurd rfl hnil
    | cons x t =>
      refine ⟨hnil, hc0, ?_⟩
      simp only [List.head?_cons, ne_eq, Option.some.injEq]
      intro hh
      have := hd x (by simp)
      rw [hh] at this
      exact absurd this (by decide)

theorem canonical_pos {ds : List Char} (h : CanonicalDigits ds) (hne : ds ≠ ['0']) :
    0 < decimalValue ds := by
  obtain ⟨h1, h2, _⟩ := canonicalDigits_head h hne
  rw [decimalValue_eq_decRev]
  apply decRev_pos
  · intro c hc; exact h.1 c (List.mem_reverse.1 hc)
  · simpa using h1
  · rw [List.getLast?_reverse]; exact h2

/-- Rendering the vector parsed from a canonical decimal string gives back the
string. -/
theorem getString_parse (s : String) (h : CanonicalDecimal s.data) :
    ∃ r, string_to_integer s = some r ∧ Normalized r ∧ getString r = some s := by
  have hvalid : ValidDecimal s.data := by
    rcases h with h | ⟨h, hne⟩ | ⟨hs, h, hne⟩
    · rw [h]; decide
    · constructor
      · intro c hc; exact h.1 c (List.mem_of_mem_tail hc)
      · intro c hc; exact Or.inl (h.1 c (List.mem_of_mem_head? hc))
    · refine ⟨fun c hc => h.1 c hc, fun c hc => Or.inr ?_⟩
      rw [hs] at hc
      simpa using hc.symm
  obtain ⟨r, e, hn, hv⟩ := assignString_valid [] s hvalid
  obtain ⟨L, hs, hL, hLv, hz, hnz⟩ := integer_to_string_spec hn
  refine ⟨r, by rw [string_to_integer_eq_assign [], e]; simp, hn, ?_⟩
  unfold getString
  rw [hs, ← string_mk_data s]
  congr 2
  rcases h with h | ⟨h, hne⟩ | ⟨hhead, h, hne⟩
  · rw [h] at hv ⊢
    have hv0 : val r = 0 := by rw [hv]; decide
    rw [hz hv0, if_neg (by rw [hv0]; decide)]
    rfl
  · have hp := canonical_pos h hne
    obtain ⟨_, _, hm⟩ := canonicalDigits_head h hne
    rw [if_neg hm] at hv
    have hL2 : L = s.data.reverse := by
      apply decRev_inj L s.data.reverse hL (fun c hc => h.1 c (List.mem_reverse.1 hc))
        (hnz (by omega))
        (by rw [List.getLast?_reverse]; exact (canonicalDigits_head h hne).2.1)
      rw [hLv, hv, abs_of_pos hp, decimalValue_eq_decRev]
    rw [if_neg (by omega), hL2]
    simp
  · have hp := canonical_pos h hne
    obtain ⟨ds, hds⟩ : ∃ ds, s.data = '-' :: ds := by
      cases hd : s.data with
      | nil => rw [hd] at hhead; simp at hhead
      | cons x t =>
        rw [hd] at hhead
        simp only [List.head?_cons, Option.some.injEq] at hhead
        exact ⟨t, by rw [hhead]⟩
    rw [hds] at hv h hne hp ⊢
    simp only [List.head?_cons, if_true, List.tail_cons] at hv h hne hp
    have hL2 : L = ds.reverse := by
      apply decRev_inj L ds.reverse hL (fun c hc => h.1 c (List.mem_reverse.1 hc))
        (hnz (by omega))
        (by rw [List.getLast?_reverse]; exact (canonicalDigits_head h hne).2.1)
      rw [hLv, hv, abs_neg, abs_of_pos hp, decimalValue_eq_decRev]
    rw [if_pos (by omega), hL2]
    simp

/-! ## Statements about errors, comparison and conversions -/

theorem divide_eq_none_iff (a b : Words) : divide a b = none ↔ is_zero b = true := by
  unfold divide
  split_ifs with h
  · simp [h]
  · simp [h]

theorem compare_cases {a b : Words} (ha : Normalized a) (hb : Normalized b) :
    (val a < val b → compare a b = -1) ∧ (val a = val b → compare a b = 0) ∧
      (val b < val a → compare a b = 1) := by
  rw [compare_spec ha hb]
  unfold cmpInt
  refine ⟨fun h => ?_, fun h => ?_, fun h => ?_⟩
  · rw [if_pos h]
  · rw [if_neg (by omega), if_pos h]
  · rw [if_neg (by omega), if_neg (by omega)]

theorem operators_iff {a b : Words} (ha : Normalized a) (hb : Normalized b) :
    (operator_lt a b = true ↔ val a < val b) ∧ (operator_le a b = true ↔ val a ≤ val b) ∧
      (operator_gt a b = true ↔ val b < val a) ∧ (operator_ge a b = true ↔ val b ≤ val a) ∧
      (operator_eq a b = true ↔ val a = val b) ∧ (operator_ne a b = true ↔ val a ≠ val b) := by
  unfold operator_lt operator_le operator_gt operator_ge operator_eq operator_ne
  rw [compare_spec ha hb]
  unfold cmpInt
  simp only [decide_eq_true_eq]
  refine ⟨?_, ?_, ?_, ?_, ?_, ?_⟩ <;> split_ifs with h1 h2 <;> simp <;> omega

/-- Claim C11: `divide`, and with it `/`, `%`, `/=` and `%=`, throws
`zero_division_error` exactly when the divisor is the zero value, and then
the dividend and the quotient and remainder objects are as before the call;
on a non-zero divisor all of them return. -/
theorem divide_zero_error (a b q0 r0 : Words) (hb : Normalized b) :
    ((divideCall a b q0 r0).1 = true ↔ val b = 0) ∧
      (divide a b = none ↔ val b = 0) ∧
      (val b = 0 →
        divideCall a b q0 r0 = (true, q0, r0) ∧
        operator_div a b = none ∧ operator_mod a b = none ∧
        operator_div_assign a b = (true, a) ∧ operator_mod_assign a b = (true, a)) ∧
      (val b ≠ 0 → ∃ q r, divide a b = some (q, r) ∧
        divideCall a b q0 r0 = (false, q, r) ∧
        operator_div a b = some q ∧ operator_mod a b = some r ∧
        operator_div_assign a b = (false, q) ∧ operator_mod_assign a b = (false, r)) := by
  have hnone : divide a b = none ↔ val b = 0 := by
    rw [divide_eq_none_iff, is_zero_iff hb]
  have hzero : val b = 0 → ∀ x y, divideCall a b x y = (true, x, y) := by
    intro h x y
    unfold divideCall
    rw [hnone.2 h]
  have hsome : val b ≠ 0 → ∃ q r, divide a b = some (q, r) ∧
      ∀ x y, divideCall a b x y = (false, q, r) := by
    intro h
    cases hd : divide a b with
    | none => exact absurd (hnone.1 hd) h
    | some p =>
      refine ⟨p.1, p.2, rfl, fun x y => ?_⟩
      unfold divideCall
      rw [hd]
  refine ⟨?_, hnone, ?_, ?_⟩
  · constructor
    · intro h
      by_contra hv
      obtain ⟨q, r, _, e⟩ := hsome hv
      rw [e q0 r0] at h
      exact Bool.noConfusion h
    · intro h
      rw [hzero h]
  · intro h
    refine ⟨hzero h q0 r0, ?_, ?_, ?_, ?_⟩
    · unfold operator_div; rw [hzero h]; rfl
    · unfold operator_mod; rw [hzero h]; rfl
    · unfold operator_div_assign; rw [hzero h]
    · unfold operator_mod_assign; rw [hzero h]
  · intro h
    obtain ⟨q, r, hd, e⟩ := hsome h
    refine ⟨q, r, hd, e q0 r0, ?_, ?_, ?_, ?_⟩
    · unfold operator_div; rw [e]; rfl
    · unfold operator_mod; rw [e]; rfl
    · unfold operator_div_assign; rw [e]
    · unfold operator_mod_assign; rw [e]

theorem divide_zero_error_witness :
    Normalized [0] ∧
    (((divideCall [7, 3] [0] [1] [2]).1 = true ↔ val [0] = 0) ∧
      (divide [7, 3] [0] = none ↔ val [0] = 0) ∧
      (val [0] = 0 →
        divideCall [7, 3] [0] [1] [2] = (true, [1], [2]) ∧
        operator_div [7, 3] [0] = none ∧ operator_mod [7, 3] [0] = none ∧
        operator_div_assign [7, 3] [0] = (true, [7, 3]) ∧
        operator_mod_assign [7, 3] [0] = (true, [7, 3])) ∧
      (val [0] ≠ 0 → ∃ q r, divide [7, 3] [0] = some (q, r) ∧
        divideCall [7, 3] [0] [1] [2] = (false, q, r) ∧
        operator_div [7, 3] [0] = some q ∧ operator_mod [7, 3] [0] = some r ∧
        operator_div_assign [7, 3] [0] = (false, q) ∧
        operator_mod_assign [7, 3] [0] = (false, r))) :=
  ⟨by decide, divide_zero_error [7, 3] [0] [1] [2] (by decide)⟩

/-- Claim C12: for normalized `a` and `b`, `compare a b` is -1, 0 or 1 as
`val a` is less than, equal to or greater than `val b`; the six comparison
operators agree with the order of the integers, so `<` is a strict total
order; for non-negative `a` and `b > a`: `b > a`, not `-b > a`, `b > -a`, not
`-b > -a`; and 5397481354897945467899151264 is less than
4399401354897945467876151264697. -/
theorem compare_orders (a b c : Words) (ha : Normalized a) (hb : Normalized b)
    (hc : Normalized c) :
    ((val a < val b → compare a b = -1) ∧ (val a = val b → compare a b = 0) ∧
        (val b < val a → compare a b = 1)) ∧
      ((operator_lt a b = true ↔ val a < val b) ∧ (operator_le a b = true ↔ val a ≤ val b) ∧
        (operator_gt a b = true ↔ val b < val a) ∧ (operator_ge a b = true ↔ val b ≤ val a) ∧
        (operator_eq a b = true ↔ val a = val b) ∧ (operator_ne a b = true ↔ val a ≠ val b)) ∧
      (operator_lt a a = false ∧
        (operator_lt a b = true → operator_lt b c = true → operator_lt a c = true) ∧
        (operator_lt a b = true ∨ a = b ∨ operator_lt b a = true)) ∧
      (0 ≤ val a → val a < val b →
        operator_gt b a = true ∧ operator_gt (negative b) a = false ∧
        operator_gt b (negative a) = true ∧
        operator_gt (negative b) (negative a) = false) ∧
      (∃ x y, string_to_integer "5397481354897945467899151264" = some x ∧
        string_to_integer "4399401354897945467876151264697" = some y ∧
        operator_lt x y = true) := by
  have oab := operators_iff ha hb
  have obc := operators_iff hb hc
  have oac := operators_iff ha hc
  have oba := operators_iff hb ha
  refine ⟨compare_cases ha hb, oab, ⟨?_, ?_, ?_⟩, ?_, ?_⟩
  · have := (operators_iff ha ha).1
    cases h : operator_lt a a with
    | false => rfl
    | true => exact absurd (this.1 h) (lt_irrefl _)
  · intro h1 h2
    exact oac.1.2 (lt_trans (oab.1.1 h1) (obc.1.1 h2))
  · rcases lt_trichotomy (val a) (val b) with h | h | h
    · exact Or.inl (oab.1.2 h)
    · exact Or.inr (Or.inl (Normalized_unique a b ha hb h))
    · exact Or.inr (Or.inr (oba.1.2 h))
  · intro h0 hlt
    have na := negative_spec ha.1
    have nb := negative_spec hb.1
    have f : ∀ x y : Words, Normalized x → Normalized y → ¬ (val y < val x) →
        operator_gt x y = false := by
      intro x y hx hy hnot
      cases h : operator_gt x y with
      | false => rfl
      | true => exact absurd ((operators_iff hx hy).2.2.1.1 h) hnot
    refine ⟨oba.2.2.1.2 hlt, f _ _ nb.1 ha (by rw [nb.2]; omega),
      (operators_iff hb na.1).2.2.1.2 (by rw [na.2]; omega),
      f _ _ nb.1 na.1 (by rw [nb.2, na.2]; omega)⟩
  · exact ⟨[968164256, 399585050, 1170392202], [1345193401, 439881698, 485361611, 444],
      by set_option maxRecDepth 100000 in decide,
      by set_option maxRecDepth 100000 in decide, by decide⟩

theorem compare_orders_witness :
    (Normalized [5, 3] ∧ Normalized [-7] ∧ Normalized [2]) ∧
    (((val [5, 3] < val [-7] → compare [5, 3] [-7] = -1) ∧
        (val [5, 3] = val [-7] → compare [5, 3] [-7] = 0) ∧
        (val [-7] < val [5, 3] → compare [5, 3] [-7] = 1)) ∧
      ((operator_lt [5, 3] [-7] = true ↔ val [5, 3] < val [-7]) ∧
        (operator_le [5, 3] [-7] = true ↔ val [5, 3] ≤ val [-7]) ∧
        (operator_gt [5, 3] [-7] = true ↔ val [-7] < val [5, 3]) ∧
        (operator_ge [5, 3] [-7] = true ↔ val [-7] ≤ val [5, 3]) ∧
        (operator_eq [5, 3] [-7] = true ↔ val [5, 3] = val [-7]) ∧
        (operator_ne [5, 3] [-7] = true ↔ val [5, 3] ≠ val [-7])) ∧
      (operator_lt [5, 3] [5, 3] = false ∧
        (operator_lt [5, 3] [-7] = true → operator_lt [-7] [2] = true →
          operator_lt [5, 3] [2] = true) ∧
        (operator_lt [5, 3] [-7] = true ∨ [5, 3] = [-7] ∨ operator_lt [-7] [5, 3] = true)) ∧
      (0 ≤ val [5, 3] → val [5, 3] < val [-7] →
        operator_gt [-7] [5, 3] = true ∧ operator_gt (negative [-7]) [5, 3] = false ∧
        operator_gt [-7] (negative [5, 3]) = true ∧
        operator_gt (negative [-7]) (negative [5, 3]) = false) ∧
      (∃ x y, string_to_integer "5397481354897945467899151264" = some x ∧
        string_to_integer "4399401354897945467876151264697" = some y ∧
        operator_lt x y = true)) :=
  ⟨by decide, compare_orders [5, 3] [-7] [2] (by decide) (by decide) (by decide)⟩

/-- Claim C13: for a string of decimal digits, optionally preceded by `-` at
position 0, the string constructor returns the normalized vector of the
integer that the digits denote (leading zeros allowed), negated when the
string starts with `-`. -/
theorem string_to_integer_value (s : String) (h : ValidDecimal s.data) :
    ∃ r, string_to_integer s = some r ∧ Normalized r ∧
      val r = if s.data.head? = some '-' then -decimalValue s.data.tail
        else decimalValue s.data := by
  obtain ⟨r, e, hn, hv⟩ := assignString_valid [] s h
  refine ⟨r, ?_, hn, hv⟩
  rw [string_to_integer_eq_assign [], e]
  simp

theorem string_to_integer_value_witness :
    ValidDecimal "-0012".data ∧
    ∃ r, string_to_integer "-0012" = some r ∧ Normalized r ∧
      val r = if "-0012".data.head? = some '-' then -decimalValue "-0012".data.tail
        else decimalValue "-0012".data :=
  ⟨by decide, string_to_integer_value "-0012" (by decide)⟩

/-- Claim C15: for every canonical decimal string `s` ("0", or an optional
`-` followed by digits whose first one is 1 to 9), parsing `s` returns a
vector whose rendering is `s`, character for character. -/
theorem canonical_string_round_trip (s : String) (h : CanonicalDecimal s.data) :
    ∃ r, string_to_integer s = some r ∧ Normalized r ∧ getString r = some s :=
  getString_parse s h

theorem canonical_string_round_trip_witness :
    CanonicalDecimal "-9903520300447984148205797375".data ∧
    ∃ r, string_to_integer "-9903520300447984148205797375" = some r ∧ Normalized r ∧
      getString r = some "-9903520300447984148205797375" :=
  ⟨by decide, canonical_string_round_trip "-9903520300447984148205797375" (by decide)⟩

/-- Claim C16: constructing an Integer from a string `s`, or assigning `s`
to an Integer, throws `invalid_argument` exactly when `s` holds a character
that is neither a decimal digit nor a `-` at position 0; otherwise it
succeeds; the empty string gives 0 and "Hola" is rejected. -/
theorem string_invalid_argument (this : Words) (s : String) :
    (string_to_integer s = none ↔ ¬ ValidDecimal s.data) ∧
      ((assignString this s).1 = true ↔ ¬ ValidDecimal s.data) ∧
      (¬ ValidDecimal s.data ↔
        ((∃ c ∈ s.data.tail, ¬ IsDigit c) ∨ ∃ c ∈ s.data.head?, ¬ IsDigit c ∧ c ≠ '-')) ∧
      (ValidDecimal s.data → ∃ r, string_to_integer s = some r ∧
        assignString this s = (false, r)) ∧
      string_to_integer "" = some [0] ∧ assignString this "" = (false, [0]) ∧
      string_to_integer "Hola" = none ∧ (assignString this "Hola").1 = true := by
  have hthrown := assignString_thrown_iff this s
  have hempty : assignString this "" = (false, [0]) := by
    unfold assignString
    rw [reset_eq]
    rfl
  have hhola : (assignString this "Hola").1 = true :=
    (assignString_thrown_iff this "Hola").2 (by decide)
  refine ⟨?_, hthrown, ?_, ?_, by decide, hempty, by decide, hhola⟩
  · rw [string_to_integer_eq_assign this, ← hthrown]
    cases (assignString this s).1 <;> simp
  · unfold ValidDecimal
    constructor
    · intro h
      by_contra hcon
      apply h
      constructor
      · intro c hc
        by_contra hnc
        exact hcon (Or.inl ⟨c, hc, hnc⟩)
      · intro c hc
        by_contra hnc
        exact hcon (Or.inr ⟨c, hc, fun hd => hnc (Or.inl hd), fun hm => hnc (Or.inr hm)⟩)
    · intro h hv
      rcases h with ⟨c, hc, hnc⟩ | ⟨c, hc, hnc, hm⟩
      · exact hnc (hv.1 c hc)
      · rcases hv.2 c hc with hd | hd
        · exact hnc hd
        · exact hm hd
  · intro hv
    obtain ⟨r, e, _⟩ := assignString_valid this s hv
    refine ⟨r, ?_, e⟩
    rw [string_to_integer_eq_assign this, e]
    simp

/-- Claim C17, counterexample: assigning "Hola" to an Integer that holds 5
throws, and the Integer then holds 0, not 5. -/
theorem assign_failure_not_preserved :
    ¬ ((assignString [5] "Hola").1 = true → (assignString [5] "Hola").2 = [5]) := by
  decide

/-- Claim C17, amended: when the assignment of a string throws the
invalid-format error, the Integer does not keep its previous value: the reset
at the start of `string_to_integer` has discarded it, so the state after the
failed assignment is the same whatever the Integer held before, and it is 0
when the last character of the string is the offending one, as in "Hola". -/
theorem assign_failure_state (this other : Words) (s : String)
    (h : (assignString this s).1 = true) :
    assignString this s = assignString other s ∧
      (∀ pre c, s.data = pre ++ [c] → ¬ IsDigit c → (assignString this s).2 = [0]) := by
  have hreset : assignString this s = assignString other s := by
    unfold assignString
    rw [reset_eq, reset_eq]
  refine ⟨hreset, fun pre c hs hc => ?_⟩
  unfold assignString at h ⊢
  rw [reset_eq] at h ⊢
  rw [hs, List.reverse_append, List.reverse_singleton, List.singleton_append] at h ⊢
  rw [stringRun, if_neg (show ¬ ('0' ≤ c ∧ c ≤ '9') from hc)] at h ⊢
  by_cases hm : pre.reverse = [] ∧ c = '-'
  · rw [if_pos hm, hm.1, stringRun] at h
    exact absurd h (by simp)
  · rw [if_neg hm]

theorem assign_failure_state_witness :
    (assignString [5] "Hola").1 = true ∧
    (assignString [5] "Hola" = assignString [7, 3] "Hola" ∧
      (∀ pre c, "Hola".data = pre ++ [c] → ¬ IsDigit c → (assignString [5] "Hola").2 = [0])) :=
  ⟨by decide, assign_failure_state [5] [7, 3] "Hola" (by decide)⟩

/-- Claim C18: for every native signed 64-bit integer `n`, the constructor
`Integer(n)` and the assignment `x = n`, whatever `x` held before, produce
the normalized word vector that denotes `n`; this covers 0, -1, `INT32_MIN`,
`INT64_MIN` and `INT64_MAX`. -/
theorem native_construct_assign (n : Int) (x : Words)
    (h1 : -9223372036854775808 ≤ n) (h2 : n < 9223372036854775808) :
    (Normalized (ofNative n) ∧ val (ofNative n) = n) ∧
      (Normalized (assignNative x n) ∧ val (assignNative x n) = n) ∧
      assignNative x n = ofNative n ∧
      (ofNative 0 = [0] ∧ ofNative (-1) = [-1] ∧ ofNative (-2147483648) = [-2147483648] ∧
        ofNative (-9223372036854775808) = [0, 0, -2] ∧
        ofNative 9223372036854775807 = [2147483647, 2147483647, 1]) := by
  have h := ofNative_spec h1 h2
  refine ⟨h, ?_, assignNative_eq x n, by decide⟩
  rw [assignNative_eq]
  exact h

theorem native_construct_assign_witness :
    (-9223372036854775808 ≤ (-9223372036854775808 : Int) ∧
      (-9223372036854775808 : Int) < 9223372036854775808) ∧
    ((Normalized (ofNative (-9223372036854775808)) ∧
        val (ofNative (-9223372036854775808)) = -9223372036854775808) ∧
      (Normalized (assignNative [5, 3] (-9223372036854775808)) ∧
        val (assignNative [5, 3] (-9223372036854775808)) = -9223372036854775808) ∧
      assignNative [5, 3] (-9223372036854775808) = ofNative (-9223372036854775808) ∧
      (ofNative 0 = [0] ∧ ofNative (-1) = [-1] ∧ ofNative (-2147483648) = [-2147483648] ∧
        ofNative (-9223372036854775808) = [0, 0, -2] ∧
        ofNative 9223372036854775807 = [2147483647, 2147483647, 1])) :=
  ⟨by decide, native_construct_assign (-9223372036854775808) [5, 3] (by decide) (by decide)⟩

/-- Claim C19, evaluation at the failing input: `Integer(2147483648)` is the
normalized two-word vector `[0, 1]`, its value 2147483648 fits in a
`long long`, and `getInt` throws `integer_conversion_error` on it, as on every
vector of two or more words. -/
theorem getInt_two_words :
    ofNative 2147483648 = [0, 1] ∧ Normalized [0, 1] ∧ val [0, 1] = 2147483648 ∧
      getInt (ofNative 2147483648) = none ∧
      (∀ ws : Words, getInt ws = none ↔ 2 ≤ ws.length) :=
  ⟨by decide, by decide, by decide, by decide, getInt_eq_none_iff⟩

/-- Claim C20: for every normalized `a`, `~a` is normalized and denotes
`-val a - 1`, the bitwise complement of `val a`, so `~a` is negative exactly
when `a` is not. -/
theorem bitwise_not_value (a : Words) (ha : Normalized a) :
    Normalized (bitwise_not a) ∧ val (bitwise_not a) = -(val a) - 1 ∧
      val (bitwise_not a) = ~~~ (val a) ∧
      (is_negative (bitwise_not a) = true ↔ is_negative a = false) := by
  have h := bitwise_not_spec ha.1
  refine ⟨h.1, h.2, ?_, ?_⟩
  · rw [h.2]
    cases val a with
    | ofNat n =>
      show -(Int.ofNat n) - 1 = Int.negSucc n
      rw [Int.negSucc_eq]; simp only [Int.ofNat_eq_coe]; omega
    | negSucc n =>
      show -(Int.negSucc n) - 1 = Int.ofNat n
      rw [Int.negSucc_eq]; simp only [Int.ofNat_eq_coe]; omega
  · rw [is_negative_iff h.1.1, h.2]
    have := is_negative_iff ha.1
    cases hn : is_negative a with
    | false =>
      rw [hn] at this
      have : ¬ val a < 0 := fun hh => Bool.noConfusion (this.2 hh)
      constructor
      · intro _; rfl
      · intro _; omega
    | true =>
      rw [hn] at this
      have := this.1 rfl
      constructor
      · intro hh; omega
      · intro hh; exact Bool.noConfusion hh

theorem bitwise_not_value_witness :
    Normalized [5, -3] ∧
    (Normalized (bitwise_not [5, -3]) ∧ val (bitwise_not [5, -3]) = -(val [5, -3]) - 1 ∧
      val (bitwise_not [5, -3]) = ~~~ (val [5, -3]) ∧
      (is_negative (bitwise_not [5, -3]) = true ↔ is_negative [5, -3] = false)) :=
  ⟨by decide, bitwise_not_value [5, -3] (by decide)⟩

/-! ## Bitwise NOT twice, and the shifts -/

theorem bitwise_not_not {a : Words} (h : Normalized a) : bitwise_not (bitwise_not a) = a := by
  have h1 := bitwise_not_spec h.1
  have h2 := bitwise_not_spec h1.1.1
  apply Normalized_unique _ _ h2.1 h
  rw [h2.2, h1.2]
  ring

theorem pow_B_eq (n : Nat) : (2147483648 : Int) ^ n = 2 ^ (31 * n) := by
  rw [pow_mul]; norm_num

theorem two_pow_lt_B_succ (d : Nat) : (2 : Int) ^ d < 2147483648 ^ (d / 31 + 1) := by
  rw [pow_B_eq]
  apply pow_lt_pow_right₀ (by norm_num)
  omega

theorem B_pow_le_two_pow (d : Nat) : (2147483648 : Int) ^ (d / 31) ≤ 2 ^ d := by
  rw [pow_B_eq]
  apply pow_le_pow_right₀ (by norm_num)
  omega

/-- Word count of a left shift. -/
theorem bitwise_shift_left_length {a : Words} (h : Normalized a) (d : Nat) :
    (bitwise_shift_left a d).length ≤ a.length + d / 31 + 1 := by
  obtain ⟨hn, hv⟩ := bitwise_shift_left_spec h d
  have hb := Proper_val_bounds h.1
  have h2 := two_pow_lt_B_succ d
  have hp : (0 : Int) < 2 ^ d := by positivity
  have hB : (0 : Int) < 2147483648 ^ a.length := by positivity
  have e : (2147483648 : Int) ^ (a.length + d / 31 + 1) =
      2147483648 ^ a.length * 2147483648 ^ (d / 31 + 1) := by
    rw [add_assoc, pow_add]
  apply length_le_of_bounds hn (by omega)
  · rw [hv, e]
    nlinarith
  · rw [hv, e]
    nlinarith

/-- Shifting a non-negative value left and then right by the same count
gives the vector back. -/
theorem shift_left_right {a : Words} (h : Normalized a) (h0 : 0 ≤ val a) (d : Nat) :
    bitwise_shift_right (bitwise_shift_left a d) d = a := by
  obtain ⟨hn, hv⟩ := bitwise_shift_left_spec h d
  obtain ⟨rn, rv, rz⟩ := bitwise_shift_right_spec hn.1 d
  have hp : (0 : Int) < 2 ^ d := by positivity
  apply Normalized_unique _ _ rn h
  by_cases hlen : d / 31 < (bitwise_shift_left a d).length
  · rw [rv hlen, hv]
    exact Int.mul_ediv_cancel _ (ne_of_gt hp)
  · have hle : (bitwise_shift_left a d).length ≤ d / 31 := by omega
    rw [rz hle]
    have hb := Proper_val_bounds hn.1
    have h1 := pow_B_mono hle
    have h2 := B_pow_le_two_pow d
    have hz : val a = 0 := by
      by_contra hne
      have : 1 ≤ val a := by omega
      rw [hv] at hb
      nlinarith
    rw [hz]
    decide

/-! ## The loop of power -/

/-- The loop of `power` stops by itself once the exponent is used up: more
iterations than the bits of the exponent change nothing. -/
theorem powerLoop_stable : ∀ (k : Nat) (result aux e : Words), Normalized e → 0 ≤ val e →
    val e < 2 ^ k → ∀ j, powerLoop (k + j) result aux e = powerLoop k result aux e := by
  intro k
  induction k with
  | zero =>
    intro result aux e he h0 hlt j
    have hz : is_zero e = true := (is_zero_iff he).2 (by rw [pow_zero] at hlt; omega)
    cases j with
    | zero => rfl
    | succ j =>
      rw [Nat.zero_add]
      show powerLoop (j + 1) result aux e = result
      rw [powerLoop, if_pos hz]
  | succ k ih =>
    intro result aux e he h0 hlt j
    rw [show k + 1 + j = (k + j) + 1 by omega, powerLoop, powerLoop]
    by_cases hz : is_zero e = true
    · rw [if_pos hz, if_pos hz]
    · rw [if_neg hz, if_neg hz]
      have hs := bitwise_shift_right_normalized he.1 1
      have hv := val_shift_right_one he.1
      apply ih _ _ _ hs
      · rw [hv]; omega
      · rw [hv]
        rw [pow_succ] at hlt
        omega

/-- With a non-negative exponent `power` returns, and its loop has reached
the exit test `exp_aux.is_zero()` within the iterations of the model. -/
theorem power_returns {a e : Words} (he : Normalized e) (h0 : is_negative e = false) :
    ∃ r, power a e = some r ∧
      ∀ j, powerLoop (31 * e.length + j) (ofNative 1) a e = r := by
  unfold power
  rw [h0]
  refine ⟨_, rfl, fun j => ?_⟩
  have hnn : 0 ≤ val e := by
    by_contra hc
    have := (is_negative_iff he.1).2 (by omega)
    rw [h0] at this
    exact Bool.noConfusion this
  have hb := Proper_val_bounds he.1
  exact powerLoop_stable _ _ _ _ he hnn (by rw [← pow_B_eq]; omega) j

/-! ## Decimal digits by index -/

theorem getD_reverse_index (l : List Char) (d : Char) {i : Nat} (h : i < l.length) :
    l.getD (l.length - i - 1) d = l.reverse.getD i d := by
  rw [List.getD_eq_getElem _ _ (by omega), List.getD_eq_getElem _ _ (by simpa using h),
    List.getElem_reverse]
  congr 1
  omega

/-- The digit of index `i` of a digit sequence, least significant first, is
the `i`-th decimal digit of the integer it denotes. -/
theorem decRev_digit : ∀ (l : List Char) (i : Nat), (∀ c ∈ l, IsDigit c) → i < l.length →
    decRev l / 10 ^ i % 10 = ((l.getD i ' ').toNat : Int) - 48
  | [], i, _, h => by simp at h
  | c :: t, 0, hd, _ => by
    have hr := digit_range (hd c (by simp))
    simp only [decRev, pow_zero, Int.ediv_one, List.getD_cons_zero]
    omega
  | c :: t, i + 1, hd, h => by
    have hr := digit_range (hd c (by simp))
    have ih := decRev_digit t i (fun x hx => hd x (List.mem_cons_of_mem _ hx))
      (by simpa using h)
    rw [List.getD_cons_succ, ← ih, decRev, pow_succ, mul_comm (10 ^ i) 10,
      ← ediv_ediv_pos _ (by norm_num) (by positivity)]
    congr 2
    omega

theorem toUInt32_sub (c : Nat) : toUInt32 (toUInt32 (c : Int) - 48) = toUInt32 ((c : Int) - 48) := by
  unfold toUInt32; omega

theorem toUInt32_digit {c : Char} (h : IsDigit c) :
    toUInt32 ((c.toNat : Int) - 48) = (c.toNat : Int) - 48 := by
  have := digit_range h
  unfold toUInt32; omega

/-- The string constructor on a valid string (the statement of
`assignString_valid` for the constructor). -/
theorem string_to_integer_valid (s : String) (h : ValidDecimal s.data) :
    ∃ r, string_to_integer s = some r ∧ Normalized r ∧
      val r = if s.data.head? = some '-' then -decimalValue s.data.tail
        else decimalValue s.data := by
  obtain ⟨r, e, hn, hv⟩ := assignString_valid [] s h
  refine ⟨r, ?_, hn, hv⟩
  rw [string_to_integer_eq_assign [], e]
  simp

theorem canonical_valid {cs : List Char} (h : CanonicalDecimal cs) : ValidDecimal cs := by
  rcases h with h | ⟨h, _⟩ | ⟨hs, h, _⟩
  · rw [h]; decide
  · exact ⟨fun c hc => h.1 c (List.mem_of_mem_tail hc),
      fun c hc => Or.inl (h.1 c (List.mem_of_mem_head? hc))⟩
  · refine ⟨fun c hc => h.1 c hc, fun c hc => Or.inr ?_⟩
    rw [hs] at hc
    simpa using hc.symm

/-- A canonical string that parses to a non-negative value has digits only,
and they denote the value. -/
theorem canonical_nonneg {s : String} (h : CanonicalDecimal s.data) {r : Words}
    (hr : string_to_integer s = some r) (h0 : 0 ≤ val r) :
    (∀ c ∈ s.data, IsDigit c) ∧ val r = decimalValue s.data := by
  obtain ⟨r', e, _, hv⟩ := string_to_integer_valid s (canonical_valid h)
  rw [hr] at e
  simp only [Option.some.injEq] at e
  subst e
  rcases h with h | ⟨h, hne⟩ | ⟨hs, h, hne⟩
  · rw [h] at hv ⊢
    exact ⟨by decide, by rw [hv]; decide⟩
  · obtain ⟨_, _, hm⟩ := canonicalDigits_head h hne
    rw [if_neg hm] at hv
    exact ⟨h.1, hv⟩
  · rw [if_pos hs] at hv
    have := canonical_pos h hne
    omega

/-- The const access operator on the vector parsed from a canonical string. -/
theorem access_parsed (s : String) (h : CanonicalDecimal s.data) :
    ∃ r, string_to_integer s = some r ∧ Normalized r ∧ integer_to_string r = some s ∧
      (∀ i, i < s.length → access r i = some (digitAt s i)) ∧
      (∀ i, s.length ≤ i → access r i = none) := by
  obtain ⟨r, e, hn, hg⟩ := getString_parse s h
  have hg' : integer_to_string r = some s := hg
  refine ⟨r, e, hn, hg', fun i hi => ?_, fun i hi => ?_⟩
  · unfold access
    rw [hg']
    simp only
    rw [if_neg (by omega)]
  · unfold access
    rw [hg']
    simp only
    rw [if_pos hi]

/-! ## Bitwise AND and OR of integers, word by word -/

/-- A bitwise operation splits at bit `k`: the low `k` bits of the operands
combine apart from the bits above them. -/
theorem bitop_split (f : Int → Int → Int) (g : Bool → Bool → Bool)
    (hf : ∀ a m b n, f (Int.bit a m) (Int.bit b n) = Int.bit (g a b) (f m n))
    (h0 : f 0 0 = 0) :
    ∀ (k : Nat) (x0 y0 x1 y1 : Int), 0 ≤ x0 → x0 < 2 ^ k → 0 ≤ y0 → y0 < 2 ^ k →
      f (x0 + 2 ^ k * x1) (y0 + 2 ^ k * y1) = f x0 y0 + 2 ^ k * f x1 y1 := by
  intro k
  induction k with
  | zero =>
    intro x0 y0 x1 y1 hx0 hx1 hy0 hy1
    have ex : x0 = 0 := by rw [pow_zero] at hx1; omega
    have ey : y0 = 0 := by rw [pow_zero] at hy1; omega
    subst ex ey
    simp [h0]
  | succ k ih =>
    intro x0 y0 x1 y1 hx0 hx1 hy0 hy1
    have dx := Int.bit_decomp x0
    have dy := Int.bit_decomp y0
    rw [Int.bit_val] at dx dy
    have vx := Int.div2_val x0
    have vy := Int.div2_val y0
    rw [pow_succ] at hx1 hy1
    have bx : 0 ≤ Int.div2 x0 ∧ Int.div2 x0 < 2 ^ k := by rw [vx]; omega
    have by' : 0 ≤ Int.div2 y0 ∧ Int.div2 y0 < 2 ^ k := by rw [vy]; omega
    have e1 : x0 + 2 ^ (k + 1) * x1 = Int.bit (Int.bodd x0) (Int.div2 x0 + 2 ^ k * x1) := by
      rw [Int.bit_val, pow_succ]; linear_combination -dx
    have e2 : y0 + 2 ^ (k + 1) * y1 = Int.bit (Int.bodd y0) (Int.div2 y0 + 2 ^ k * y1) := by
      rw [Int.bit_val, pow_succ]; linear_combination -dy
    have e3 : f x0 y0 = Int.bit (g (Int.bodd x0) (Int.bodd y0))
        (f (Int.div2 x0) (Int.div2 y0)) := by
      rw [← hf, Int.bit_decomp, Int.bit_decomp]
    rw [e1, e2, hf, ih _ _ _ _ bx.1 bx.2 by'.1 by'.2, e3, Int.bit_val, Int.bit_val, pow_succ]
    ring

theorem land_split (k : Nat) (x0 y0 x1 y1 : Int) (hx0 : 0 ≤ x0) (hx1 : x0 < 2 ^ k)
    (hy0 : 0 ≤ y0) (hy1 : y0 < 2 ^ k) :
    Int.land (x0 + 2 ^ k * x1) (y0 + 2 ^ k * y1) = Int.land x0 y0 + 2 ^ k * Int.land x1 y1 :=
  bitop_split Int.land and Int.land_bit rfl k x0 y0 x1 y1 hx0 hx1 hy0 hy1

theorem lor_split (k : Nat) (x0 y0 x1 y1 : Int) (hx0 : 0 ≤ x0) (hx1 : x0 < 2 ^ k)
    (hy0 : 0 ≤ y0) (hy1 : y0 < 2 ^ k) :
    Int.lor (x0 + 2 ^ k * x1) (y0 + 2 ^ k * y1) = Int.lor x0 y0 + 2 ^ k * Int.lor x1 y1 :=
  bitop_split Int.lor or Int.lor_bit rfl k x0 y0 x1 y1 hx0 hx1 hy0 hy1

theorem ldiff_zero_left (n : Nat) : Nat.ldiff 0 n = 0 := by
  apply Nat.eq_of_testBit_eq
  intro i
  simp [Nat.testBit_ldiff]

theorem land_zero_right (x : Int) : Int.land x 0 = 0 := by
  cases x with
  | ofNat m => show ((m &&& 0 : Nat) : Int) = 0; simp
  | negSucc m => show ((Nat.ldiff 0 m : Nat) : Int) = 0; rw [ldiff_zero_left]; rfl

theorem land_zero_left (x : Int) : Int.land 0 x = 0 := by
  cases x with
  | ofNat m => show ((0 &&& m : Nat) : Int) = 0; simp
  | negSucc m => show ((Nat.ldiff 0 m : Nat) : Int) = 0; rw [ldiff_zero_left]; rfl

theorem land_neg_one_right (x : Int) : Int.land x (-1) = x := by
  cases x with
  | ofNat m => show ((Nat.ldiff m 0 : Nat) : Int) = m; simp [Nat.ldiff]
  | negSucc m => show Int.negSucc (m ||| 0) = Int.negSucc m; simp

theorem land_neg_one_left (x : Int) : Int.land (-1) x = x := by
  cases x with
  | ofNat m => show ((Nat.ldiff m 0 : Nat) : Int) = m; simp [Nat.ldiff]
  | negSucc m => show Int.negSucc (0 ||| m) = Int.negSucc m; simp

theorem lor_zero_right (x : Int) : Int.lor x 0 = x := by
  cases x with
  | ofNat m => show ((m ||| 0 : Nat) : Int) = m; simp
  | negSucc m => show Int.negSucc (Nat.ldiff m 0) = Int.negSucc m; simp [Nat.ldiff]

theorem lor_zero_left (x : Int) : Int.lor 0 x = x := by
  cases x with
  | ofNat m => show ((0 ||| m : Nat) : Int) = m; simp
  | negSucc m => show Int.negSucc (Nat.ldiff m 0) = Int.negSucc m; simp [Nat.ldiff]

theorem lor_neg_one_right (x : Int) : Int.lor x (-1) = -1 := by
  cases x with
  | ofNat m => show Int.negSucc (Nat.ldiff 0 m) = -1; rw [ldiff_zero_left]; rfl
  | negSucc m => show Int.negSucc (m &&& 0) = -1; simp

theorem lor_neg_one_left (x : Int) : Int.lor (-1) x = -1 := by
  cases x with
  | ofNat m => show Int.negSucc (Nat.ldiff 0 m) = -1; rw [ldiff_zero_left]; rfl
  | negSucc m => show Int.negSucc (0 &&& m) = -1; simp

/-! ## AND and OR on 31-bit words -/

theorem land_word (x y X Y : Int) (hx : 0 ≤ x ∧ x < 2147483648)
    (hy : 0 ≤ y ∧ y < 2147483648) :
    Int.land (x + 2147483648 * X) (y + 2147483648 * Y)
      = Int.land x y + 2147483648 * Int.land X Y := by
  have := land_split 31 x y X Y hx.1 (by norm_num; exact hx.2) hy.1 (by norm_num; exact hy.2)
  norm_num at this
  exact this

theorem lor_word (x y X Y : Int) (hx : 0 ≤ x ∧ x < 2147483648)
    (hy : 0 ≤ y ∧ y < 2147483648) :
    Int.lor (x + 2147483648 * X) (y + 2147483648 * Y)
      = Int.lor x y + 2147483648 * Int.lor X Y := by
  have := lor_split 31 x y X Y hx.1 (by norm_num; exact hx.2) hy.1 (by norm_num; exact hy.2)
  norm_num at this
  exact this

/-- A signed 32-bit word is its low 31 bits plus the sign extension. -/
theorem word_decomp {t : Int} (h : -2147483648 ≤ t ∧ t < 2147483648) :
    t = low31 t + 2147483648 * (if t < 0 then -1 else 0) ∧
      0 ≤ low31 t ∧ low31 t < 2147483648 := by
  unfold low31
  split_ifs <;> omega

theorem low31_of_low {t : Int} (h : 0 ≤ t ∧ t < 2147483648) : low31 t = t := by
  unfold low31; omega

/-- AND of a low word extended by `X` with a non-negative top word. -/
theorem land_top_low (x y X : Int) (hx : 0 ≤ x ∧ x < 2147483648)
    (hy : 0 ≤ y ∧ y < 2147483648) :
    Int.land (x + 2147483648 * X) y = Int.land x y := by
  have := land_word x y X 0 hx hy
  rw [land_zero_right] at this
  simp only [mul_zero, add_zero] at this
  exact this

/-- AND of a low word extended by `X` with a negative top word. -/
theorem land_top_neg (x y X : Int) (hx : 0 ≤ x ∧ x < 2147483648)
    (hy : -2147483648 ≤ y ∧ y < 0) :
    Int.land (x + 2147483648 * X) y = Int.land x y + 2147483648 * X := by
  have hd := word_decomp (t := y) ⟨hy.1, by omega⟩
  rw [if_pos hy.2] at hd
  have h1 := land_word x (low31 y) X (-1) hx hd.2
  have h2 := land_word x (low31 y) 0 (-1) hx hd.2
  rw [← hd.1, land_neg_one_right] at h1
  rw [← hd.1, land_zero_left] at h2
  simp only [mul_zero, add_zero] at h2
  rw [h1, h2]

/-- OR of a low word extended by `X` with a non-negative top word. -/
theorem lor_top_low (x y X : Int) (hx : 0 ≤ x ∧ x < 2147483648)
    (hy : 0 ≤ y ∧ y < 2147483648) :
    Int.lor (x + 2147483648 * X) y = Int.lor x y + 2147483648 * X := by
  have := lor_word x y X 0 hx hy
  rw [lor_zero_right] at this
  simp only [mul_zero, add_zero] at this
  exact this

/-- OR of a low word extended by `X` with a negative top word. -/
theorem lor_top_neg (x y X : Int) (hx : 0 ≤ x ∧ x < 2147483648)
    (hy : -2147483648 ≤ y ∧ y < 0) :
    Int.lor (x + 2147483648 * X) y = Int.lor x (low31 y) - 2147483648 := by
  have hd := word_decomp (t := y) ⟨hy.1, by omega⟩
  rw [if_pos hy.2] at hd
  have h1 := lor_word x (low31 y) X (-1) hx hd.2
  rw [← hd.1, lor_neg_one_right] at h1
  rw [h1]; ring

/-- OR of two top words: the words are combined with the sign bit of the
second masked, and the sign bit is set afterwards when either is negative. -/
theorem lor_top_top (x y : Int) (hx : -2147483648 ≤ x ∧ x < 2147483648)
    (hy : -2147483648 ≤ y ∧ y < 2147483648) :
    (if x < 0 ∨ y < 0 then setSignBit (Int.lor x (low31 y)) else Int.lor x (low31 y))
      = Int.lor x y := by
  have dx := word_decomp hx
  have dy := word_decomp hy
  have h1 := lor_word (low31 x) (low31 y) (if x < 0 then -1 else 0) (if y < 0 then -1 else 0)
    dx.2 dy.2
  have h2 := lor_word (low31 x) (low31 y) (if x < 0 then -1 else 0) 0 dx.2 dy.2
  rw [← dx.1, ← dy.1] at h1
  simp only [mul_zero, add_zero] at h2
  rw [← dx.1] at h2
  have hl := lor_low dx.2 dy.2
  by_cases cx : x < 0
  · rw [if_pos cx, lor_neg_one_left] at h1
    rw [if_pos cx, lor_neg_one_left] at h2
    rw [if_pos (Or.inl cx), h1, h2]
    unfold setSignBit
    rw [if_pos (by omega)]
  · rw [if_neg cx, lor_zero_left] at h1
    rw [if_neg cx, lor_zero_right] at h2
    by_cases cy : y < 0
    · rw [if_pos cy] at h1
      rw [if_pos (Or.inr cy), h1, h2]
      unfold setSignBit
      rw [if_neg (by omega)]
      ring
    · rw [if_neg cy] at h1
      rw [if_neg (by tauto), h1, h2]

/-! ## The word loops of bitwise_and and bitwise_or, by value -/

/-- AND word by word on the common low words: the bits above them combine
apart. -/
theorem andWords_val : ∀ (l ln : Words), Low l → Low ln → l.length = ln.length →
    ∀ X Y : Int, Int.land (val l + 2147483648 ^ l.length * X)
        (val ln + 2147483648 ^ l.length * Y)
      = val (andWords l.length l ln) + 2147483648 ^ l.length * Int.land X Y
  | [], [], _, _, _, X, Y => by simp [val, andWords]
  | [], _ :: _, _, _, h, _, _ => by simp at h
  | _ :: _, [], _, _, h, _, _ => by simp at h
  | t :: l, w :: ln, hl, hln, h, X, Y => by
    rw [Low_cons] at hl hln
    have ih := andWords_val l ln hl.2 hln.2 (by simpa using h) X Y
    have e1 : val (t :: l) + 2147483648 ^ (t :: l).length * X
        = t + 2147483648 * (val l + 2147483648 ^ l.length * X) := by
      rw [val_cons, List.length_cons, pow_succ]; ring
    have e2 : val (w :: ln) + 2147483648 ^ (t :: l).length * Y
        = w + 2147483648 * (val ln + 2147483648 ^ l.length * Y) := by
      rw [val_cons, List.length_cons, pow_succ]; ring
    rw [e1, e2, land_word _ _ _ _ hl.1 hln.1, ih]
    simp only [List.length_cons, andWords, val_cons, pow_succ]
    ring

/-- OR word by word on the common low words. -/
theorem orWords_val : ∀ (l ln : Words), Low l → Low ln → l.length = ln.length →
    ∀ X Y : Int, Int.lor (val l + 2147483648 ^ l.length * X)
        (val ln + 2147483648 ^ l.length * Y)
      = val (orWords l.length l ln) + 2147483648 ^ l.length * Int.lor X Y
  | [], [], _, _, _, X, Y => by simp [val, orWords]
  | [], _ :: _, _, _, h, _, _ => by simp at h
  | _ :: _, [], _, _, h, _, _ => by simp at h
  | t :: l, w :: ln, hl, hln, h, X, Y => by
    rw [Low_cons] at hl hln
    have ih := orWords_val l ln hl.2 hln.2 (by simpa using h) X Y
    have e1 : val (t :: l) + 2147483648 ^ (t :: l).length * X
        = t + 2147483648 * (val l + 2147483648 ^ l.length * X) := by
      rw [val_cons, List.length_cons, pow_succ]; ring
    have e2 : val (w :: ln) + 2147483648 ^ (t :: l).length * Y
        = w + 2147483648 * (val ln + 2147483648 ^ l.length * Y) := by
      rw [val_cons, List.length_cons, pow_succ]; ring
    rw [e1, e2, lor_word _ _ _ _ hl.1 hln.1, ih]
    simp only [List.length_cons, orWords, val_cons, pow_succ, low31_of_low hln.1]
    ring

/-- The loop of `bitwise_and` over `k + 1` words: the common low words, the
word of index `k`, and the words of the first operand above it. -/
theorem andWords_split : ∀ (l1 ln : Words) (u w : Int) (r rn : Words),
    l1.length = ln.length →
    andWords (l1.length + 1) (l1 ++ u :: r) (ln ++ w :: rn)
      = andWords l1.length l1 ln ++ Int.land u w :: r
  | [], [], u, w, r, rn, _ => by
    simp only [List.nil_append, List.length_nil, Nat.zero_add, andWords]
  | [], _ :: _, _, _, _, _, h => by simp at h
  | _ :: _, [], _, _, _, _, h => by simp at h
  | a :: l1, b :: ln, u, w, r, rn, h => by
    have ih := andWords_split l1 ln u w r rn (by simpa using h)
    simp only [List.cons_append, List.length_cons, andWords, List.append_eq, ih]

/-- The loop of `bitwise_or` over `k + 1` words. -/
theorem orWords_split : ∀ (l1 ln : Words) (u w : Int) (r rn : Words),
    l1.length = ln.length →
    orWords (l1.length + 1) (l1 ++ u :: r) (ln ++ w :: rn)
      = orWords l1.length l1 ln ++ Int.lor u (low31 w) :: r
  | [], [], u, w, r, rn, _ => by
    simp only [List.nil_append, List.length_nil, Nat.zero_add, orWords]
  | [], _ :: _, _, _, _, _, h => by simp at h
  | _ :: _, [], _, _, _, _, h => by simp at h
  | a :: l1, b :: ln, u, w, r, rn, h => by
    have ih := orWords_split l1 ln u w r rn (by simpa using h)
    simp only [List.cons_append, List.length_cons, orWords, List.append_eq, ih]

theorem orWords_low : ∀ (k : Nat) (ts ws : Words), Low ts → Low (orWords k ts ws)
  | 0, ts, ws, h => by simpa [orWords] using h
  | k + 1, [], ws, h => by simpa [orWords] using h
  | k + 1, t :: ts, [], h => by simpa [orWords] using h
  | k + 1, t :: ts, w :: ws, h => by
    rw [Low_cons] at h
    simp only [orWords]
    rw [Low_cons]
    exact ⟨lor_low h.1 ⟨low31_nonneg _, low31_lt _⟩, orWords_low k ts ws h.2⟩

/-- A well-formed vector of more than `k + 1` words, cut after `k` words. -/
theorem split_at {ws : Words} (h : Normalized ws) {k : Nat} (hk : k + 1 < ws.length) :
    ∃ l u r' t, ws = l ++ u :: (r' ++ [t]) ∧ l.length = k ∧ Low l ∧
      (0 ≤ u ∧ u < 2147483648) ∧ Low r' ∧ (-2147483648 ≤ t ∧ t < 2147483648) ∧
      t ≠ 0 ∧ t ≠ -1 := by
  obtain ⟨l0, t, rfl, -, -⟩ := Proper_iff.1 h.1
  obtain ⟨hl0, ht, hne⟩ := Normalized_append_singleton.1 h
  have hk' : k < l0.length := by simp at hk; omega
  have hl0ne : l0 ≠ [] := by intro hh; rw [hh] at hk'; simp at hk'
  have e : l0 = l0.take k ++ l0[k] :: l0.drop (k + 1) := by
    conv_lhs => rw [← List.take_append_drop k l0]
    rw [List.drop_eq_getElem_cons hk']
  refine ⟨l0.take k, l0[k], l0.drop (k + 1), t, ?_, ?_, Low_take hl0 k, ?_, Low_drop hl0 _,
    ht, (hne hl0ne).1, (hne hl0ne).2⟩
  · have e2 : l0 ++ [t] = (l0.take k ++ l0[k] :: l0.drop (k + 1)) ++ [t] := by rw [← e]
    exact e2.trans (by rw [List.append_assoc, List.cons_append])
  · rw [List.length_take]; omega
  · exact hl0 _ (List.getElem_mem _)

/-! ## resize on the operands of bitwise_and and bitwise_or -/

/-- Shrinking a vector whose top word is not -1 keeps the low words and
drops the sign. -/
theorem resize_shrink (l : Words) (u : Int) (r' : Words) (t : Int) (hne : t ≠ -1)
    (ht : -2147483648 ≤ t ∧ t < 2147483648) :
    resize (l ++ u :: (r' ++ [t])) (l.length + 1) = l ++ [u] := by
  have e : l ++ u :: (r' ++ [t]) = (l ++ u :: r') ++ [t] := by simp
  have hlen : (l ++ [u]).length = l.length + 1 := by simp
  by_cases hneg : t < 0
  · unfold resize
    rw [e, back_append_singleton, if_pos ⟨by simp, hneg⟩]
    simp only [setBack_append_singleton]
    have e2 : (l ++ u :: r') ++ [low31 t] = (l ++ [u]) ++ (r' ++ [low31 t]) := by simp
    rw [e2]
    have hd : List.drop (l.length + 1) ((l ++ [u]) ++ (r' ++ [low31 t])) = r' ++ [low31 t] := by
      rw [← hlen]; exact List.drop_left _ _
    have ht' : List.take (l.length + 1) ((l ++ [u]) ++ (r' ++ [low31 t])) = l ++ [u] := by
      rw [← hlen]; exact List.take_left _ _
    have hlow : low31 t ≠ INT32_MAX := by unfold low31 INT32_MAX; omega
    have hall : (r' ++ [low31 t]).all (fun w => decide (w = INT32_MAX)) = false := by
      simp [hlow]
    simp only [hd, hall, vecResize, ht']
    have : l.length + 1 - (l ++ [u] ++ (r' ++ [low31 t])).length = 0 := by simp
    rw [this]
    simp
  · rw [resize_take_of_nonneg (Or.inr (by rw [e, back_append_singleton]; omega))
      (by simp)]
    have e3 : l ++ u :: (r' ++ [t]) = (l ++ [u]) ++ (r' ++ [t]) := by simp
    rw [e3, ← hlen]
    exact List.take_left _ _

/-- Growing a negative vector keeps its low words and the low 31 bits of its
top word below the padding. -/
theorem resize_grow_neg (l : Words) (t : Int) (hneg : t < 0) {m : Nat}
    (hm : l.length + 1 < m) :
    (resize (l ++ [t]) m).take (l.length + 1) = l ++ [low31 t] := by
  unfold resize
  rw [back_append_singleton, if_pos ⟨by simp, hneg⟩]
  simp only [setBack_append_singleton]
  have hd : List.drop m (l ++ [low31 t]) = [] := by
    apply List.drop_eq_nil_of_le
    simp; omega
  simp only [hd, List.all_nil, if_true]
  unfold setBack
  rw [take_set_of_le _ _ _ _ (by rw [vecResize_length]; omega)]
  unfold vecResize
  have ht' : List.take m (l ++ [low31 t]) = l ++ [low31 t] := by
    apply List.take_of_length_le; simp; omega
  rw [ht']
  have e : l.length + 1 = (l ++ [low31 t]).length := by simp
  rw [e, List.take_left]

/-- Growing a non-negative vector pads it with zero words. -/
theorem resize_grow_nonneg (l : Words) (t : Int) (h0 : 0 ≤ t) {m : Nat}
    (hm : l.length + 1 < m) :
    (resize (l ++ [t]) m).take (l.length + 1) = l ++ [t] := by
  rw [resize_of_nonneg (Or.inr (by rw [back_append_singleton]; exact h0))]
  unfold vecResize
  have ht' : List.take m (l ++ [t]) = l ++ [t] := by
    apply List.take_of_length_le; simp; omega
  rw [ht']
  have e : l.length + 1 = (l ++ [t]).length := by simp
  rw [e, List.take_left]

theorem is_negative_append (l : Words) (t : Int) :
    is_negative (l ++ [t]) = true ↔ t < 0 := by
  simp [is_negative, back_append_singleton]

theorem val_split3 (l : Words) (u : Int) (r : Words) :
    val (l ++ u :: r) = val l + 2147483648 ^ l.length * (u + 2147483648 * val r) := by
  rw [val_append, val_cons]

/-! ## bitwise_and by value -/

/-- AND of a non-negative top word with a low word extended by `Y`. -/
theorem land_low_ext (x y Y : Int) (hx : 0 ≤ x ∧ x < 2147483648)
    (hy : 0 ≤ y ∧ y < 2147483648) :
    Int.land x (y + 2147483648 * Y) = Int.land x y := by
  have := land_word x y 0 Y hx hy
  rw [land_zero_left] at this
  simp only [mul_zero, add_zero] at this
  exact this

/-- AND of a negative top word with a low word extended by `Y`. -/
theorem land_neg_ext (x y Y : Int) (hx : -2147483648 ≤ x ∧ x < 0)
    (hy : 0 ≤ y ∧ y < 2147483648) :
    Int.land x (y + 2147483648 * Y) = Int.land (low31 x) y + 2147483648 * Y := by
  have hd := word_decomp (t := x) ⟨hx.1, by omega⟩
  rw [if_pos hx.2] at hd
  have h1 := land_word (low31 x) y (-1) Y hd.2 hy
  rw [← hd.1, land_neg_one_left] at h1
  exact h1

theorem drop_split (l : Words) (u : Int) (r : Words) :
    (l ++ u :: r).drop (l.length + 1) = r := by
  have e : l ++ u :: r = (l ++ [u]) ++ r := by simp
  have hlen : (l ++ [u]).length = l.length + 1 := by simp
  rw [e, ← hlen]
  exact List.drop_left _ _

theorem Proper_top (r' : Words) (t : Int) (hr : Low r')
    (ht : -2147483648 ≤ t ∧ t < 2147483648) : Proper (r' ++ [t]) :=
  Proper_append_singleton.2 ⟨hr, ht⟩

/-- When the first operand is the shorter one. -/
theorem bitwise_and_val_shorter {a n : Words} (ha : Normalized a) (hn : Normalized n)
    (hlt : a.length < n.length) :
    val (bitwise_and a n) = Int.land (val a) (val n) := by
  obtain ⟨la, ta, rfl, -, -⟩ := Proper_iff.1 ha.1
  obtain ⟨hla, hta, -⟩ := Normalized_append_singleton.1 ha
  obtain ⟨l2, w, r', t, rfl, hk, hl2, hw, hr', ht, -, -⟩ :=
    split_at hn (k := la.length) (by simpa using hlt)
  have hlenA : (la ++ [ta]).length = la.length + 1 := by simp
  have hlenN : (l2 ++ w :: (r' ++ [t])).length = la.length + (r'.length + 2) := by
    simp [hk]
  have hmin : min (la ++ [ta]).length (l2 ++ w :: (r' ++ [t])).length = la.length + 1 := by
    rw [hlenA, hlenN]; omega
  have c1 : ¬ ((l2 ++ w :: (r' ++ [t])).length < (la ++ [ta]).length ∧
      ¬ is_negative (l2 ++ w :: (r' ++ [t])) = true) := by
    rw [hlenA, hlenN]; intro h; omega
  have hval : Int.land (val (la ++ [ta])) (val (l2 ++ w :: (r' ++ [t])))
      = val (andWords la.length la l2) + 2147483648 ^ la.length *
          Int.land ta (w + 2147483648 * val (r' ++ [t])) := by
    rw [val_append, val_singleton, val_split3, hk]
    exact andWords_val la l2 hla hl2 hk.symm _ _
  have hlow := andWords_low_left la.length la l2 hla
  have hlen := andWords_length la.length la l2
  simp only [bitwise_and, hmin]
  rw [if_neg c1, hval]
  by_cases hneg : ta < 0
  · have c2 : (l2 ++ w :: (r' ++ [t])).length > (la ++ [ta]).length ∧
        is_negative (la ++ [ta]) = true :=
      ⟨hlt, (is_negative_append la ta).2 hneg⟩
    rw [if_pos c2, resize_grow_neg la ta hneg (by rw [hlenN]; omega), ← hk, drop_split,
      hk]
    have e : (la ++ [low31 ta]) ++ (r' ++ [t]) = la ++ low31 ta :: (r' ++ [t]) := by simp
    rw [e, andWords_split la l2 _ _ _ _ hk.symm]
    have hp : Proper (andWords la.length la l2 ++ Int.land (low31 ta) w :: (r' ++ [t])) :=
      Proper_append_low hlow
        (Proper_cons (land_low_right _ hw) (Proper_top r' t hr' ht))
    rw [val_fix hp, val_split3, hlen, land_neg_ext ta w _ ⟨hta.1, hneg⟩ hw]
  · have c2 : ¬ ((l2 ++ w :: (r' ++ [t])).length > (la ++ [ta]).length ∧
        is_negative (la ++ [ta]) = true) := by
      intro h
      exact hneg ((is_negative_append la ta).1 h.2)
    rw [if_neg c2, andWords_split la l2 _ _ _ _ hk.symm]
    have hta' : 0 ≤ ta ∧ ta < 2147483648 := ⟨by omega, hta.2⟩
    have hp : Proper (andWords la.length la l2 ++ [Int.land ta w]) :=
      Proper_append_singleton.2 ⟨hlow, by have := land_low_left hta' w; omega⟩
    rw [val_fix hp, val_append, val_singleton, hlen, land_low_ext ta w _ hta' hw]

/-- When the second operand is the shorter one. -/
theorem bitwise_and_val_longer {a n : Words} (ha : Normalized a) (hn : Normalized n)
    (hgt : n.length < a.length) :
    val (bitwise_and a n) = Int.land (val a) (val n) := by
  obtain ⟨ln, tn, rfl, -, -⟩ := Proper_iff.1 hn.1
  obtain ⟨hln, htn, -⟩ := Normalized_append_singleton.1 hn
  obtain ⟨l1, u, r', t, rfl, hk, hl1, hu, hr', ht, -, ht1⟩ :=
    split_at ha (k := ln.length) (by simpa using hgt)
  have hlenN : (ln ++ [tn]).length = l1.length + 1 := by simp [hk]
  have hlenA : (l1 ++ u :: (r' ++ [t])).length = l1.length + (r'.length + 2) := by
    simp
  have hmin : min (l1 ++ u :: (r' ++ [t])).length (ln ++ [tn]).length = l1.length + 1 := by
    rw [hlenA, hlenN]; omega
  have hval : Int.land (val (l1 ++ u :: (r' ++ [t]))) (val (ln ++ [tn]))
      = val (andWords l1.length l1 ln) + 2147483648 ^ l1.length *
          Int.land (u + 2147483648 * val (r' ++ [t])) tn := by
    rw [val_append ln, val_singleton, val_split3, ← hk]
    exact andWords_val l1 ln hl1 hln hk _ _
  have hlow := andWords_low_left l1.length l1 ln hl1
  have hlen := andWords_length l1.length l1 ln
  have e0 : ln ++ [tn] = ln ++ tn :: [] := rfl
  simp only [bitwise_and, hmin]
  rw [hval]
  by_cases hneg : tn < 0
  · have c1 : ¬ ((ln ++ [tn]).length < (l1 ++ u :: (r' ++ [t])).length ∧
        ¬ is_negative (ln ++ [tn]) = true) := by
      intro h
      exact h.2 ((is_negative_append ln tn).2 hneg)
    have c2 : ¬ ((ln ++ [tn]).length > (l1 ++ u :: (r' ++ [t])).length ∧
        is_negative (l1 ++ u :: (r' ++ [t])) = true) := by
      rw [hlenA, hlenN]; intro h; omega
    rw [if_neg c1, if_neg c2, e0, andWords_split l1 ln _ _ _ _ hk]
    have hp : Proper (andWords l1.length l1 ln ++ Int.land u tn :: (r' ++ [t])) :=
      Proper_append_low hlow
        (Proper_cons (land_low_left hu tn) (Proper_top r' t hr' ht))
    rw [val_fix hp, val_split3, hlen, land_top_neg u tn _ hu ⟨htn.1, hneg⟩]
  · have c1 : (ln ++ [tn]).length < (l1 ++ u :: (r' ++ [t])).length ∧
        ¬ is_negative (ln ++ [tn]) = true :=
      ⟨hgt, fun h => hneg ((is_negative_append ln tn).1 h)⟩
    have htn' : 0 ≤ tn ∧ tn < 2147483648 := ⟨by omega, htn.2⟩
    rw [if_pos c1, hlenN, resize_shrink l1 u r' t ht1 ht]
    have e1 : l1 ++ [u] = l1 ++ u :: [] := rfl
    rw [e0, e1, andWords_split l1 ln _ _ _ _ hk]
    have hp : Proper (andWords l1.length l1 ln ++ [Int.land u tn]) :=
      Proper_append_singleton.2 ⟨hlow, by have := land_low_left hu tn; omega⟩
    rw [val_fix hp, val_append, val_singleton, hlen, land_top_low u tn _ hu htn']

/-- When both operands have the same word count. -/
theorem bitwise_and_val_equal {a n : Words} (ha : Normalized a) (hn : Normalized n)
    (heq : a.length = n.length) :
    val (bitwise_and a n) = Int.land (val a) (val n) := by
  obtain ⟨la, ta, rfl, -, -⟩ := Proper_iff.1 ha.1
  obtain ⟨hla, hta, -⟩ := Normalized_append_singleton.1 ha
  obtain ⟨ln, tn, rfl, -, -⟩ := Proper_iff.1 hn.1
  obtain ⟨hln, htn, -⟩ := Normalized_append_singleton.1 hn
  have hk : la.length = ln.length := by simpa using heq
  have hmin : min (la ++ [ta]).length (ln ++ [tn]).length = la.length + 1 := by
    simp [hk]
  have c1 : ¬ ((ln ++ [tn]).length < (la ++ [ta]).length ∧
      ¬ is_negative (ln ++ [tn]) = true) := by
    intro h; have := h.1; simp [hk] at this
  have c2 : ¬ ((ln ++ [tn]).length > (la ++ [ta]).length ∧
      is_negative (la ++ [ta]) = true) := by
    intro h; have := h.1; simp [hk] at this
  simp only [bitwise_and, hmin]
  rw [if_neg c1, if_neg c2, andWords_top la ln ta tn hk]
  have hp : Proper (andWords la.length la ln ++ [Int.land ta tn]) :=
    Proper_append_singleton.2 ⟨andWords_low_left _ _ _ hla, land_range hta htn⟩
  rw [val_fix hp, val_append, val_singleton, andWords_length, val_append, val_singleton,
    val_append, val_singleton, ← hk]
  exact (andWords_val la ln hla hln hk ta tn).symm

/-- Bitwise AND of two normalized vectors denotes the AND of their values. -/
theorem bitwise_and_spec {a n : Words} (ha : Normalized a) (hn : Normalized n) :
    Normalized (bitwise_and a n) ∧ val (bitwise_and a n) = Int.land (val a) (val n) := by
  refine ⟨bitwise_and_normalized ha.1 hn.1, ?_⟩
  rcases lt_trichotomy a.length n.length with h | h | h
  · exact bitwise_and_val_shorter ha hn h
  · exact bitwise_and_val_equal ha hn h
  · exact bitwise_and_val_longer ha hn h

/-! ## bitwise_or by value -/

/-- OR of a non-negative top word with a low word extended by `Y`. -/
theorem lor_low_ext (x y Y : Int) (hx : 0 ≤ x ∧ x < 2147483648)
    (hy : 0 ≤ y ∧ y < 2147483648) :
    Int.lor x (y + 2147483648 * Y) = Int.lor x y + 2147483648 * Y := by
  have := lor_word x y 0 Y hx hy
  rw [lor_zero_left] at this
  simp only [mul_zero, add_zero] at this
  exact this

/-- OR of a negative top word with a low word: its value, and what the low
word is extended by does not matter. -/
theorem lor_neg_ext (x y Y : Int) (hx : -2147483648 ≤ x ∧ x < 0)
    (hy : 0 ≤ y ∧ y < 2147483648) :
    Int.lor x (y + 2147483648 * Y) = Int.lor x y ∧ Int.lor x y < 0 ∧
      -2147483648 ≤ Int.lor x y := by
  have hd := word_decomp (t := x) ⟨hx.1, by omega⟩
  rw [if_pos hx.2] at hd
  have h1 := lor_word (low31 x) y (-1) Y hd.2 hy
  have h2 := lor_word (low31 x) y (-1) 0 hd.2 hy
  rw [← hd.1, lor_neg_one_left] at h1
  rw [← hd.1, lor_neg_one_left] at h2
  simp only [mul_zero, add_zero] at h2
  have hl := lor_low hd.2 hy
  rw [h1, h2]
  refine ⟨rfl, by omega, by omega⟩

theorem is_negative_split (l : Words) (u : Int) (r' : Words) (t : Int) :
    is_negative (l ++ u :: (r' ++ [t])) = true ↔ t < 0 := by
  have e : l ++ u :: (r' ++ [t]) = (l ++ u :: r') ++ [t] := by simp
  rw [e, is_negative_append]

/-- Setting the sign bit of a vector that is already negative changes
nothing. -/
theorem setSign_of_neg (s : Bool) (X : Words) (t : Int) (h : s = true → t < 0) :
    (if s = true then setBack (X ++ [t]) (setSignBit (back (X ++ [t]))) else X ++ [t])
      = X ++ [t] := by
  split_ifs with hs
  · rw [back_append_singleton, setBack_append_singleton]
    unfold setSignBit
    rw [if_pos (h hs)]
  · rfl

theorem setSign_top (X : Words) (m : Int) :
    setBack (X ++ [m]) (setSignBit (back (X ++ [m]))) = X ++ [setSignBit m] := by
  rw [back_append_singleton, setBack_append_singleton]

/-- When both operands have the same word count. -/
theorem bitwise_or_val_equal {a n : Words} (ha : Normalized a) (hn : Normalized n)
    (heq : a.length = n.length) :
    val (bitwise_or a n) = Int.lor (val a) (val n) := by
  obtain ⟨la, ta, rfl, -, -⟩ := Proper_iff.1 ha.1
  obtain ⟨hla, hta, -⟩ := Normalized_append_singleton.1 ha
  obtain ⟨ln, tn, rfl, -, -⟩ := Proper_iff.1 hn.1
  obtain ⟨hln, htn, -⟩ := Normalized_append_singleton.1 hn
  have hk : la.length = ln.length := by simpa using heq
  have hmin : min (la ++ [ta]).length (ln ++ [tn]).length = la.length + 1 := by
    simp [hk]
  have e0 : ln ++ [tn] = ln ++ tn :: [] := rfl
  have e1 : la ++ [ta] = la ++ ta :: [] := rfl
  have hO : orWords (la.length + 1) (la ++ [ta]) (ln ++ [tn])
      = orWords la.length la ln ++ [Int.lor ta (low31 tn)] := by
    rw [e0, e1, orWords_split la ln _ _ _ _ hk]
  have hlen := orWords_length la.length la ln
  have hlow := orWords_low la.length la ln hla
  have hm := lor_range_low hta ⟨low31_nonneg tn, low31_lt tn⟩
  have hp : Proper (orWords la.length la ln ++ [Int.lor ta (low31 tn)]) :=
    Proper_append_singleton.2 ⟨hlow, hm⟩
  have c : ¬ (((orWords la.length la ln ++ [Int.lor ta (low31 tn)]).length < (ln ++ [tn]).length ∧
      ¬ is_negative (orWords la.length la ln ++ [Int.lor ta (low31 tn)]) = true) ∨
      ((orWords la.length la ln ++ [Int.lor ta (low31 tn)]).length > (ln ++ [tn]).length ∧
        is_negative (ln ++ [tn]) = true)) := by
    have hl1 : (orWords la.length la ln ++ [Int.lor ta (low31 tn)]).length = la.length + 1 := by
      rw [List.length_append, hlen]; rfl
    have hl2 : (ln ++ [tn]).length = la.length + 1 := by simp [hk]
    rw [hl1, hl2]
    intro h
    omega
  have htop := lor_top_top ta tn hta htn
  have hv : Int.lor (val (la ++ [ta])) (val (ln ++ [tn]))
      = val (orWords la.length la ln) + 2147483648 ^ la.length * Int.lor ta tn := by
    rw [val_append, val_singleton, val_append, val_singleton, ← hk]
    exact orWords_val la ln hla hln hk ta tn
  simp only [bitwise_or, hmin, hO]
  rw [if_neg c, hv]
  by_cases hs : ta < 0 ∨ tn < 0
  · have hsign : (is_negative (la ++ [ta]) || is_negative (ln ++ [tn])) = true := by
      rw [Bool.or_eq_true, is_negative_append, is_negative_append]; exact hs
    rw [if_pos hs] at htop
    rw [hsign, if_pos rfl, setSign_top, val_fix (by
      have := setBack_proper hp
      rwa [setSign_top] at this), val_append, val_singleton, hlen, htop]
  · have hsign : (is_negative (la ++ [ta]) || is_negative (ln ++ [tn])) = false := by
      rw [Bool.or_eq_false_iff]
      constructor
      · cases h : is_negative (la ++ [ta]) with
        | false => rfl
        | true => exact absurd (Or.inl ((is_negative_append la ta).1 h)) hs
      · cases h : is_negative (ln ++ [tn]) with
        | false => rfl
        | true => exact absurd (Or.inr ((is_negative_append ln tn).1 h)) hs
    rw [if_neg hs] at htop
    rw [hsign, if_neg (by simp), val_fix hp, val_append, val_singleton, hlen, htop]

theorem bool_or_true_iff_of {p q : Bool} : (p || q) = true ↔ (p = true ∨ q = true) := by
  cases p <;> cases q <;> simp

/-- When the first operand is the shorter one. -/
theorem bitwise_or_val_shorter {a n : Words} (ha : Normalized a) (hn : Normalized n)
    (hlt : a.length < n.length) :
    val (bitwise_or a n) = Int.lor (val a) (val n) := by
  obtain ⟨la, ta, rfl, -, -⟩ := Proper_iff.1 ha.1
  obtain ⟨hla, hta, -⟩ := Normalized_append_singleton.1 ha
  obtain ⟨l2, w, r', t, rfl, hk, hl2, hw, hr', ht, -, -⟩ :=
    split_at hn (k := la.length) (by simpa using hlt)
  have hlenA : (la ++ [ta]).length = la.length + 1 := by simp
  have hlenN : (l2 ++ w :: (r' ++ [t])).length = la.length + (r'.length + 2) := by
    simp [hk]
  have hmin : min (la ++ [ta]).length (l2 ++ w :: (r' ++ [t])).length = la.length + 1 := by
    rw [hlenA, hlenN]; omega
  have e1 : la ++ [ta] = la ++ ta :: [] := rfl
  have hO : orWords (la.length + 1) (la ++ [ta]) (l2 ++ w :: (r' ++ [t]))
      = orWords la.length la l2 ++ [Int.lor ta w] := by
    rw [e1, orWords_split la l2 _ _ _ _ hk.symm, low31_of_low hw]
  have hlen := orWords_length la.length la l2
  have hlow := orWords_low la.length la l2 hla
  have hl1 : (orWords la.length la l2 ++ [Int.lor ta w]).length = la.length + 1 := by
    rw [List.length_append, hlen]; rfl
  have hv : Int.lor (val (la ++ [ta])) (val (l2 ++ w :: (r' ++ [t])))
      = val (orWords la.length la l2) + 2147483648 ^ la.length *
          Int.lor ta (w + 2147483648 * val (r' ++ [t])) := by
    rw [val_append, val_singleton, val_split3, hk]
    exact orWords_val la l2 hla hl2 hk.symm _ _
  simp only [bitwise_or, hmin, hO]
  rw [hv]
  by_cases hneg : ta < 0
  · obtain ⟨hx1, hx2, hx3⟩ := lor_neg_ext ta w (val (r' ++ [t])) ⟨hta.1, hneg⟩ hw
    have c : ¬ (((orWords la.length la l2 ++ [Int.lor ta w]).length
          < (l2 ++ w :: (r' ++ [t])).length ∧
        ¬ is_negative (orWords la.length la l2 ++ [Int.lor ta w]) = true) ∨
        ((orWords la.length la l2 ++ [Int.lor ta w]).length
          > (l2 ++ w :: (r' ++ [t])).length ∧
          is_negative (l2 ++ w :: (r' ++ [t])) = true)) := by
      rw [hl1, hlenN, is_negative_append]
      intro h
      rcases h with h | h
      · exact h.2 hx2
      · omega
    rw [if_neg c, setSign_of_neg _ _ _ (fun _ => hx2)]
    have hp : Proper (orWords la.length la l2 ++ [Int.lor ta w]) :=
      Proper_append_singleton.2 ⟨hlow, hx3, by omega⟩
    rw [val_fix hp, val_append, val_singleton, hlen, hx1]
  · have hta' : 0 ≤ ta ∧ ta < 2147483648 := ⟨by omega, hta.2⟩
    have hm := lor_low hta' hw
    have c : ((orWords la.length la l2 ++ [Int.lor ta w]).length
          < (l2 ++ w :: (r' ++ [t])).length ∧
        ¬ is_negative (orWords la.length la l2 ++ [Int.lor ta w]) = true) ∨
        ((orWords la.length la l2 ++ [Int.lor ta w]).length
          > (l2 ++ w :: (r' ++ [t])).length ∧
          is_negative (l2 ++ w :: (r' ++ [t])) = true) := by
      left
      rw [hl1, hlenN, is_negative_append]
      exact ⟨by omega, by omega⟩
    have hgrow : (resize (orWords la.length la l2 ++ [Int.lor ta w])
          (l2 ++ w :: (r' ++ [t])).length).take (la.length + 1)
        = orWords la.length la l2 ++ [Int.lor ta w] := by
      have := resize_grow_nonneg (orWords la.length la l2) (Int.lor ta w) hm.1
        (m := (l2 ++ w :: (r' ++ [t])).length) (by rw [hlen, hlenN]; omega)
      rwa [hlen] at this
    have hdrop : (l2 ++ w :: (r' ++ [t])).drop (la.length + 1) = r' ++ [t] := by
      rw [← hk]; exact drop_split l2 w _
    rw [if_pos c, hgrow, hdrop]
    have e2 : (orWords la.length la l2 ++ [Int.lor ta w]) ++ (r' ++ [t])
        = (orWords la.length la l2 ++ Int.lor ta w :: r') ++ [t] := by simp
    have e3 : (orWords la.length la l2 ++ Int.lor ta w :: r') ++ [t]
        = orWords la.length la l2 ++ Int.lor ta w :: (r' ++ [t]) := by simp
    rw [e2, setSign_of_neg _ _ _ (fun hs => by
      rw [bool_or_true_iff_of, is_negative_append, is_negative_split] at hs
      rcases hs with hs | hs
      · exact absurd hs hneg
      · exact hs), e3]
    have hp : Proper (orWords la.length la l2 ++ Int.lor ta w :: (r' ++ [t])) :=
      Proper_append_low hlow (Proper_cons hm (Proper_top r' t hr' ht))
    rw [val_fix hp, val_split3, hlen, lor_low_ext ta w _ hta' hw]

/-- When the second operand is the shorter one. -/
theorem bitwise_or_val_longer {a n : Words} (ha : Normalized a) (hn : Normalized n)
    (hgt : n.length < a.length) :
    val (bitwise_or a n) = Int.lor (val a) (val n) := by
  obtain ⟨ln, tn, rfl, -, -⟩ := Proper_iff.1 hn.1
  obtain ⟨hln, htn, -⟩ := Normalized_append_singleton.1 hn
  obtain ⟨l1, u, r', t, rfl, hk, hl1, hu, hr', ht, -, ht1⟩ :=
    split_at ha (k := ln.length) (by simpa using hgt)
  have hlenN : (ln ++ [tn]).length = l1.length + 1 := by simp [hk]
  have hlenA : (l1 ++ u :: (r' ++ [t])).length = l1.length + (r'.length + 2) := by
    simp
  have hmin : min (l1 ++ u :: (r' ++ [t])).length (ln ++ [tn]).length = l1.length + 1 := by
    rw [hlenA, hlenN]; omega
  have e0 : ln ++ [tn] = ln ++ tn :: [] := rfl
  have hO : orWords (l1.length + 1) (l1 ++ u :: (r' ++ [t])) (ln ++ [tn])
      = orWords l1.length l1 ln ++ Int.lor u (low31 tn) :: (r' ++ [t]) := by
    rw [e0, orWords_split l1 ln _ _ _ _ hk]
  have hlen := orWords_length l1.length l1 ln
  have hlow := orWords_low l1.length l1 ln hl1
  have hm := lor_low hu ⟨low31_nonneg tn, low31_lt tn⟩
  have hlen1 : (orWords l1.length l1 ln ++ Int.lor u (low31 tn) :: (r' ++ [t])).length
      = l1.length + (r'.length + 2) := by
    simp [hlen]
  have hv : Int.lor (val (l1 ++ u :: (r' ++ [t]))) (val (ln ++ [tn]))
      = val (orWords l1.length l1 ln) + 2147483648 ^ l1.length *
          Int.lor (u + 2147483648 * val (r' ++ [t])) tn := by
    rw [val_append ln, val_singleton, val_split3, ← hk]
    exact orWords_val l1 ln hl1 hln hk _ _
  simp only [bitwise_or, hmin, hO]
  rw [hv]
  by_cases hneg : tn < 0
  · have c : ((orWords l1.length l1 ln ++ Int.lor u (low31 tn) :: (r' ++ [t])).length
          < (ln ++ [tn]).length ∧
        ¬ is_negative (orWords l1.length l1 ln ++ Int.lor u (low31 tn) :: (r' ++ [t])) = true) ∨
        ((orWords l1.length l1 ln ++ Int.lor u (low31 tn) :: (r' ++ [t])).length
          > (ln ++ [tn]).length ∧ is_negative (ln ++ [tn]) = true) := by
      right
      rw [hlen1, hlenN, is_negative_append]
      exact ⟨by omega, hneg⟩
    have hshrink : resize (orWords l1.length l1 ln ++ Int.lor u (low31 tn) :: (r' ++ [t]))
        (ln ++ [tn]).length = orWords l1.length l1 ln ++ [Int.lor u (low31 tn)] := by
      have := resize_shrink (orWords l1.length l1 ln) (Int.lor u (low31 tn)) r' t ht1 ht
      rwa [hlen, ← hlenN] at this
    have htake : (orWords l1.length l1 ln ++ [Int.lor u (low31 tn)]).take (l1.length + 1)
        = orWords l1.length l1 ln ++ [Int.lor u (low31 tn)] := by
      apply List.take_of_length_le
      rw [List.length_append, hlen]; simp
    have hdrop : (ln ++ [tn]).drop (l1.length + 1) = [] := by
      apply List.drop_eq_nil_of_le
      rw [hlenN]
    have hsign : (is_negative (l1 ++ u :: (r' ++ [t])) || is_negative (ln ++ [tn])) = true := by
      rw [bool_or_true_iff_of, is_negative_append]
      exact Or.inr hneg
    rw [if_pos c, hshrink, htake, hdrop, List.append_nil, hsign, if_pos rfl, setSign_top]
    have hsb : setSignBit (Int.lor u (low31 tn)) = Int.lor u (low31 tn) - 2147483648 := by
      unfold setSignBit
      rw [if_neg (by omega)]
    have hp : Proper (orWords l1.length l1 ln ++ [setSignBit (Int.lor u (low31 tn))]) :=
      Proper_append_singleton.2 ⟨hlow, by rw [hsb]; omega⟩
    rw [val_fix hp, val_append, val_singleton, hlen, hsb,
      lor_top_neg u tn _ hu ⟨htn.1, hneg⟩]
  · have htn' : 0 ≤ tn ∧ tn < 2147483648 := ⟨by omega, htn.2⟩
    have c : ¬ (((orWords l1.length l1 ln ++ Int.lor u (low31 tn) :: (r' ++ [t])).length
          < (ln ++ [tn]).length ∧
        ¬ is_negative (orWords l1.length l1 ln ++ Int.lor u (low31 tn) :: (r' ++ [t])) = true) ∨
        ((orWords l1.length l1 ln ++ Int.lor u (low31 tn) :: (r' ++ [t])).length
          > (ln ++ [tn]).length ∧ is_negative (ln ++ [tn]) = true)) := by
      rw [hlen1, hlenN, is_negative_append]
      intro h
      rcases h with h | h
      · omega
      · exact hneg h.2
    have e3 : orWords l1.length l1 ln ++ Int.lor u (low31 tn) :: (r' ++ [t])
        = (orWords l1.length l1 ln ++ Int.lor u (low31 tn) :: r') ++ [t] := by simp
    rw [if_neg c, e3, setSign_of_neg _ _ _ (fun hs => by
      rw [bool_or_true_iff_of, is_negative_split, is_negative_append] at hs
      rcases hs with hs | hs
      · exact hs
      · exact absurd hs hneg), ← e3]
    have hp : Proper (orWords l1.length l1 ln ++ Int.lor u (low31 tn) :: (r' ++ [t])) :=
      Proper_append_low hlow (Proper_cons hm (Proper_top r' t hr' ht))
    rw [val_fix hp, val_split3, hlen, low31_of_low htn', lor_top_low u tn _ hu htn']

/-- Bitwise OR of two normalized vectors denotes the OR of their values. -/
theorem bitwise_or_spec {a n : Words} (ha : Normalized a) (hn : Normalized n) :
    Normalized (bitwise_or a n) ∧ val (bitwise_or a n) = Int.lor (val a) (val n) := by
  refine ⟨bitwise_or_normalized ha.1 hn.1, ?_⟩
  rcases lt_trichotomy a.length n.length with h | h | h
  · exact bitwise_or_val_shorter ha hn h
  · exact bitwise_or_val_equal ha hn h
  · exact bitwise_or_val_longer ha hn h

/-! ## Statements about the bitwise operations, power and the decimal cache -/

/-- Claim C21: for every normalized `a`, `~(~a)` is the word vector `a`. -/
theorem bitwise_not_involutive (a : Words) (ha : Normalized a) :
    bitwise_not (bitwise_not a) = a :=
  bitwise_not_not ha

theorem bitwise_not_involutive_witness :
    Normalized [5, -3] ∧ bitwise_not (bitwise_not [5, -3]) = [5, -3] :=
  ⟨by decide, bitwise_not_involutive [5, -3] (by decide)⟩

/-- Claim C22: for normalized `a` and `b` of any lengths and signs, `a & b` is
normalized and denotes the bitwise AND of the two's-complement expansions of
`val a` and `val b`: bit `i` of the result is the AND of the bits `i` of the
operands, for every `i`. -/
theorem bitwise_and_value (a b : Words) (ha : Normalized a) (hb : Normalized b) :
    Normalized (bitwise_and a b) ∧
      val (bitwise_and a b) = Int.land (val a) (val b) ∧
      ∀ i : Nat, Int.testBit (val (bitwise_and a b)) i
        = (Int.testBit (val a) i && Int.testBit (val b) i) := by
  obtain ⟨h1, h2⟩ := bitwise_and_spec ha hb
  refine ⟨h1, h2, fun i => ?_⟩
  rw [h2, Int.testBit_land]

theorem bitwise_and_value_witness :
    (Normalized [5, 8, -3] ∧ Normalized [-7]) ∧
    (Normalized (bitwise_and [5, 8, -3] [-7]) ∧
      val (bitwise_and [5, 8, -3] [-7]) = Int.land (val [5, 8, -3]) (val [-7]) ∧
      ∀ i : Nat, Int.testBit (val (bitwise_and [5, 8, -3] [-7])) i
        = (Int.testBit (val [5, 8, -3]) i && Int.testBit (val [-7]) i)) :=
  ⟨by decide, bitwise_and_value [5, 8, -3] [-7] (by decide) (by decide)⟩

/-- Claim C23: for normalized `a` and `b` of any lengths and signs, `a | b` is
normalized and denotes the bitwise OR of the two's-complement expansions of
`val a` and `val b`: bit `i` of the result is the OR of the bits `i` of the
operands, for every `i`. -/
theorem bitwise_or_value (a b : Words) (ha : Normalized a) (hb : Normalized b) :
    Normalized (bitwise_or a b) ∧
      val (bitwise_or a b) = Int.lor (val a) (val b) ∧
      ∀ i : Nat, Int.testBit (val (bitwise_or a b)) i
        = (Int.testBit (val a) i || Int.testBit (val b) i) := by
  obtain ⟨h1, h2⟩ := bitwise_or_spec ha hb
  refine ⟨h1, h2, fun i => ?_⟩
  rw [h2, Int.testBit_lor]

theorem bitwise_or_value_witness :
    (Normalized [-7] ∧ Normalized [5, 8, 3]) ∧
    (Normalized (bitwise_or [-7] [5, 8, 3]) ∧
      val (bitwise_or [-7] [5, 8, 3]) = Int.lor (val [-7]) (val [5, 8, 3]) ∧
      ∀ i : Nat, Int.testBit (val (bitwise_or [-7] [5, 8, 3])) i
        = (Int.testBit (val [-7]) i || Int.testBit (val [5, 8, 3]) i)) :=
  ⟨by decide, bitwise_or_value [-7] [5, 8, 3] (by decide) (by decide)⟩

/-- Claim C24: for every normalized `a` and every shift count `d`, `a << d` is
normalized, denotes `val a * 2^d`, and has at most
`(word count of a) + d / 31 + 1` words. -/
theorem shift_left_value (a : Words) (d : Nat) (ha : Normalized a) :
    Normalized (bitwise_shift_left a d) ∧
      val (bitwise_shift_left a d) = val a * 2 ^ d ∧
      (bitwise_shift_left a d).length ≤ a.length + d / 31 + 1 :=
  ⟨(bitwise_shift_left_spec ha d).1, (bitwise_shift_left_spec ha d).2,
    bitwise_shift_left_length ha d⟩

theorem shift_left_value_witness :
    Normalized [5, -3] ∧
    (Normalized (bitwise_shift_left [5, -3] 40) ∧
      val (bitwise_shift_left [5, -3] 40) = val [5, -3] * 2 ^ 40 ∧
      (bitwise_shift_left [5, -3] 40).length ≤ [5, -3].length + 40 / 31 + 1) :=
  ⟨by decide, shift_left_value [5, -3] 40 (by decide)⟩

/-- Claim C25, evaluation at the failing input: `Integer(-1) >> 31` is the
zero value, a non-negative result, while `floor(-1 / 2^31)` is -1; a shift
by 30 bits still gives -1. -/
theorem shift_right_loses_sign :
    ofNative (-1) = [-1] ∧ Normalized [-1] ∧
      bitwise_shift_right [-1] 31 = [0] ∧ is_negative (bitwise_shift_right [-1] 31) = false ∧
      val [-1] / 2 ^ 31 = -1 ∧ bitwise_shift_right [-1] 30 = [-1] := by
  decide

/-- Claim C26: for every normalized non-negative `a` and every shift count
`d`, `(a << d) >> d` is the word vector `a`. -/
theorem shift_round_trip (a : Words) (d : Nat) (ha : Normalized a) (h0 : 0 ≤ val a) :
    bitwise_shift_right (bitwise_shift_left a d) d = a :=
  shift_left_right ha h0 d

theorem shift_round_trip_witness :
    (Normalized [5, 3] ∧ 0 ≤ val [5, 3]) ∧
    bitwise_shift_right (bitwise_shift_left [5, 3] 40) 40 = [5, 3] :=
  ⟨by decide, shift_round_trip [5, 3] 40 (by decide) (by decide)⟩

/-- Claim C27, evaluation at the failing input: `pow(Integer(-2147483648), 2)`
is the zero value, while the square of the base is `2^62`. -/
theorem power_int32_min_squared :
    ofNative (-2147483648) = [-2147483648] ∧ ofNative 2 = [2] ∧
      Normalized [-2147483648] ∧ Normalized [2] ∧
      power [-2147483648] [2] = some [0] ∧
      val [-2147483648] ^ (val [2]).toNat = 4611686018427387904 := by
  decide

/-- Claim C28: `pow` with an Integer exponent throws `invalid_argument`
exactly when the exponent is negative, and then the base object is as
before the call; with a non-negative exponent it returns, its loop having
reached the exit test. -/
theorem pow_negative_exponent (a e : Words) (he : Normalized e) :
    ((powCall a e).1 = true ↔ val e < 0) ∧ (power a e = none ↔ val e < 0) ∧
      (val e < 0 → powCall a e = (true, a)) ∧
      (0 ≤ val e → ∃ r, power a e = some r ∧ powCall a e = (false, r) ∧
        ∀ j, powerLoop (31 * e.length + j) (ofNative 1) a e = r) := by
  have hneg := is_negative_iff he.1
  have hnone : power a e = none ↔ val e < 0 := by
    rw [← hneg]
    unfold power
    split_ifs with h <;> simp [h]
  have hcall : val e < 0 → powCall a e = (true, a) := by
    intro h
    unfold powCall
    rw [hnone.2 h]
  have hsome : 0 ≤ val e → ∃ r, power a e = some r ∧ powCall a e = (false, r) ∧
      ∀ j, powerLoop (31 * e.length + j) (ofNative 1) a e = r := by
    intro h
    have hf : is_negative e = false := by
      cases hc : is_negative e with
      | false => rfl
      | true => have := hneg.1 hc; omega
    obtain ⟨r, hr, hj⟩ := power_returns (a := a) he hf
    refine ⟨r, hr, ?_, hj⟩
    unfold powCall
    rw [hr]
  refine ⟨?_, hnone, hcall, hsome⟩
  constructor
  · intro h
    by_contra hc
    obtain ⟨r, _, e2, _⟩ := hsome (by omega)
    rw [e2] at h
    exact Bool.noConfusion h
  · intro h
    rw [hcall h]

theorem pow_negative_exponent_witness :
    Normalized [-2] ∧
    (((powCall [3] [-2]).1 = true ↔ val [-2] < 0) ∧ (power [3] [-2] = none ↔ val [-2] < 0) ∧
      (val [-2] < 0 → powCall [3] [-2] = (true, [3])) ∧
      (0 ≤ val [-2] → ∃ r, power [3] [-2] = some r ∧ powCall [3] [-2] = (false, r) ∧
        ∀ j, powerLoop (31 * [-2].length + j) (ofNative 1) [3] [-2] = r)) :=
  ⟨by decide, pow_negative_exponent [3] [-2] (by decide)⟩

/-- Claim C29, evaluation at the failing input: after `Integer a(-5)`, a call
of `a.getString()` caches "-5" and clears `_modified`; `a.abs()` then makes
the words 5 and leaves `_modified` false, so the non-const `getString()`
still returns "-5" while the const rendering of the words is "5".  The same
happens to the result of unary minus on an object whose string is cached. -/
theorem cached_string_stale :
    (Integer.ofNative (-5)).getString = some ("-5", ⟨[-5], false, "-5"⟩) ∧
      Integer.abs ⟨[-5], false, "-5"⟩ = ⟨[5], false, "-5"⟩ ∧
      Integer.getString ⟨[5], false, "-5"⟩ = some ("-5", ⟨[5], false, "-5"⟩) ∧
      getString [5] = some "5" ∧
      (Integer.ofNative 5).getString = some ("5", ⟨[5], false, "5"⟩) ∧
      Integer.neg ⟨[5], false, "5"⟩ = ⟨[-5], false, "5"⟩ ∧
      Integer.getString ⟨[-5], false, "5"⟩ = some ("5", ⟨[-5], false, "5"⟩) ∧
      getString [-5] = some "-5" := by
  decide

/-- Claim C30, counterexample: for the Integer built from the canonical string
"-5" and the index 1, below the length 2, `a[1]` is 4294967293, while the
code of the character `-` minus the code of `0` is -3. -/
theorem access_sign_character :
    CanonicalDecimal "-5".data ∧ string_to_integer "-5" = some [-5] ∧ 1 < "-5".length ∧
      access [-5] 1 = some 4294967293 ∧
      (("-5".data.getD ("-5".length - 1 - 1) ' ').toNat : Int) - 48 = -3 ∧
      access [-5] 1 ≠ some ((("-5".data.getD ("-5".length - 1 - 1) ' ').toNat : Int) - 48) := by
  decide

/-- Claim C30, amended: for the Integer built from a canonical decimal string
`s` and every index `i`: when `i < s.length`, `a[i]` is the code of the
character `s[s.length - 1 - i]` minus the code of `0`, reduced modulo `2^32`
(the operator returns an `unsigned`): the difference itself for a digit
character, which is the `i`-th decimal digit of the value for a non-negative
value; when `i >= s.length`, `a[i]` throws `out_of_range`.  The const and the
non-const operator agree, on the new object and once the string is cached. -/
theorem access_digits (s : String) (i : Nat) (h : CanonicalDecimal s.data) :
    ∃ r a, string_to_integer s = some r ∧ Integer.ofString s = some a ∧
      (i < s.length →
        access r i
          = some (toUInt32 (((s.data.getD (s.length - i - 1) ' ').toNat : Int) - 48)) ∧
        (IsDigit (s.data.getD (s.length - i - 1) ' ') →
          access r i = some (((s.data.getD (s.length - i - 1) ' ').toNat : Int) - 48)) ∧
        (0 ≤ val r → access r i = some (val r / 10 ^ i % 10))) ∧
      (s.length ≤ i → access r i = none) ∧
      a.access i = some (access r i, ⟨r, false, s⟩) ∧
      Integer.access ⟨r, false, s⟩ i = some (access r i, ⟨r, false, s⟩) := by
  obtain ⟨r, e, hn, hg, hin, hout⟩ := access_parsed s h
  have hacc : access r i = if i ≥ s.length then none else some (digitAt s i) := by
    unfold access
    rw [hg]
  refine ⟨r, ⟨r, true, ""⟩, e, ?_, ?_, hout i, ?_, ?_⟩
  · unfold Integer.ofString
    rw [e]
  · intro hi
    have h1 : access r i
        = some (toUInt32 (((s.data.getD (s.length - i - 1) ' ').toNat : Int) - 48)) := by
      rw [hin i hi]
      unfold digitAt
      rw [toUInt32_sub]
    refine ⟨h1, fun hd => ?_, fun h0 => ?_⟩
    · rw [h1, toUInt32_digit hd]
    · obtain ⟨hds, hv⟩ := canonical_nonneg h e h0
      have hi' : i < s.data.length := hi
      have hidx : s.data.getD (s.length - i - 1) ' ' = s.data.reverse.getD i ' ' :=
        getD_reverse_index s.data ' ' hi'
      have hdig : IsDigit (s.data.reverse.getD i ' ') := by
        rw [List.getD_eq_getElem _ _ (by simpa using hi')]
        exact hds _ (List.mem_reverse.1 (List.getElem_mem _))
      rw [h1, hidx, toUInt32_digit hdig, hv, decimalValue_eq_decRev,
        decRev_digit s.data.reverse i (fun c hc => hds c (List.mem_reverse.1 hc))
          (by simpa using hi')]
  · unfold Integer.access Integer.getString
    simp only [if_true, hg]
    rw [hacc]
  · unfold Integer.access Integer.getString
    simp only [Bool.false_eq_true, if_false]
    rw [hacc]

theorem access_digits_witness :
    CanonicalDecimal "-120".data ∧
    ∃ r a, string_to_integer "-120" = some r ∧ Integer.ofString "-120" = some a ∧
      (3 < "-120".length →
        access r 3
          = some (toUInt32 ((("-120".data.getD ("-120".length - 3 - 1) ' ').toNat : Int) - 48)) ∧
        (IsDigit ("-120".data.getD ("-120".length - 3 - 1) ' ') →
          access r 3 = some ((("-120".data.getD ("-120".length - 3 - 1) ' ').toNat : Int) - 48)) ∧
        (0 ≤ val r → access r 3 = some (val r / 10 ^ 3 % 10))) ∧
      ("-120".length ≤ 3 → access r 3 = none) ∧
      a.access 3 = some (access r 3, ⟨r, false, "-120"⟩) ∧
      Integer.access ⟨r, false, "-120"⟩ 3 = some (access r 3, ⟨r, false, "-120"⟩) :=
  ⟨by decide, access_digits "-120" 3 (by decide)⟩

/-! ## Observers on parsed strings -/

theorem is_even_iff (ws : Words) : is_even ws = true ↔ val ws % 2 = 0 := by
  cases ws with
  | nil => simp [is_even, val]
  | cons w rest =>
    simp only [is_even, val, List.getD_cons_zero, decide_eq_true_eq]
    omega

theorem decimalValue_parity {ds : List Char} (h : ds ≠ []) :
    decimalValue ds % 2 = (((ds.getLastD '0').toNat : Int) - 48) % 2 := by
  obtain ⟨l, c, rfl⟩ : ∃ l c, ds = l ++ [c] :=
    ⟨ds.dropLast, ds.getLast h, (List.dropLast_append_getLast h).symm⟩
  rw [decimalValue_append]
  have : (l ++ [c]).getLastD '0' = c := by simp
  rw [this]
  omega

theorem getLastD_tail {cs : List Char} (h : cs.tail ≠ []) (d : Char) :
    cs.tail.getLastD d = cs.getLastD d := by
  cases cs with
  | nil => exact absurd rfl h
  | cons c t =>
    cases t with
    | nil => exact absurd rfl h
    | cons c' t' => simp

/-- The observers on the Integer parsed from a canonical string other than
"0". -/
theorem observers_parsed (s : String) (h : CanonicalDecimal s.data) (hne : s.data ≠ ['0']) :
    ∃ r, string_to_integer s = some r ∧ Normalized r ∧ is_zero r = false ∧
      (is_negative r = true ↔ s.data.head? = some '-') ∧
      (is_even r = true ↔ (((s.data.getLastD '0').toNat : Int) - 48) % 2 = 0) := by
  obtain ⟨r, e, hn, hv⟩ := string_to_integer_valid s (canonical_valid h)
  refine ⟨r, e, hn, ?_⟩
  rw [is_zero_false_iff hn, is_negative_iff hn.1, is_even_iff]
  rcases h with h | ⟨hc, _⟩ | ⟨hm, hc, hnz⟩
  · exact absurd h hne
  · obtain ⟨hnil, _, hminus⟩ := canonicalDigits_head hc hne
    have hpos := canonical_pos hc hne
    rw [if_neg hminus] at hv
    have hp := decimalValue_parity hnil
    refine ⟨by omega, ⟨fun hlt => absurd hlt (by omega), fun hh => absurd hh hminus⟩, ?_⟩
    rw [hv, hp]
  · obtain ⟨hnil, _, _⟩ := canonicalDigits_head hc hnz
    have hpos := canonical_pos hc hnz
    rw [if_pos hm] at hv
    have hp := decimalValue_parity hnil
    rw [getLastD_tail hnil] at hp
    refine ⟨by omega, ⟨fun _ => hm, fun _ => by omega⟩, ?_⟩
    rw [hv, ← hp]
    omega

/-! ## Double negation, normalization, subtraction of a non-negative value -/

theorem negative_negative {a : Words} (h : Normalized a) : negative (negative a) = a := by
  have h1 := negative_spec h.1
  have h2 := negative_spec h1.1.1
  exact Normalized_unique _ _ h2.1 h (by rw [h2.2, h1.2, neg_neg])

theorem fix_fix {ws : Words} (h : Proper ws) : fix (fix ws) = fix ws :=
  fix_of_normalized (fix_normalized h)

theorem fix_minimal {ws b : Words} (h : Proper ws) (hb : Proper b) (hv : val b = val ws) :
    (fix ws).length ≤ b.length :=
  length_le_of_val_eq (fix_normalized h) hb (by rw [val_fix h, hv])

theorem sub_le_self {a b : Words} (ha : Normalized a) (hb : Normalized b) (h0 : 0 ≤ val b) :
    compare (add a b true) a ≤ 0 ∧ operator_le (add a b true) a = true := by
  have hs := sub_spec_nonneg ha.1 hb h0
  have hle : val (add a b true) ≤ val a := by rw [hs.2]; omega
  refine ⟨?_, ((operators_iff hs.1 ha).2.1).2 hle⟩
  rw [compare_spec hs.1 ha]
  unfold cmpInt
  split_ifs <;> omega

/-! ## Symmetry of multiply -/

/-- Only the one-word vector -1 compares equal to `Integer(-1)`. -/
theorem eq_of_compare_minus (a : Words) (h : compare a (ofNative (-1)) = 0) : a = [-1] := by
  rw [ofNative_minus_one] at h
  have hneg : is_negative ([-1] : Words) = true := by decide
  rcases a with _ | ⟨w, _ | ⟨v, l⟩⟩
  · unfold compare at h
    rw [hneg] at h
    simp at h
  · unfold compare at h
    rw [hneg] at h
    simp only [List.length_singleton, gt_iff_lt, lt_irrefl, if_false, compareWords,
      List.getD_cons_zero] at h
    split_ifs at h <;> first | omega | (congr 1; omega)
  · unfold compare at h
    simp only [List.length_cons, List.length_nil] at h
    rw [if_pos (by omega)] at h
    split_ifs at h
    all_goals omega

theorem multiplyFuel_comm : ∀ (fuel : Nat) (a b : Words),
    multiplyFuel fuel a b = multiplyFuel fuel b a
  | 0, _, _ => rfl
  | fuel + 1, a, b => by
    rw [multiplyFuel, multiplyFuel]
    by_cases hz : is_zero a = true ∨ is_zero b = true
    · rw [if_pos hz, if_pos (Or.symm hz)]
    · rw [if_neg hz, if_neg (fun h => hz (Or.symm h))]
      by_cases h1 : compare a (ofNative (-1)) = 0
      · by_cases h2 : compare b (ofNative (-1)) = 0
        · rw [if_pos h1, if_pos h2, eq_of_compare_minus a h1, eq_of_compare_minus b h2]
        · rw [if_pos h1, if_neg h2, if_pos h1]
      · by_cases h2 : compare b (ofNative (-1)) = 0
        · rw [if_neg h1, if_pos h2, if_pos h2]
        · rw [if_neg h1, if_neg h2, if_neg h2, if_neg h1]
          by_cases hs : a.length = 1 ∧ b.length = 1
          · rw [if_pos hs, if_pos (And.symm hs), mul_comm]
          · rw [if_neg hs, if_neg (fun h => hs (And.symm h))]
            simp only [max_comm b.length a.length]
            rw [multiplyFuel_comm fuel (add (split b _).2 (split b _).1 false),
              multiplyFuel_comm fuel (split b _).2, multiplyFuel_comm fuel (split b _).1]

theorem mulFuel_comm (a b : Words) : mulFuel a b = mulFuel b a := by
  unfold mulFuel
  omega

theorem multiply_comm (a b : Words) : multiply a b = multiply b a := by
  unfold multiply
  rw [mulFuel_comm, multiplyFuel_comm]

/-! ## The reader of operator >> -/

theorem not_below_and_above (c : Char) : ¬ (c < '0' ∧ c > '9') := by
  rintro ⟨h1, h2⟩
  have h3 : c.toNat < 48 := h1
  have h4 : 57 < c.toNat := h2
  omega

/-- The loop of the reader appends every character up to the end of the
line, whatever the character is: the state `SKIP` does not discard and the
state `READ_DIGIT` does not stop. -/
theorem readLoop_eq : ∀ (cs : List Char) (state : Stream_read_state) (aux : List Char),
    state ≠ Stream_read_state.READ_MINUS → readLoop cs state aux = aux ++ streamLine cs
  | [], _, aux, _ => by simp [readLoop, streamLine]
  | c :: cs, state, aux, hst => by
    rw [readLoop]
    by_cases h0 : c.toNat = 0
    · rw [if_pos h0]
      simp [streamLine, h0]
    · rw [if_neg h0]
      by_cases h1 : c = '\n' ∨ c.toNat = 255
      · rw [if_pos h1]
        have : ¬ (c.toNat ≠ 0 ∧ c ≠ '\n' ∧ c.toNat ≠ 255) := by
          rintro ⟨_, h2, h3⟩
          exact h1.elim h2 h3
        simp [streamLine, this]
      · rw [if_neg h1]
        have hkeep : c.toNat ≠ 0 ∧ c ≠ '\n' ∧ c.toNat ≠ 255 :=
          ⟨h0, fun h => h1 (Or.inl h), fun h => h1 (Or.inr h)⟩
        have hline : streamLine (c :: cs) = c :: streamLine cs := by
          simp [streamLine, hkeep]
        have hnever := not_below_and_above c
        by_cases hd : c = '-' ∨ ('0' ≤ c ∧ c ≤ '9')
        · cases state with
          | READ_MINUS => exact absurd rfl hst
          | SKIP =>
            simp only [true_and, hd, if_true, not_true_eq_false, and_false, if_false, hnever]
            rw [readLoop_eq cs _ _ (by decide), hline]
            simp
          | READ_DIGIT =>
            simp only [reduceCtorEq, false_and, if_false, hnever, and_false]
            rw [readLoop_eq cs _ _ (by decide), hline]
            simp
        · cases state with
          | READ_MINUS => exact absurd rfl hst
          | SKIP =>
            simp only [hd, and_false, if_false, reduceCtorEq, false_and, hnever]
            rw [readLoop_eq cs _ _ (by decide), hline]
            simp
          | READ_DIGIT =>
            simp only [reduceCtorEq, false_and, if_false, hnever, and_false]
            rw [readLoop_eq cs _ _ (by decide), hline]
            simp

theorem operator_extract_eq (stream : List Char) (n : Words) :
    operator_extract stream n = assignString n (String.mk (streamLine stream)) := by
  unfold operator_extract
  rw [readLoop_eq _ _ _ (by decide), List.nil_append]

/-! ## Calls of divide on a store -/

theorem write_same (s : Store) (i : Nat) (w : Words) : (s.write i w) i = w := by
  simp [Store.write]

theorem write_other (s : Store) {i j : Nat} (w : Words) (h : j ≠ i) : (s.write i w) j = s j := by
  simp [Store.write, h]

/-- The loop on a store with distinct `quotient` and `remainder` objects is the
loop on their values; no other object is written. -/
theorem divideLoopRef_apply : ∀ (k : Nat) (s : Store) (q r : Nat) (aux : Words), q ≠ r →
    ∀ j, divideLoopRef k s q r aux j =
      if j = r then (divideLoop k (s q) (s r) aux).2
      else if j = q then (divideLoop k (s q) (s r) aux).1 else s j
  | 0, s, q, r, aux, _, j => by
    simp only [divideLoopRef, divideLoop]
    split_ifs with h1 h2
    · rw [h1]
    · rw [h2]
    · rfl
  | k + 1, s, q, r, aux, hqr, j => by
    have hrq : r ≠ q := Ne.symm hqr
    rw [divideLoopRef, divideLoop]
    simp only [write_same, write_other _ _ hrq]
    by_cases hc : compare aux (s r) < 1
    · simp only [hc, if_true]
      rw [divideLoopRef_apply k _ q r _ hqr j]
      simp only [write_same, write_other _ _ hrq, write_other _ _ hqr]
      split_ifs with h1 h2
      · rfl
      · rfl
      · rw [write_other _ _ h2, write_other _ _ h1, write_other _ _ h2]
    · simp only [hc, if_false]
      rw [divideLoopRef_apply k _ q r _ hqr j]
      simp only [write_same, write_other _ _ hrq]
      split_ifs with h1 h2
      · rfl
      · rfl
      · rw [write_other _ _ h2]

/-- A call of `divide` on a store with distinct `quotient` and `remainder`
objects, each of which may be the dividend or the divisor object: the two
outputs receive what `divide` computes from the values that the dividend and
the divisor held on entry, and no other object is written. -/
theorem divideRef_apply (s : Store) (this d q r : Nat) (hqr : q ≠ r) (hz : ¬ is_zero (s d) = true)
    (Q R : Words) (h : divide (s this) (s d) = some (Q, R)) :
    (divideRef s this d q r).1 = false ∧
      ∀ j, (divideRef s this d q r).2 j = if j = r then R else if j = q then Q else s j := by
  have hrq : r ≠ q := Ne.symm hqr
  unfold divide at h
  rw [if_neg hz] at h
  unfold divideRef
  rw [if_neg hz]
  refine ⟨rfl, fun j => ?_⟩
  cases hn : is_negative (s this) <;> cases hd : is_negative (s d) <;>
    simp only [hn, hd, write_same, write_other _ _ hrq, write_other _ _ hqr, reset_eq,
      Bool.false_eq_true, if_true, if_false, Bool.xor_false, Bool.xor_true, Bool.not_false,
      Bool.not_true, Option.some.injEq, Prod.mk.injEq, divideLoopRef_apply _ _ _ _ _ hqr] at h ⊢ <;>
    obtain ⟨rfl, rfl⟩ := h <;>
    by_cases h1 : j = r <;> by_cases h2 : j = q <;>
    simp [Store.write, h1, h2, hrq, hqr, divideLoopRef_apply _ _ _ _ _ hqr, reset_eq]

theorem divideRef_thrown (s : Store) (this d q r : Nat) (hz : is_zero (s d) = true) :
    divideRef s this d q r = (true, s) := by
  unfold divideRef
  rw [if_pos hz]

/-- The operators `/=` and `%=` on objects of a store, the divisor being any
object, the dividend included. -/
theorem assign_obj_eq (s : Store) (a b : Nat) (hz : ¬ is_zero (s b) = true)
    (Q R : Words) (h : divide (s a) (s b) = some (Q, R)) :
    operator_div_assign_obj s a b = (false, s.write a Q) ∧
      operator_mod_assign_obj s a b = (false, s.write a R) := by
  have ha : a ≠ max a b + 1 := by omega
  have hb : b ≠ max a b + 1 := by omega
  have e1 : (s.write (max a b + 1) [0]) a = s a := write_other _ _ ha
  have e2 : (s.write (max a b + 1) [0]) b = s b := write_other _ _ hb
  constructor
  · obtain ⟨h1, h2⟩ := divideRef_apply (s.write (max a b + 1) [0]) a b a (max a b + 1) ha
      (by rw [e2]; exact hz) Q R (by rw [e1, e2]; exact h)
    unfold operator_div_assign_obj
    refine Prod.ext h1 (funext fun j => ?_)
    show ((divideRef (s.write (max a b + 1) [0]) a b a (max a b + 1)).2.write (max a b + 1)
      (s (max a b + 1))) j = (s.write a Q) j
    by_cases hj : j = max a b + 1
    · rw [hj, write_same, write_other _ _ (Ne.symm ha)]
    · rw [write_other _ _ hj, h2 j, if_neg hj]
      by_cases hja : j = a
      · rw [if_pos hja, hja, write_same]
      · rw [if_neg hja, write_other _ _ hja, write_other _ _ hj]
  · obtain ⟨h1, h2⟩ := divideRef_apply (s.write (max a b + 1) [0]) a b (max a b + 1) a
      (Ne.symm ha) (by rw [e2]; exact hz) Q R (by rw [e1, e2]; exact h)
    unfold operator_mod_assign_obj
    refine Prod.ext h1 (funext fun j => ?_)
    show ((divideRef (s.write (max a b + 1) [0]) a b (max a b + 1) a).2.write (max a b + 1)
      (s (max a b + 1))) j = (s.write a R) j
    by_cases hj : j = max a b + 1
    · rw [hj, write_same, write_other _ _ (Ne.symm ha)]
    · rw [write_other _ _ hj, h2 j]
      by_cases hja : j = a
      · rw [if_pos hja, hja, write_same]
      · rw [if_neg hja, if_neg hj, write_other _ _ hja, write_other _ _ hj]

/-! ## Exponentiation by squaring on non-negative bases -/

/-- Invariant of the loop of `power` on non-negative values: the result times
the running square raised to the remaining exponent is constant. -/
theorem powerLoop_spec : ∀ (k : Nat) (result aux e : Words),
    Normalized result → Normalized aux → Normalized e →
    0 ≤ val result → 0 ≤ val aux → 0 ≤ val e → val e < 2 ^ k →
    val (powerLoop k result aux e) = val result * val aux ^ (val e).toNat
  | 0, result, aux, e, _, _, _, _, _, h0, hk => by
    have hz : val e = 0 := by
      rw [pow_zero] at hk
      omega
    rw [powerLoop, hz]
    simp
  | k + 1, result, aux, e, hr, ha, he, hr0, ha0, h0, hk => by
    rw [powerLoop]
    by_cases hz : is_zero e = true
    · rw [if_pos hz, (is_zero_iff he).1 hz]
      simp
    · rw [if_neg hz]
      obtain ⟨n, hn⟩ := Int.eq_ofNat_of_zero_le h0
      have hsh := bitwise_shift_right_spec he.1 1
      have hshv := val_shift_right_one he.1
      have haa := multiply_normalized ha ha
      have haav := val_multiply_nonneg ha ha ha0 ha0
      have hk' : val (bitwise_shift_right e 1) < 2 ^ k := by
        rw [hshv]
        rw [pow_succ] at hk
        omega
      have hsh0 : 0 ≤ val (bitwise_shift_right e 1) := by
        rw [hshv]
        omega
      have hexp : (val (bitwise_shift_right e 1)).toNat = n / 2 := by
        rw [hshv, hn]
        omega
      have hn' : (val e).toNat = n := by
        rw [hn]
        rfl
      by_cases hev : is_even e = true
      · rw [if_pos hev]
        have hmod : n % 2 = 0 := by
          have := (is_even_iff e).1 hev
          omega
        rw [powerLoop_spec k result (multiply aux aux) _ hr haa hsh.1 hr0
          (by rw [haav]; positivity) hsh0 hk', haav, hexp, hn', ← sq, ← pow_mul]
        congr 2
        omega
      · rw [if_neg hev]
        have hmod : n % 2 = 1 := by
          have h1 : ¬ val e % 2 = 0 := fun h => hev ((is_even_iff e).2 h)
          omega
        have hra := multiply_normalized hr ha
        have hrav := val_multiply_nonneg hr ha hr0 ha0
        rw [powerLoop_spec k (multiply result aux) (multiply aux aux) _ hra haa hsh.1
          (by rw [hrav]; positivity) (by rw [haav]; positivity) hsh0 hk', hrav, haav, hexp, hn',
          ← sq, ← pow_mul, mul_assoc, ← pow_succ']
        congr 2
        omega

theorem power_nonneg_spec {a e : Words} (ha : Normalized a) (ha0 : 0 ≤ val a)
    (he : Normalized e) (he0 : 0 ≤ val e) :
    ∃ r, power a e = some r ∧ Normalized r ∧ val r = val a ^ (val e).toNat := by
  have hneg : is_negative e = false := by
    cases hc : is_negative e with
    | false => rfl
    | true =>
      have := (is_negative_iff he.1).1 hc
      omega
  have hone : Normalized (ofNative 1) := by decide
  have hv1 : val (ofNative 1) = 1 := by decide
  have hb := (Proper_val_bounds he.1).2
  rw [pow_B_eq] at hb
  refine ⟨powerLoop (31 * e.length) (ofNative 1) a e, ?_, powerLoop_normalized _ _ _ _ hone ha, ?_⟩
  · unfold power
    rw [hneg]
    rfl
  · rw [powerLoop_spec _ _ _ _ hone ha he (by rw [hv1]; norm_num) ha0 he0 hb, hv1, one_mul]

/-! ## Statements about observers, aliasing, normalization, streams and termination -/

/-- Claim C31: for every normalized `a`, `is_zero` holds iff `val a = 0`,
`is_negative` holds iff `val a < 0` and `is_even` holds iff 2 divides `val a`;
and for the Integer parsed from a canonical decimal string `s` other than
"0", `is_zero` is false, `is_negative` is true iff `s` starts with `-`, and
`is_even` is true iff the last digit of `s` is even. -/
theorem observers_value (a : Words) (s : String) (ha : Normalized a)
    (hs : CanonicalDecimal s.data) (hne : s.data ≠ ['0']) :
    ((is_zero a = true ↔ val a = 0) ∧ (is_negative a = true ↔ val a < 0) ∧
      (is_even a = true ↔ 2 ∣ val a)) ∧
    ∃ r, string_to_integer s = some r ∧ Normalized r ∧ is_zero r = false ∧
      (is_negative r = true ↔ s.data.head? = some '-') ∧
      (is_even r = true ↔ (((s.data.getLastD '0').toNat : Int) - 48) % 2 = 0) := by
  refine ⟨⟨is_zero_iff ha, is_negative_iff ha.1, ?_⟩, observers_parsed s hs hne⟩
  rw [is_even_iff]
  omega

theorem observers_value_witness :
    (Normalized [5, -3] ∧ CanonicalDecimal "-120".data ∧ "-120".data ≠ ['0']) ∧
    (((is_zero [5, -3] = true ↔ val [5, -3] = 0) ∧ (is_negative [5, -3] = true ↔ val [5, -3] < 0) ∧
      (is_even [5, -3] = true ↔ 2 ∣ val [5, -3])) ∧
    ∃ r, string_to_integer "-120" = some r ∧ Normalized r ∧ is_zero r = false ∧
      (is_negative r = true ↔ "-120".data.head? = some '-') ∧
      (is_even r = true ↔ ((("-120".data.getLastD '0').toNat : Int) - 48) % 2 = 0)) :=
  ⟨by decide, observers_value [5, -3] "-120" (by decide) (by decide) (by decide)⟩

/-- Claim C32: for every normalized `a` of any sign, negating twice gives the
word vector `a` back, also when a negation changes the word count. -/
theorem negate_twice (a : Words) (ha : Normalized a) : negative (negative a) = a :=
  negative_negative ha

theorem negate_twice_witness :
    Normalized [-2147483648] ∧ negative (negative [-2147483648]) = [-2147483648] :=
  ⟨by decide, negate_twice [-2147483648] (by decide)⟩

/-- Claim C33, evaluation at the failing input: for `a = b = Integer(-2147483648)`
the subtraction `a - b`, the call of `add` with `negative = true`, gives the
words of `2^31`, while `a + (-b)`, the explicit negation followed by the plain
addition, gives the zero value. -/
theorem sub_flag_differs :
    Normalized [-2147483648] ∧
      add [-2147483648] [-2147483648] true = [0, 1] ∧
      negative [-2147483648] = [0, 1] ∧
      add [-2147483648] (negative [-2147483648]) false = [0] ∧
      add [-2147483648] [-2147483648] true ≠ add [-2147483648] (negative [-2147483648]) false := by
  decide

/-- Claim C34: for objects `a` and `b` of a store, `b` not zero and both
normalized, `a /= b` leaves in `a` the quotient and `a %= b` leaves in `a` the
remainder that `divide` computes into fresh outputs, no exception is thrown
and no other object changes; this holds also when `b` is the object `a`
itself, where the quotient is 1 and the remainder is 0. -/
theorem divide_aliasing (s : Store) (a b : Nat) (ha : Normalized (s a)) (hb : Normalized (s b))
    (hb0 : val (s b) ≠ 0) :
    ∃ q r, divide (s a) (s b) = some (q, r) ∧
      operator_div (s a) (s b) = some q ∧ operator_mod (s a) (s b) = some r ∧
      operator_div_assign_obj s a b = (false, s.write a q) ∧
      operator_mod_assign_obj s a b = (false, s.write a r) ∧
      (a = b → q = [1] ∧ r = [0]) := by
  obtain ⟨q, r, h, hq, hr, hqv, hrv, _⟩ := divide_spec ha hb hb0
  have hz : ¬ is_zero (s b) = true := fun hc => hb0 ((is_zero_iff hb).1 hc)
  obtain ⟨h1, h2⟩ := assign_obj_eq s a b hz q r h
  refine ⟨q, r, h, ?_, ?_, h1, h2, fun hab => ?_⟩
  · simp [operator_div, divideCall, h]
  · simp [operator_mod, divideCall, h]
  · rw [hab] at hqv hrv
    rw [Int.tdiv_self hb0] at hqv
    rw [Int.tmod_self] at hrv
    exact ⟨Normalized_unique _ _ hq (by decide) (by rw [hqv]; decide),
      Normalized_unique _ _ hr (by decide) (by rw [hrv]; decide)⟩

theorem divide_aliasing_witness :
    (Normalized ((fun _ => [17] : Store) 0) ∧ val ((fun _ => [17] : Store) 0) ≠ 0) ∧
    ∃ q r, divide ((fun _ => [17] : Store) 0) ((fun _ => [17] : Store) 0) = some (q, r) ∧
      operator_div ((fun _ => [17] : Store) 0) ((fun _ => [17] : Store) 0) = some q ∧
      operator_mod ((fun _ => [17] : Store) 0) ((fun _ => [17] : Store) 0) = some r ∧
      operator_div_assign_obj (fun _ => [17]) 0 0 = (false, Store.write (fun _ => [17]) 0 q) ∧
      operator_mod_assign_obj (fun _ => [17]) 0 0 = (false, Store.write (fun _ => [17]) 0 r) ∧
      (0 = 0 → q = [1] ∧ r = [0]) :=
  ⟨by decide, divide_aliasing (fun _ => [17]) 0 0 (by decide) (by decide) (by decide)⟩

/-- Claim C35: `fix` applied to a non-empty word vector whose words below the
top have bit 31 clear returns a normalized vector of the same value, with no
more words than any such vector of that value; applied again it changes
nothing, on a normalized vector it is the identity, and on the empty vector
it returns the single word 0. -/
theorem fix_normalizes (ws : Words) (h : Proper ws) :
    Normalized (fix ws) ∧ val (fix ws) = val ws ∧
      (∀ b : Words, Proper b → val b = val ws → (fix ws).length ≤ b.length) ∧
      fix (fix ws) = fix ws ∧ (Normalized ws → fix ws = ws) ∧ fix [] = [0] :=
  ⟨fix_normalized h, val_fix h, fun _ hb hv => fix_minimal h hb hv, fix_fix h,
    fun hn => fix_of_normalized hn, fix_nil⟩

theorem fix_normalizes_witness :
    Proper [5, 2147483647, -1] ∧
    (Normalized (fix [5, 2147483647, -1]) ∧ val (fix [5, 2147483647, -1]) = val [5, 2147483647, -1] ∧
      (∀ b : Words, Proper b → val b = val [5, 2147483647, -1] →
        (fix [5, 2147483647, -1]).length ≤ b.length) ∧
      fix (fix [5, 2147483647, -1]) = fix [5, 2147483647, -1] ∧
      (Normalized [5, 2147483647, -1] → fix [5, 2147483647, -1] = [5, 2147483647, -1]) ∧
      fix [] = [0]) :=
  ⟨by decide, fix_normalizes [5, 2147483647, -1] (by decide)⟩

/-- Claim C36: for all normalized `a` and `b` of any sign and length, `a * b`
and `b * a` are the same word vector, a normalized one; the two recursions
agree at every depth bound. -/
theorem multiply_commutative (a b : Words) (ha : Normalized a) (hb : Normalized b) :
    multiply a b = multiply b a ∧ Normalized (multiply a b) ∧
      ∀ fuel, multiplyFuel fuel a b = multiplyFuel fuel b a :=
  ⟨multiply_comm a b, multiply_normalized ha hb, fun fuel => multiplyFuel_comm fuel a b⟩

theorem multiply_commutative_witness :
    (Normalized [5, -3] ∧ Normalized [-7]) ∧
    (multiply [5, -3] [-7] = multiply [-7] [5, -3] ∧ Normalized (multiply [5, -3] [-7]) ∧
      ∀ fuel, multiplyFuel fuel [5, -3] [-7] = multiplyFuel fuel [-7] [5, -3]) :=
  ⟨by decide, multiply_commutative [5, -3] [-7] (by decide) (by decide)⟩

/-- Claim C37, evaluation at the failing inputs: reading the line " 12" keeps
the leading blank in the string handed to the string assignment, and reading
"12abc" keeps the letters, so both reads throw `invalid_argument`; the line
"12" alone is read as 12. -/
theorem stream_read_keeps_line :
    readLoop " 12".data Stream_read_state.SKIP [] = " 12".data ∧
      (operator_extract " 12".data [0]).1 = true ∧
      readLoop "12abc".data Stream_read_state.SKIP [] = "12abc".data ∧
      (operator_extract "12abc".data [0]).1 = true ∧
      operator_extract "12".data [0] = (false, [12]) := by
  decide

/-- Claim C38: for every normalized `a` of any sign and every normalized
non-negative `b`, `a - b` is normalized and denotes `val a - val b`, and
`a - b <= a` under `compare`. -/
theorem sub_nonneg_exact (a b : Words) (ha : Normalized a) (hb : Normalized b)
    (h0 : 0 ≤ val b) :
    Normalized (add a b true) ∧ val (add a b true) = val a - val b ∧
      compare (add a b true) a ≤ 0 ∧ operator_le (add a b true) a = true :=
  ⟨(sub_spec_nonneg ha.1 hb h0).1, (sub_spec_nonneg ha.1 hb h0).2,
    (sub_le_self ha hb h0).1, (sub_le_self ha hb h0).2⟩

theorem sub_nonneg_exact_witness :
    (Normalized [-2147483648] ∧ Normalized [0, 1] ∧ 0 ≤ val [0, 1]) ∧
    (Normalized (add [-2147483648] [0, 1] true) ∧
      val (add [-2147483648] [0, 1] true) = val [-2147483648] - val [0, 1] ∧
      compare (add [-2147483648] [0, 1] true) [-2147483648] ≤ 0 ∧
      operator_le (add [-2147483648] [0, 1] true) [-2147483648] = true) :=
  ⟨by decide, sub_nonneg_exact [-2147483648] [0, 1] (by decide) (by decide) (by decide)⟩

/-- Claim C39: for every normalized non-negative base `a` and every normalized
non-negative exponent `e`, `pow(a, e)` returns a normalized vector denoting
`val a` raised to the power `val e`. -/
theorem power_nonneg_exact (a e : Words) (ha : Normalized a) (ha0 : 0 ≤ val a)
    (he : Normalized e) (he0 : 0 ≤ val e) :
    ∃ r, power a e = some r ∧ Normalized r ∧ val r = val a ^ (val e).toNat :=
  power_nonneg_spec ha ha0 he he0

theorem power_nonneg_exact_witness :
    (Normalized [3] ∧ 0 ≤ val [3] ∧ Normalized [0, 1] ∧ 0 ≤ val [0, 1]) ∧
    ∃ r, power [3] [0, 1] = some r ∧ Normalized r ∧ val r = val [3] ^ (val [0, 1]).toNat :=
  ⟨by decide, power_nonneg_exact [3] [0, 1] (by decide) (by decide) (by decide) (by decide)⟩

/-- Claim C40: on all normalized operands the recursion of `multiply` ends:
run with the depth bound `mulFuel a b` it returns a result, every larger bound
gives the same result, and the result is a normalized vector. -/
theorem multiply_terminates (a b : Words) (ha : Normalized a) (hb : Normalized b) :
    ∃ r, multiplyFuel (mulFuel a b) a b = some r ∧
      (∀ fuel, mulFuel a b ≤ fuel → multiplyFuel fuel a b = some r) ∧
      multiply a b = r ∧ Normalized r :=
  ⟨multiply a b, (multiply_spec ha hb).1 _ (le_refl _), (multiply_spec ha hb).1, rfl,
    (multiply_spec ha hb).2.1⟩

theorem multiply_terminates_witness :
    (Normalized [2147483647, 2147483647] ∧ Normalized [2147483647, -2147483648]) ∧
    ∃ r, multiplyFuel (mulFuel [2147483647, 2147483647] [2147483647, -2147483648])
        [2147483647, 2147483647] [2147483647, -2147483648] = some r ∧
      (∀ fuel, mulFuel [2147483647, 2147483647] [2147483647, -2147483648] ≤ fuel →
        multiplyFuel fuel [2147483647, 2147483647] [2147483647, -2147483648] = some r) ∧
      multiply [2147483647, 2147483647] [2147483647, -2147483648] = r ∧ Normalized r :=
  ⟨by decide, multiply_terminates [2147483647, 2147483647] [2147483647, -2147483648]
    (by decide) (by decide)⟩

end BigInteger
